import Mathlib

/-! SaltyNX: address-space allocator and relocation engine

A shallow embedding of `libnx_min/nx/source/kernel/virtmem.c` and of
`saltysd_core/source/saltysd_dynamic.c`.

Conventions of the embedding:

* `uintptr_t`, `size_t` and `u64` are 64-bit machine words: they are natural
  numbers below `2 ^ 64`, and every addition, subtraction and shift of the
  source is followed by an explicit reduction modulo `2 ^ 64`.
* A pointer is its address; `NULL` is the address `0`.
* The kernel (system calls) and the random source are parameters: the
  system calls are functions from the arguments to the result code and the
  returned value, the random source is the stream of the values it returns,
  indexed by the number of earlier calls.
* `fatalSimple` halts the process: a function that can reach it returns the
  reason of the halt in place of its result.
* Loops without a bound in the source take a `fuel` argument, and their
  outcome says when the fuel is spent before the loop is left.
* The memory that the relocation engine reads and writes is a map from
  byte addresses to bytes. Headers, dynamic entries, symbols, strings,
  relocation entries and slots are little-endian reads of it, and the two
  stores of the source are byte stores: whatever lies in the stored bytes
  changes with them.
-/

namespace SaltyNX

/-! ## Machine words -/

/-- Reduction of a natural number to a 64-bit machine word. -/
def wrap (x : Nat) : Nat := x % 2 ^ 64

/-- Subtraction of 64-bit machine words (`a - b` on `uintptr_t`). -/
def wsub (a b : Nat) : Nat := (a % 2 ^ 64 + (2 ^ 64 - b % 2 ^ 64)) % 2 ^ 64

/-- The mask `~0xFFF` on 64 bits. -/
def PAGE_MASK : Nat := 0xFFFFFFFFFFFFF000

/-- Page rounding, `(size + 0xFFF) &~ 0xFFF`, on 64-bit words. -/
def pageAlign (size : Nat) : Nat := wrap (size + 0xFFF) &&& PAGE_MASK

/-! ## Kernel interface (`kernel/svc.h`, `result.h`, `services/fatal.h`) -/

/-- The `InfoType` identifiers that `virtmem.c` passes to `svcGetInfo`. -/
inductive InfoType where
  | InfoType_AliasRegionAddress
  | InfoType_AliasRegionSize
  | InfoType_HeapRegionAddress
  | InfoType_HeapRegionSize
  | InfoType_AslrRegionAddress
  | InfoType_AslrRegionSize
  | InfoType_StackRegionAddress
  | InfoType_StackRegionSize
  deriving DecidableEq, Repr

/-- The part of `MemoryInfo` that `virtmem.c` reads. -/
structure MemoryInfo where
  addr : Nat
  size : Nat
  type : Nat
  deriving DecidableEq, Repr

/-- The value of `MemType_Unmapped` (the bump allocators test `type != 0`). -/
def MemType_Unmapped : Nat := 0

/-- The system calls used by `virtmem.c`. A result code is a `Result`
(`u32`); `R_SUCCEEDED(rc)` is `rc = 0` and `R_FAILED(rc)` is `rc ≠ 0`. -/
structure Kernel where
  /-- The call `svcGetInfo(&out, id0, CUR_PROCESS_HANDLE, 0)`: result code and `out`. -/
  svcGetInfo : InfoType → Nat × Nat
  /-- The call `svcQueryMemory(&meminfo, &pageinfo, addr)`: result code and `meminfo`. -/
  svcQueryMemory : Nat → Nat × MemoryInfo
  /-- The call `svcUnmapMemory(dst, src, size)`: result code. -/
  svcUnmapMemory : Nat → Nat → Nat → Nat

/-- The reasons for which `virtmem.c` calls `fatalSimple`. -/
inductive Fatal where
  | LibnxError_WeirdKernel
  | LibnxError_BadGetInfo_Stack
  | LibnxError_BadGetInfo_Heap
  | LibnxError_BadQueryMemory
  deriving DecidableEq, Repr

/-! ## Allocator state (`virtmem.c`) -/

/-- The constant `RANDOM_MAX_ATTEMPTS`. -/
def RANDOM_MAX_ATTEMPTS : Nat := 0x200

/-- The struct `MemRegion` (`end` is written `end_`). -/
structure MemRegion where
  start : Nat
  end_ : Nat
  deriving DecidableEq, Repr

/-- The struct `VirtualRegion` (`end` is written `end_`). -/
structure VirtualRegion where
  start : Nat
  end_ : Nat
  deriving DecidableEq, Repr

/-- Index `REGION_STACK` of `g_Region`. -/
def REGION_STACK : Nat := 0
/-- Index `REGION_HEAP` of `g_Region`. -/
def REGION_HEAP : Nat := 1
/-- Index `REGION_LEGACY_ALIAS` of `g_Region`. -/
def REGION_LEGACY_ALIAS : Nat := 2
/-- The bound `REGION_MAX` of `g_Region`. -/
def REGION_MAX : Nat := 3

/-- The file-scope variables of `virtmem.c`. `g_Region` is the array
`g_Region[REGION_MAX]`, `g_Reservations` the linked list of reservations
(the `region` of each node, in list order), `lockedByCurrentThread` what
`mutexIsLockedByCurrentThread(&g_VirtmemMutex)` returns. -/
structure VirtmemState where
  g_AliasRegion : MemRegion
  g_HeapRegion : MemRegion
  g_AslrRegion : MemRegion
  g_StackRegion : MemRegion
  g_AddressSpace : VirtualRegion
  g_Region : List VirtualRegion
  g_CurrentAddr : Nat
  g_CurrentMapAddr : Nat
  g_Reservations : List MemRegion
  lockedByCurrentThread : Bool
  deriving DecidableEq, Repr

/-- The state at process start: every file-scope variable is zero-initialised. -/
def VirtmemState.initial : VirtmemState :=
  { g_AliasRegion := ⟨0, 0⟩, g_HeapRegion := ⟨0, 0⟩, g_AslrRegion := ⟨0, 0⟩,
    g_StackRegion := ⟨0, 0⟩, g_AddressSpace := ⟨0, 0⟩,
    g_Region := [⟨0, 0⟩, ⟨0, 0⟩, ⟨0, 0⟩],
    g_CurrentAddr := 0, g_CurrentMapAddr := 0, g_Reservations := [],
    lockedByCurrentThread := false }

/-- The element `g_Region[i]`. -/
def VirtmemState.region (st : VirtmemState) (i : Nat) : VirtualRegion :=
  st.g_Region.getD i ⟨0, 0⟩

/-- The function `_memregionInitWithInfo`: the result code and the region `*r` afterwards. -/
def _memregionInitWithInfo (k : Kernel) (r : MemRegion) (id0_addr id0_sz : InfoType) :
    Nat × MemRegion :=
  let rc := (k.svcGetInfo id0_addr).1
  let base := wrap (k.svcGetInfo id0_addr).2
  if rc = 0 then
    let rc := (k.svcGetInfo id0_sz).1
    let size := wrap (k.svcGetInfo id0_sz).2
    if rc = 0 then (rc, { start := base, end_ := wrap (base + size) }) else (rc, r)
  else (rc, r)

/-- The function `_memregionOverlaps`. -/
def _memregionOverlaps (r : MemRegion) (start end_ : Nat) : Bool :=
  decide (start < r.end_) && decide (r.start < end_)

/-- The function `_memregionIsMapped` (`out_end` is `NULL` at every call). -/
def _memregionIsMapped (k : Kernel) (start end_ guard : Nat) : Bool :=
  let start := wsub start guard
  let end_ := wrap (end_ + guard)
  let rc := (k.svcQueryMemory start).1
  let meminfo := (k.svcQueryMemory start).2
  if rc ≠ 0 then false
  else
    let memend := wrap (meminfo.addr + meminfo.size)
    if meminfo.type ≠ MemType_Unmapped ∨ end_ > memend then true else false

/-- The function `_memregionIsReserved` (`out_end` is `NULL` at every call). -/
def _memregionIsReserved (st : VirtmemState) (start end_ guard : Nat) : Bool :=
  let start := wsub start guard
  let end_ := wrap (end_ + guard)
  st.g_Reservations.any fun rv => _memregionOverlaps rv start end_

/-- The outcome of a search that draws from the random source: the loop
either returns a value having made `draws` calls of the random source in
all, or is still running when the fuel is spent, having made `draws` calls. -/
inductive Search where
  | returned (value : Nat) (draws : Nat)
  | running (draws : Nat)
  deriving DecidableEq, Repr

/-- The inner `for (;;)` loop of `_memregionFindRandom`: draws page offsets
until the candidate overlaps neither `g_AliasRegion` nor `g_HeapRegion`.
`draws` counts the calls of `__libnx_virtmem_rng` made so far. -/
def pickCandidate (st : VirtmemState) (rng : Nat → Nat) (r : MemRegion)
    (size aslr_max_page_offset : Nat) : Nat → Nat → Search
  | 0, draws => .running draws
  | fuel + 1, draws =>
    let page_offset := wrap (rng draws) % wrap (aslr_max_page_offset + 1)
    let cur_addr := wrap (r.start + wrap (page_offset <<< 12))
    if _memregionOverlaps st.g_AliasRegion cur_addr (wrap (cur_addr + size)) then
      pickCandidate st rng r size aslr_max_page_offset fuel (draws + 1)
    else if _memregionOverlaps st.g_HeapRegion cur_addr (wrap (cur_addr + size)) then
      pickCandidate st rng r size aslr_max_page_offset fuel (draws + 1)
    else .returned cur_addr (draws + 1)

/-- The main allocation loop of `_memregionFindRandom`, with `attempts`
iterations left (`RANDOM_MAX_ATTEMPTS - i`). -/
def findRandomLoop (k : Kernel) (st : VirtmemState) (rng : Nat → Nat) (r : MemRegion)
    (size guard_size aslr_max_page_offset fuel : Nat) : Nat → Nat → Search
  | 0, draws => .returned 0 draws
  | attempts + 1, draws =>
    match pickCandidate st rng r size aslr_max_page_offset fuel draws with
    | .running d => .running d
    | .returned cur_addr d =>
      if _memregionIsMapped k cur_addr (wrap (cur_addr + size)) guard_size then
        findRandomLoop k st rng r size guard_size aslr_max_page_offset fuel attempts d
      else if _memregionIsReserved st cur_addr (wrap (cur_addr + size)) guard_size then
        findRandomLoop k st rng r size guard_size aslr_max_page_offset fuel attempts d
      else .returned cur_addr d

/-- The function `_memregionFindRandom`. `fuel` bounds each run of the inner
`for (;;)` loop; the returned value `0` is `NULL`. -/
def _memregionFindRandom (k : Kernel) (st : VirtmemState) (rng : Nat → Nat) (fuel : Nat)
    (r : MemRegion) (size guard_size : Nat) : Search :=
  let size := pageAlign size
  let guard_size := pageAlign guard_size
  let region_size := wsub r.end_ r.start
  if size > region_size then .returned 0 0
  else
    let aslr_max_page_offset := (region_size - size) >>> 12
    findRandomLoop k st rng r size guard_size aslr_max_page_offset fuel RANDOM_MAX_ATTEMPTS 0

/-- The function `virtmemFindAslr`: the outcome and the state afterwards
(`g_AslrRegion` is queried again at every call). -/
def virtmemFindAslr (k : Kernel) (st : VirtmemState) (rng : Nat → Nat) (fuel : Nat)
    (size guard_size : Nat) : Search × VirtmemState :=
  if !st.lockedByCurrentThread then (.returned 0 0, st)
  else
    let st1 := { st with g_AslrRegion :=
      (_memregionInitWithInfo k st.g_AslrRegion
        .InfoType_AslrRegionAddress .InfoType_AslrRegionSize).2 }
    (_memregionFindRandom k st1 rng fuel st1.g_AslrRegion size guard_size, st1)

/-- The function `_GetRegionFromInfo`: the result code and the region `*r` afterwards. -/
def _GetRegionFromInfo (k : Kernel) (r : VirtualRegion) (id0_addr id0_sz : InfoType) :
    Nat × VirtualRegion :=
  let rc := (k.svcGetInfo id0_addr).1
  let base := wrap (k.svcGetInfo id0_addr).2
  if rc = 0 then
    let rc := (k.svcGetInfo id0_sz).1
    let size := wrap (k.svcGetInfo id0_sz).2
    if rc = 0 then (rc, { start := base, end_ := wrap (base + size) }) else (rc, r)
  else (rc, r)

/-- The function `_InRegion`. -/
def _InRegion (r : VirtualRegion) (addr : Nat) : Bool :=
  decide (addr ≥ r.start) && decide (addr < r.end_)

/-- The assignment `g_Region[i] = r`. -/
def VirtmemState.setRegion (st : VirtmemState) (i : Nat) (r : VirtualRegion) : VirtmemState :=
  { st with g_Region := st.g_Region.set i r }

/-- The first branch of `virtmemSetup`: the ASLR region query and, when it
fails, the `svcUnmapMemory` probe; otherwise the stack region query. -/
def virtmemSetupStack (k : Kernel) (st : VirtmemState) : Except Fatal VirtmemState :=
  let q := _memregionInitWithInfo k st.g_AslrRegion
    .InfoType_AslrRegionAddress .InfoType_AslrRegionSize
  let st := { st with g_AslrRegion := q.2 }
  if q.1 ≠ 0 then
    let rc := k.svcUnmapMemory 0xFFFFFFFFFFFFE000 0xFFFFFE000 0x1000
    if rc = 0xD401 then
      .ok ({ st with g_AddressSpace := ⟨0x200000, 0x100000000⟩ }.setRegion REGION_STACK
        ⟨0x200000, 0x40000000⟩)
    else if rc = 0xDC01 then
      .ok ({ st with g_AddressSpace := ⟨0x8000000, 0x1000000000⟩ }.setRegion REGION_STACK
        ⟨0x8000000, 0x80000000⟩)
    else .error .LibnxError_WeirdKernel
  else
    let s := _GetRegionFromInfo k (st.region REGION_STACK)
      .InfoType_StackRegionAddress .InfoType_StackRegionSize
    if s.1 ≠ 0 then .error .LibnxError_BadGetInfo_Stack
    else .ok (st.setRegion REGION_STACK s.2)

/-- The function `virtmemSetup`. -/
def virtmemSetup (k : Kernel) (st : VirtmemState) : Except Fatal VirtmemState :=
  match virtmemSetupStack k st with
  | .error e => .error e
  | .ok st =>
    let h := _GetRegionFromInfo k (st.region REGION_HEAP)
      .InfoType_HeapRegionAddress .InfoType_HeapRegionSize
    if h.1 ≠ 0 then .error .LibnxError_BadGetInfo_Heap
    else
      let st := st.setRegion REGION_HEAP h.2
      let a := _GetRegionFromInfo k (st.region REGION_LEGACY_ALIAS)
        .InfoType_AliasRegionAddress .InfoType_AliasRegionSize
      .ok (st.setRegion REGION_LEGACY_ALIAS a.2)

/-- The outcome of a bump allocation: the loop returns an address, halts in
`fatalSimple`, or is still running when the fuel is spent. `wraps` counts
how many times the loop sent the cursor back to the start of its region
(the branch `if (!_InRegion(...)) addr = ....start`); it is not a value of
the source. -/
inductive Bump where
  | returned (addr : Nat) (wraps : Nat)
  | fatal (reason : Fatal)
  | running
  deriving DecidableEq, Repr

/-- The loop `for(i=0; i<REGION_MAX; i++)` of `virtmemReserve`, from index
`i` with `n` indices left: the value of `i` when the loop is left. -/
def regionScanFrom (st : VirtmemState) (addr size : Nat) : Nat → Nat → Nat
  | 0, i => i
  | n + 1, i =>
    let end_ := wsub (wrap (addr + size)) 1
    if _InRegion (st.region i) addr || _InRegion (st.region i) end_ then i
    else regionScanFrom st addr size n (i + 1)

/-- The region check of `virtmemReserve`: the value of `i` after the loop. -/
def regionScan (st : VirtmemState) (addr size : Nat) : Nat :=
  regionScanFrom st addr size REGION_MAX 0

/-- The `while (1)` loop of `virtmemReserve`; `size` is page-rounded. -/
def virtmemReserveLoop (k : Kernel) (st : VirtmemState) (size : Nat) :
    Nat → Nat → Nat → Bump
  | 0, _, _ => .running
  | fuel + 1, addr, wraps =>
    let addr := wrap (addr + 0x1000)
    let out := !_InRegion st.g_AddressSpace addr
    let addr := if out then st.g_AddressSpace.start else addr
    let wraps := if out then wraps + 1 else wraps
    let rc := (k.svcQueryMemory addr).1
    let meminfo := (k.svcQueryMemory addr).2
    if rc ≠ 0 then .fatal .LibnxError_BadQueryMemory
    else if meminfo.type ≠ 0 then
      virtmemReserveLoop k st size fuel (wrap (meminfo.addr + meminfo.size)) wraps
    else if size > wrap meminfo.size then
      virtmemReserveLoop k st size fuel (wrap (meminfo.addr + meminfo.size)) wraps
    else
      let i := regionScan st addr size
      if i ≠ REGION_MAX then virtmemReserveLoop k st size fuel (st.region i).end_ wraps
      else .returned addr wraps

/-- The function `virtmemReserve`: the outcome and the state afterwards. -/
def virtmemReserve (k : Kernel) (st : VirtmemState) (fuel : Nat) (size : Nat) :
    Bump × VirtmemState :=
  let size := pageAlign size
  match virtmemReserveLoop k st size fuel st.g_CurrentAddr 0 with
  | .returned addr wraps => (.returned addr wraps, { st with g_CurrentAddr := wrap (addr + size) })
  | r => (r, st)

/-- A sequence of `virtmemReserve` calls, each with the kernel it runs
against, its fuel and its size: the outcomes in call order and the final
state. The sequence stops at the first call that does not return. -/
def reserveCalls : VirtmemState → List (Kernel × Nat × Nat) → List Bump × VirtmemState
  | st, [] => ([], st)
  | st, (k, fuel, size) :: cs =>
    match virtmemReserve k st fuel size with
    | (.returned addr wraps, st1) =>
      ((Bump.returned addr wraps) :: (reserveCalls st1 cs).1, (reserveCalls st1 cs).2)
    | (r, st1) => ([r], st1)

/-- The `while (1)` loop of `virtmemReserveStack`; `size` is page-rounded. -/
def virtmemReserveStackLoop (k : Kernel) (st : VirtmemState) (size : Nat) :
    Nat → Nat → Nat → Bump
  | 0, _, _ => .running
  | fuel + 1, addr, wraps =>
    let addr := wrap (addr + 0x1000)
    let out := !_InRegion (st.region REGION_STACK) addr
    let addr := if out then (st.region REGION_STACK).start else addr
    let wraps := if out then wraps + 1 else wraps
    let rc := (k.svcQueryMemory addr).1
    let meminfo := (k.svcQueryMemory addr).2
    if rc ≠ 0 then .fatal .LibnxError_BadQueryMemory
    else if meminfo.type ≠ 0 then
      virtmemReserveStackLoop k st size fuel (wrap (meminfo.addr + meminfo.size)) wraps
    else if size > wrap meminfo.size then
      virtmemReserveStackLoop k st size fuel (wrap (meminfo.addr + meminfo.size)) wraps
    else .returned addr wraps

/-- The function `virtmemReserveStack`: the outcome and the state afterwards. -/
def virtmemReserveStack (k : Kernel) (st : VirtmemState) (fuel : Nat) (size : Nat) :
    Bump × VirtmemState :=
  let size := pageAlign size
  match virtmemReserveStackLoop k st size fuel st.g_CurrentMapAddr 0 with
  | .returned addr wraps =>
    (.returned addr wraps, { st with g_CurrentMapAddr := wrap (addr + size) })
  | r => (r, st)

/-! ## ELF structures and constants (`elf.h`) -/

/-- Dynamic tag `DT_NULL`. -/
def DT_NULL : Nat := 0
/-- Dynamic tag `DT_PLTRELSZ`. -/
def DT_PLTRELSZ : Nat := 2
/-- Dynamic tag `DT_STRTAB`. -/
def DT_STRTAB : Nat := 5
/-- Dynamic tag `DT_SYMTAB`. -/
def DT_SYMTAB : Nat := 6
/-- Dynamic tag `DT_RELA`. -/
def DT_RELA : Nat := 7
/-- Dynamic tag `DT_RELASZ`. -/
def DT_RELASZ : Nat := 8
/-- Dynamic tag `DT_RELR`. -/
def DT_RELR : Nat := 35
/-- Dynamic tag `DT_RELRSZ`. -/
def DT_RELRSZ : Nat := 36

/-- Relocation type `R_AARCH64_ABS64`. -/
def R_AARCH64_ABS64 : Nat := 257
/-- Relocation type `R_AARCH64_GLOB_DAT`. -/
def R_AARCH64_GLOB_DAT : Nat := 1025
/-- Relocation type `R_AARCH64_JUMP_SLOT`. -/
def R_AARCH64_JUMP_SLOT : Nat := 1026
/-- Relocation type `R_AARCH64_RELATIVE`. -/
def R_AARCH64_RELATIVE : Nat := 1027

/-- The size `sizeof(Elf64_Sym)`. -/
def SIZEOF_SYM : Nat := 24
/-- The size `sizeof(Elf64_Rela)`. -/
def SIZEOF_RELA : Nat := 24

/-- The struct `Elf64_Dyn`; `d_un` is the union of `d_val` and `d_ptr`. -/
structure Elf64_Dyn where
  d_tag : Nat
  d_un : Nat
  deriving DecidableEq, Repr

/-- The struct `Elf64_Sym`. -/
structure Elf64_Sym where
  st_name : Nat
  st_info : Nat
  st_other : Nat
  st_shndx : Nat
  st_value : Nat
  st_size : Nat
  deriving DecidableEq, Repr

/-- The struct `Elf64_Rela`; the signed `r_addend` is held as its 64-bit
two's-complement word. -/
structure Elf64_Rela where
  r_offset : Nat
  r_info : Nat
  r_addend : Nat
  deriving DecidableEq, Repr

/-- The macro `ELF64_R_SYM`, cast to `uint32_t` as the source does. -/
def ELF64_R_SYM (i : Nat) : Nat := (i >>> 32) % 2 ^ 32

/-- The macro `ELF64_R_TYPE`. -/
def ELF64_R_TYPE (i : Nat) : Nat := i &&& 0xffffffff

/-! ## Process memory as the linker reads it

The memory is an array of bytes indexed by the 64-bit addresses. An access
`*(T*)p` reads or writes the `sizeof(T)` bytes from `p`, in little-endian
order (AArch64); objects that share bytes alias. The address of a byte is
reduced modulo `2 ^ 64`. The walk of the dynamic section up to `DT_NULL`
visits at most the `2 ^ 60` entries that the address space holds, and a
string is read up to its NUL, over at most `2 ^ 64` bytes. -/

/-- The memory of the process: the byte stored at each address. -/
structure Memory where
  byte : Nat → Nat

/-- The `uint8_t` stored at an address. -/
def Memory.u8 (m : Memory) (a : Nat) : Nat := m.byte (wrap a) % 256

/-- The little-endian integer held in the `n` bytes from an address. -/
def Memory.readLE (m : Memory) (a : Nat) : Nat → Nat
  | 0 => 0
  | n + 1 => m.u8 a + 256 * m.readLE (a + 1) n

/-- The `uint16_t` stored at an address. -/
def Memory.u16 (m : Memory) (a : Nat) : Nat := m.readLE a 2

/-- The `uint32_t` stored at an address (the fields of `nso_header`, `mod0_header`). -/
def Memory.u32 (m : Memory) (a : Nat) : Nat := m.readLE a 4

/-- The `uint64_t` stored at an address. -/
def Memory.u64 (m : Memory) (a : Nat) : Nat := m.readLE a 8

/-- The 8-byte word (`void*`, `uint64_t`) stored at an address. -/
def Memory.slot (m : Memory) (a : Nat) : Nat := m.u64 a

/-- The `Elf64_Sym` stored at an address. -/
def Memory.sym (m : Memory) (a : Nat) : Elf64_Sym :=
  ⟨m.u32 a, m.u8 (a + 4), m.u8 (a + 5), m.u16 (a + 6), m.u64 (a + 8), m.u64 (a + 16)⟩

/-- The `Elf64_Rela` stored at an address. -/
def Memory.rela (m : Memory) (a : Nat) : Elf64_Rela :=
  ⟨m.u64 a, m.u64 (a + 8), m.u64 (a + 16)⟩

/-- The loop `for (; dyn->d_tag != DT_NULL; dyn++)` from the address `a`:
the entries met before the `DT_NULL` entry. -/
def Memory.dynScan (m : Memory) : Nat → Nat → List Elf64_Dyn
  | 0, _ => []
  | fuel + 1, a =>
    if m.u64 a = DT_NULL then []
    else ⟨m.u64 a, m.u64 (a + 8)⟩ :: m.dynScan fuel (wrap (a + 16))

/-- The `Elf64_Dyn` entries stored from an address up to the `DT_NULL` entry. -/
def Memory.dyn (m : Memory) (a : Nat) : List Elf64_Dyn := m.dynScan (2 ^ 60) a

/-- The characters of the string stored from the address `a` up to its NUL. -/
def Memory.strScan (m : Memory) : Nat → Nat → List Char
  | 0, _ => []
  | fuel + 1, a =>
    if m.u8 a = 0 then [] else Char.ofNat (m.u8 a) :: m.strScan fuel (a + 1)

/-- The NUL-terminated string stored at an address, a byte being the
character of that code. -/
def Memory.str (m : Memory) (a : Nat) : String := String.mk (m.strScan (2 ^ 64) a)

/-- The store of the `n` low bytes of `v`, in little-endian order, from the address `p`. -/
def Memory.storeLE (m : Memory) (p v n : Nat) : Memory :=
  { byte := fun a => if wsub a p < n then (v / 256 ^ wsub a p) % 256 else m.byte a }

/-- The copy of the 24 bytes of the `Elf64_Rela` `v` to the address `p`
(done by `SaltySD_Memcpy`). -/
def Memory.writeRela (m : Memory) (p : Nat) (v : Elf64_Rela) : Memory :=
  ((m.storeLE p v.r_offset 8).storeLE (p + 8) v.r_info 8).storeLE (p + 16) v.r_addend 8

/-- The store `*(uint64_t*)p = v`. -/
def Memory.writeSlot (m : Memory) (p : Nat) (v : Nat) : Memory :=
  m.storeLE p v 8

/-- The element `symtab[i]`. -/
def Memory.symAt (m : Memory) (symtab i : Nat) : Elf64_Sym :=
  m.sym (wrap (symtab + SIZEOF_SYM * i))

/-- The string `strtab + symtab[i].st_name`. -/
def Memory.symName (m : Memory) (symtab strtab i : Nat) : String :=
  m.str (wrap (strtab + (m.symAt symtab i).st_name))

/-- The dynamic section of the image at `base`: the entries from
`(void*)modheader + modheader->dynamic` up to `DT_NULL`, with `modheader`
at `base + header->mod`. `mod` and `dynamic` are the second `uint32_t` of
their headers. -/
def Memory.dynamicOf (m : Memory) (base : Nat) : List Elf64_Dyn :=
  let modheader := wrap (base + m.u32 (wrap (base + 4)))
  m.dyn (wrap (modheader + m.u32 (wrap (modheader + 4))))

/-! ## Linker state (`saltysd_dynamic.c`) -/

/-- The struct `ReplacedSymbol`; the name is held by value. -/
structure ReplacedSymbol where
  address : Nat
  name : String
  deriving DecidableEq, Repr

/-- The file-scope variables of `saltysd_dynamic.c` and the memory.
`num_elfs`, `num_builtin_elfs` and `num_replaced_symbols` are the lengths
of the lists. -/
structure LinkerState where
  mem : Memory
  elfs : List Nat
  builtin_elfs : List Nat
  replaced_symbols : List ReplacedSymbol
  relr_available : Bool

/-- The state with the memory `m`. -/
def LinkerState.withMem (s : LinkerState) (m : Memory) : LinkerState :=
  { s with mem := m }

/-- The local variables that the dynamic-section walks set. -/
structure DynTables where
  symtab : Nat
  strtab : Nat
  rela : Nat
  relasz : Nat
  relr : Bool
  deriving DecidableEq, Repr

/-- The `switch (dyn->d_tag)` of `SaltySDCore_GetSymbolAddr`. -/
def symbolDynStep (base : Nat) (t : DynTables) (d : Elf64_Dyn) : DynTables :=
  if d.d_tag = DT_SYMTAB then { t with symtab := wrap (base + d.d_un) }
  else if d.d_tag = DT_STRTAB then { t with strtab := wrap (base + d.d_un) }
  else t

/-- The `switch (dyn->d_tag)` of `SaltySDCore_ReplaceModuleImport` and of
`SaltySDCore_DynamicLinkModule` (the same cases in both). -/
def relocDynStep (base : Nat) (t : DynTables) (d : Elf64_Dyn) : DynTables :=
  if d.d_tag = DT_SYMTAB then { t with symtab := wrap (base + d.d_un) }
  else if d.d_tag = DT_STRTAB then { t with strtab := wrap (base + d.d_un) }
  else if d.d_tag = DT_RELA then { t with rela := wrap (base + d.d_un) }
  else if d.d_tag = DT_RELR then { t with relr := true }
  else if d.d_tag = DT_RELASZ then
    { t with relasz := wrap (t.relasz + wrap d.d_un / SIZEOF_RELA) }
  else if d.d_tag = DT_PLTRELSZ then
    { t with relasz := wrap (t.relasz + wrap d.d_un / SIZEOF_RELA) }
  else t

/-- The dynamic-section walk of `SaltySDCore_GetSymbolAddr`. -/
def symbolTables (m : Memory) (base : Nat) : DynTables :=
  (m.dynamicOf base).foldl (symbolDynStep base) ⟨0, 0, 0, 0, false⟩

/-- The dynamic-section walk of `SaltySDCore_ReplaceModuleImport` and of
`SaltySDCore_DynamicLinkModule`, from the current `relr_available`. -/
def relocTables (m : Memory) (base : Nat) (relr : Bool) : DynTables :=
  (m.dynamicOf base).foldl (relocDynStep base) ⟨0, 0, 0, 0, relr⟩

/-- The count `numsyms = ((void*)strtab - (void*)symtab) / sizeof(Elf64_Sym)`. -/
def numsymsOf (t : DynTables) : Nat := wsub t.strtab t.symtab / SIZEOF_SYM

/-- The function `SaltySDCore_GetSymbolAddr`. The loop index `i` runs over
`0 .. numsyms - 1` as a natural number. -/
def SaltySDCore_GetSymbolAddr (m : Memory) (base : Nat) (name : String) : Nat :=
  let t := symbolTables m base
  match (List.range (numsymsOf t)).find? fun i =>
      decide (m.symName t.symtab t.strtab i = name) && decide ((m.symAt t.symtab i).st_value ≠ 0) with
  | some i => wrap (base + (m.symAt t.symtab i).st_value)
  | none => 0

/-- The search loop of `SaltySDCore_FindSymbol` and of
`SaltySDCore_FindSymbolBuiltin` over a list of images. -/
def findSymbolIn (m : Memory) (name : String) : List Nat → Nat
  | [] => 0
  | base :: rest =>
    let ptr := SaltySDCore_GetSymbolAddr m base name
    if ptr ≠ 0 then ptr else findSymbolIn m name rest

/-- The function `SaltySDCore_FindSymbol`. -/
def SaltySDCore_FindSymbol (s : LinkerState) (name : String) : Nat :=
  findSymbolIn s.mem name s.elfs

/-- The function `SaltySDCore_FindSymbolBuiltin`. -/
def SaltySDCore_FindSymbolBuiltin (s : LinkerState) (name : String) : Nat :=
  findSymbolIn s.mem name s.builtin_elfs

/-- The function `SaltySDCore_RegisterModule`. -/
def SaltySDCore_RegisterModule (s : LinkerState) (base : Nat) : LinkerState :=
  { s with elfs := s.elfs ++ [base] }

/-- The function `SaltySDCore_RegisterBuiltinModule`. -/
def SaltySDCore_RegisterBuiltinModule (s : LinkerState) (base : Nat) : LinkerState :=
  { s with builtin_elfs := s.builtin_elfs ++ [base] }

/-- The detection loop of `SaltySDCore_ReplaceModuleImport` from index `i`:
`(detected, detecteditr)` afterwards. -/
def detectFrom (name : String) : List ReplacedSymbol → Nat → Bool × Nat → Bool × Nat
  | [], _, acc => acc
  | r :: rs, i, acc =>
    if name = r.name then detectFrom name rs (i + 1) (true, i)
    else detectFrom name rs (i + 1) acc

/-- The block `if (!update) { ... }` of `SaltySDCore_ReplaceModuleImport`:
the registry and `newfunc` afterwards. -/
def registerReplacement (rs : List ReplacedSymbol) (name : String) (newfunc : Nat) :
    List ReplacedSymbol × Nat :=
  let d := detectFrom name rs 0 (false, 0)
  if !d.1 then (rs ++ [⟨newfunc, name⟩], newfunc)
  else (rs, (rs.getD d.2 ⟨0, ""⟩).address)

/-- The entry `replacement` that `SaltySDCore_ReplaceModuleImport` builds
from the entry `e`: a copy of `e` with the addend
`e.r_addend + (uint64_t)newfunc - orig`, `orig` being the builtin-scope
resolution of the symbol name. -/
def rewriteAddend (e : Elf64_Rela) (newfunc orig : Nat) : Elf64_Rela :=
  { e with r_addend := wsub (wrap (e.r_addend + newfunc)) orig }

/-- The relocation loop `for (; relasz--; rela++, rela_idx++)` of
`SaltySDCore_ReplaceModuleImport`, with `n` entries left. -/
def replaceLoop (base : Nat) (name : String) (newfunc : Nat) (update : Bool)
    (t : DynTables) : Nat → Nat → LinkerState → LinkerState
  | 0, _, s => s
  | n + 1, rela, s =>
    let e := s.mem.rela rela
    let next := replaceLoop base name newfunc update t n (wrap (rela + SIZEOF_RELA))
    if ELF64_R_TYPE e.r_info = R_AARCH64_RELATIVE then next s
    else
      let sym_idx := ELF64_R_SYM e.r_info
      if sym_idx ≥ numsymsOf t then next s
      else
        let rel_name := s.mem.symName t.symtab t.strtab sym_idx
        if name ≠ rel_name then next s
        else if !update then
          let replacement :=
            rewriteAddend e newfunc (SaltySDCore_FindSymbolBuiltin s rel_name)
          next (s.withMem (s.mem.writeRela rela replacement))
        else next (s.withMem (s.mem.writeSlot (wrap (base + e.r_offset)) newfunc))

/-- The function `SaltySDCore_ReplaceModuleImport`. -/
def SaltySDCore_ReplaceModuleImport (s : LinkerState) (base : Nat) (name : String)
    (newfunc : Nat) (update : Bool) : LinkerState :=
  let t := relocTables s.mem base s.relr_available
  let s := { s with relr_available := t.relr }
  if t.rela = 0 ∨ t.symtab = 0 ∨ t.strtab = 0 then s
  else
    let reg := if !update then registerReplacement s.replaced_symbols name newfunc
      else (s.replaced_symbols, newfunc)
    replaceLoop base name reg.2 update t t.relasz t.rela { s with replaced_symbols := reg.1 }

/-- The loop of `SaltySDCore_ReplaceImport` over the builtin images left. -/
def replaceImportLoop (name : String) (newfunc : Nat) : List Nat → LinkerState → LinkerState
  | [], s => s
  | base :: rest, s =>
    replaceImportLoop name newfunc rest (SaltySDCore_ReplaceModuleImport s base name newfunc false)

/-- The function `SaltySDCore_ReplaceImport`. -/
def SaltySDCore_ReplaceImport (s : LinkerState) (name : String) (newfunc : Nat) : LinkerState :=
  replaceImportLoop name newfunc s.builtin_elfs s

/-- The value `sym_val` that the loop of `SaltySDCore_DynamicLinkModule`
computes for the symbol index `sym_idx`. -/
def linkSymVal (s : LinkerState) (base : Nat) (t : DynTables) (sym_idx : Nat) : Nat :=
  let name := s.mem.symName t.symtab t.strtab sym_idx
  let st_value := (s.mem.symAt t.symtab sym_idx).st_value
  let sym_val := wrap (base + st_value)
  let sym_val := if st_value = 0 then 0 else sym_val
  if (s.mem.symAt t.symtab sym_idx).st_shndx = 0 ∧ sym_idx ≠ 0 then
    SaltySDCore_FindSymbol s name
  else sym_val

/-- The relocation types of the `switch (ELF64_R_TYPE(rela->r_info))` of
`SaltySDCore_DynamicLinkModule`. -/
def linkWrites (e : Elf64_Rela) : Bool :=
  decide (ELF64_R_TYPE e.r_info = R_AARCH64_GLOB_DAT) ||
  decide (ELF64_R_TYPE e.r_info = R_AARCH64_JUMP_SLOT) ||
  decide (ELF64_R_TYPE e.r_info = R_AARCH64_ABS64)

/-- The relocation loop `for (; relasz--; rela++)` of
`SaltySDCore_DynamicLinkModule`, with `n` entries left. -/
def linkLoop (base : Nat) (t : DynTables) : Nat → Nat → LinkerState → LinkerState
  | 0, _, s => s
  | n + 1, rela, s =>
    let e := s.mem.rela rela
    let next := linkLoop base t n (wrap (rela + SIZEOF_RELA))
    if ELF64_R_TYPE e.r_info = R_AARCH64_RELATIVE then next s
    else
      let sym_val := linkSymVal s base t (ELF64_R_SYM e.r_info)
      let sym_val_and_addend := wrap (sym_val + e.r_addend)
      if linkWrites e then
        next (s.withMem (s.mem.writeSlot (wrap (base + e.r_offset)) sym_val_and_addend))
      else next s

/-- The function `SaltySDCore_DynamicLinkModule`. -/
def SaltySDCore_DynamicLinkModule (s : LinkerState) (base : Nat) : LinkerState :=
  let t := relocTables s.mem base s.relr_available
  let s := { s with relr_available := t.relr }
  if t.rela = 0 then s
  else linkLoop base t t.relasz t.rela s

/-- What the call of the host routine behind `roLoadModule` did: the
result code it returned, the memory it left, and the fields `module_base`
and `module_base_new` of `pOutModule->ModuleObject`. -/
structure RoLoad where
  ret : Nat
  mem : Memory
  module_base : Nat
  module_base_new : Nat

/-- The loop `for (int x = 0; x < num_replaced_symbols; x++)` of
`LoadModule` from index `x`, with `n` iterations left at most; `base` is
`module_base` when it is not `NULL`, `module_base_new` otherwise. -/
def loadModuleLoop (base : Nat) : Nat → Nat → LinkerState → LinkerState
  | 0, _, s => s
  | n + 1, x, s =>
    if x < s.replaced_symbols.length then
      loadModuleLoop base n (x + 1)
        (SaltySDCore_ReplaceModuleImport s base (s.replaced_symbols.getD x ⟨0, ""⟩).name
          (s.replaced_symbols.getD x ⟨0, ""⟩).address true)
    else s

/-- The function `LoadModule`: the result code and the state afterwards.
The loop is given `num_replaced_symbols` iterations, the count at its start. -/
def LoadModule (s : LinkerState) (ro : RoLoad) : Nat × LinkerState :=
  if ro.ret = 0 then
    (ro.ret, loadModuleLoop (if ro.module_base ≠ 0 then ro.module_base else ro.module_base_new)
      s.replaced_symbols.length 0 (s.withMem ro.mem))
  else (ro.ret, s.withMem ro.mem)

/-! ## Vocabulary of the statements -/

/-- The live memory map reports the address `x` as mapped: the query at `x`
succeeds and the type of the block it returns is not `MemType_Unmapped`. -/
def Kernel.mappedAt (k : Kernel) (x : Nat) : Prop :=
  (k.svcQueryMemory x).1 = 0 ∧ (k.svcQueryMemory x).2.type ≠ MemType_Unmapped

/-- The memory map is coherent: a successful query at an address `q`
returns a block `[addr, addr + size)` that contains `q` and lies within the
64-bit address space, and the query at every address of that block returns
the same answer. -/
def MemoryMapCoherent (k : Kernel) : Prop :=
  ∀ q, q < 2 ^ 64 → (k.svcQueryMemory q).1 = 0 →
    (k.svcQueryMemory q).2.addr ≤ q ∧
    q < (k.svcQueryMemory q).2.addr + (k.svcQueryMemory q).2.size ∧
    (k.svcQueryMemory q).2.addr + (k.svcQueryMemory q).2.size ≤ 2 ^ 64 ∧
    ∀ x, (k.svcQueryMemory q).2.addr ≤ x →
      x < (k.svcQueryMemory q).2.addr + (k.svcQueryMemory q).2.size →
      k.svcQueryMemory x = k.svcQueryMemory q

instance (k : Kernel) (x : Nat) : Decidable (k.mappedAt x) := by
  unfold Kernel.mappedAt; infer_instance

/-- A call of the linker's interface. -/
inductive LinkerCall where
  | registerModule (base : Nat)
  | registerBuiltinModule (base : Nat)
  | replaceModuleImport (base : Nat) (name : String) (newfunc : Nat) (update : Bool)
  | replaceImport (name : String) (newfunc : Nat)
  | dynamicLinkModule (base : Nat)
  | loadModule (ro : RoLoad)

/-- The state after a call of the linker's interface. -/
def LinkerCall.run (s : LinkerState) : LinkerCall → LinkerState
  | .registerModule base => SaltySDCore_RegisterModule s base
  | .registerBuiltinModule base => SaltySDCore_RegisterBuiltinModule s base
  | .replaceModuleImport base name newfunc update =>
    SaltySDCore_ReplaceModuleImport s base name newfunc update
  | .replaceImport name newfunc => SaltySDCore_ReplaceImport s name newfunc
  | .dynamicLinkModule base => SaltySDCore_DynamicLinkModule s base
  | .loadModule ro => (LoadModule s ro).2

/-- The state after a sequence of calls of the linker's interface. -/
def runCalls (s : LinkerState) (calls : List LinkerCall) : LinkerState :=
  calls.foldl LinkerCall.run s

/-- The address of the relocation entry `rela[i]`. -/
def relaAt (rela i : Nat) : Nat := wrap (rela + SIZEOF_RELA * i)

/-- The relocation entry matches the target of
`SaltySDCore_ReplaceModuleImport`: it is not a load-bias entry, its symbol
index is within the symbol table and its symbol name is `name`. -/
def relaTargets (m : Memory) (t : DynTables) (name : String) (e : Elf64_Rela) : Bool :=
  decide (ELF64_R_TYPE e.r_info ≠ R_AARCH64_RELATIVE) &&
  decide (ELF64_R_SYM e.r_info < numsymsOf t) &&
  decide (m.symName t.symtab t.strtab (ELF64_R_SYM e.r_info) = name)

/-- The replacement address that the registry holds for `name`: the
`address` of the entry that the detection loop of
`SaltySDCore_ReplaceModuleImport` selects, if it detects one. -/
def hookOf (rs : List ReplacedSymbol) (name : String) : Option Nat :=
  if (detectFrom name rs 0 (false, 0)).1 then
    some (rs.getD (detectFrom name rs 0 (false, 0)).2 ⟨0, ""⟩).address
  else none

/-- The tables that the relocation walks find in the image at `base`. -/
def imageTables (s : LinkerState) (base : Nat) : DynTables :=
  relocTables s.mem base s.relr_available

/-- The relocation entry `rela[j]` of the image at `base`. -/
def relaEntry (s : LinkerState) (base j : Nat) : Elf64_Rela :=
  s.mem.rela (relaAt (imageTables s base).rela j)

/-- The symbol `symtab[ELF64_R_SYM(rela[j].r_info)]` of the image at `base`. -/
def relaSymbol (s : LinkerState) (base j : Nat) : Elf64_Sym :=
  s.mem.symAt (imageTables s base).symtab (ELF64_R_SYM (relaEntry s base j).r_info)

/-- The name of the symbol of the relocation entry `rela[j]` of the image at `base`. -/
def relaSymbolName (s : LinkerState) (base j : Nat) : String :=
  s.mem.symName (imageTables s base).symtab (imageTables s base).strtab
    (ELF64_R_SYM (relaEntry s base j).r_info)

/-- The address `base + r_offset` of the slot of a relocation entry. -/
def slotOf (base : Nat) (e : Elf64_Rela) : Nat := wrap (base + e.r_offset)

/-- The image at `base` has a relocation array, a symbol table and a string
table: the three pointers that `SaltySDCore_ReplaceModuleImport` tests are
not `NULL`. -/
def hasTables (m : Memory) (base : Nat) : Prop :=
  (relocTables m base false).rela ≠ 0 ∧ (relocTables m base false).symtab ≠ 0 ∧
  (relocTables m base false).strtab ≠ 0

instance (m : Memory) (base : Nat) : Decidable (hasTables m base) := by
  unfold hasTables; infer_instance

/-- The bound `aslr_max_page_offset` that `_memregionFindRandom` computes
for the region `r` and the page-rounded size `size`. -/
def aslrMaxPageOffset (r : MemRegion) (size : Nat) : Nat :=
  (wsub r.end_ r.start - size) >>> 12

/-- The candidate `cur_addr` that `_memregionFindRandom` computes for the
region `r` and the page-rounded size `size` from the value `v` of the
random source. -/
def candidateAddr (r : MemRegion) (size v : Nat) : Nat :=
  wrap (r.start + wrap ((wrap v % wrap (aslrMaxPageOffset r size + 1)) <<< 12))

/-- The byte ranges `[a, a + k)` and `[p, p + n)` of the 64-bit address
space, taken cyclically, have no byte in common. -/
def apart (a k p n : Nat) : Bool := decide (n ≤ wsub a p) && decide (k ≤ wsub p a)

/-- The range `[a, a + k)` is apart from every range `(p, n)` of the list `ws`. -/
def apartAll (a k : Nat) (ws : List (Nat × Nat)) : Bool :=
  ws.all fun w => apart a k w.1 w.2

/-- The memory `m'` holds the bytes of `m` at every address outside the
ranges `ws`. -/
def Memory.sameOutside (m m' : Memory) (ws : List (Nat × Nat)) : Prop :=
  ∀ a, a < 2 ^ 64 → (∀ w ∈ ws, w.2 ≤ wsub a w.1) → m'.byte a = m.byte a

/-- The entries that the walk of the dynamic section from `a` reads, the
`DT_NULL` entry included, are apart from the ranges `ws`. -/
def Memory.dynClear (m : Memory) (ws : List (Nat × Nat)) : Nat → Nat → Bool
  | 0, _ => true
  | fuel + 1, a =>
    apartAll a 16 ws &&
      (if m.u64 a = DT_NULL then true else m.dynClear ws fuel (wrap (a + 16)))

/-- The bytes of the string stored at `a`, its NUL included, are apart from
the ranges `ws`. -/
def Memory.strClear (m : Memory) (ws : List (Nat × Nat)) : Nat → Nat → Bool
  | 0, _ => true
  | fuel + 1, a =>
    apartAll a 1 ws && (if m.u8 a = 0 then true else m.strClear ws fuel (a + 1))

/-- The symbol `symtab[i]` and its name are apart from the ranges `ws`. -/
def Memory.symClear (m : Memory) (symtab strtab i : Nat) (ws : List (Nat × Nat)) : Bool :=
  apartAll (wrap (symtab + SIZEOF_SYM * i)) 24 ws &&
    m.strClear ws (2 ^ 64) (wrap (strtab + (m.symAt symtab i).st_name))

/-- What `SaltySDCore_GetSymbolAddr` reads of the image at `base` is apart
from the ranges `ws`: the two header fields, the dynamic section, and the
symbols `0 .. numsyms - 1` with their names. -/
def Memory.imageClear (m : Memory) (base : Nat) (ws : List (Nat × Nat)) : Bool :=
  apartAll (wrap (base + 4)) 4 ws &&
  apartAll (wrap (wrap (base + m.u32 (wrap (base + 4))) + 4)) 4 ws &&
  m.dynClear ws (2 ^ 60)
    (wrap (wrap (base + m.u32 (wrap (base + 4))) +
      m.u32 (wrap (wrap (base + m.u32 (wrap (base + 4))) + 4)))) &&
  (List.range (numsymsOf (symbolTables m base))).all fun i =>
    m.symClear (symbolTables m base).symtab (symbolTables m base).strtab i ws

/-- The bytes of the relocation array of the tables `t`. -/
def relaArray (t : DynTables) : List (Nat × Nat) := [(t.rela, SIZEOF_RELA * t.relasz)]

/-- The 8-byte slots that `SaltySDCore_DynamicLinkModule` writes on the
image at `base`: the slots `base + r_offset` of the relocation entries of
type `ABS64`, `GLOB_DAT` or `JUMP_SLOT`. -/
def linkSlots (s : LinkerState) (base : Nat) : List (Nat × Nat) :=
  (List.range (imageTables s base).relasz).filterMap fun i =>
    if linkWrites (relaEntry s base i) then some (slotOf base (relaEntry s base i), 8) else none

/-- The 8-byte slots that `SaltySDCore_ReplaceModuleImport` writes on the
image at `base` with `update = true`: the slots `base + r_offset` of the
relocation entries that match the target `name`. -/
def targetSlots (s : LinkerState) (base : Nat) (name : String) : List (Nat × Nat) :=
  (List.range (imageTables s base).relasz).filterMap fun i =>
    if relaTargets s.mem (imageTables s base) name (relaEntry s base i) then
      some (slotOf base (relaEntry s base i), 8)
    else none

/-! ## Concrete kernels, states and images used by the examples -/

/-- A memory map with nothing mapped below `2 ^ 36` and one inaccessible
block above. -/
def emptyMap (q : Nat) : Nat × MemoryInfo :=
  if q < 0x1000000000 then (0, ⟨0, 0x1000000000, 0⟩)
  else (0, ⟨0x1000000000, 0xFFFFFFF000000000, 0x10⟩)

/-- A kernel that answers every region query: ASLR region
`[0x8000000, 0x48000000)`, heap region `[0x10000000, 0x20000000)`, alias
region `[0x20000000, 0x30000000)`, stack region `[0x30000000, 0x38000000)`;
nothing is mapped. -/
def kernelPrimary : Kernel :=
  { svcGetInfo := fun id =>
      match id with
      | .InfoType_AslrRegionAddress => (0, 0x8000000)
      | .InfoType_AslrRegionSize => (0, 0x40000000)
      | .InfoType_HeapRegionAddress => (0, 0x10000000)
      | .InfoType_HeapRegionSize => (0, 0x10000000)
      | .InfoType_AliasRegionAddress => (0, 0x20000000)
      | .InfoType_AliasRegionSize => (0, 0x10000000)
      | .InfoType_StackRegionAddress => (0, 0x30000000)
      | .InfoType_StackRegionSize => (0, 0x8000000),
    svcQueryMemory := emptyMap,
    svcUnmapMemory := fun _ _ _ => 0 }

/-- The state that `virtmemSetup` reaches from the initial state against
`kernelPrimary`. -/
def statePrimary : VirtmemState :=
  { VirtmemState.initial with
    g_AslrRegion := ⟨0x8000000, 0x48000000⟩,
    g_Region := [⟨0x30000000, 0x38000000⟩, ⟨0x10000000, 0x20000000⟩, ⟨0x20000000, 0x30000000⟩] }

/-- A state whose heap record `g_HeapRegion` holds `[0x10000000, 0x20000000)`. -/
def stateHeapRecord : VirtmemState :=
  { VirtmemState.initial with g_HeapRegion := ⟨0x10000000, 0x20000000⟩ }

/-- The region `[0x8000000, 0x48000000)`. -/
def regionAslr : MemRegion := ⟨0x8000000, 0x48000000⟩

/-- A random source that returns `0x8000` first and `0` afterwards. -/
def rngHeapFirst (n : Nat) : Nat := if n = 0 then 0x8000 else 0

/-- A kernel whose memory query fails at `0x7FFF000` and reports one
mapped block everywhere else. -/
def kernelQueryFails : Kernel :=
  { kernelPrimary with
    svcQueryMemory := fun q =>
      if q = 0x7FFF000 then (0xD801, ⟨0, 0, 0⟩) else (0, ⟨0, 0xFFFFFFFFFFFFF000, 3⟩) }

/-- A kernel with nothing mapped anywhere: two unmapped blocks,
`[0, 2 ^ 63)` and `[2 ^ 63, 2 ^ 64 - 1)`. -/
def kernelNothingMapped : Kernel :=
  { kernelPrimary with
    svcQueryMemory := fun q =>
      if q < 0x8000000000000000 then (0, ⟨0, 0x8000000000000000, 0⟩)
      else (0, ⟨0x8000000000000000, 0x7FFFFFFFFFFFFFFF, 0⟩) }

/-- A state whose ledger holds the reservation `[0x1000, 0x2000)`. -/
def stateReserved : VirtmemState :=
  { VirtmemState.initial with g_Reservations := [⟨0x1000, 0x2000⟩] }

/-- A kernel without the ASLR region query whose unmap probe answers
`0xD401` (the legacy 32-bit layout); heap region `[0x40000000, 0x60000000)`,
no alias region, nothing mapped. -/
def kernelLegacy : Kernel :=
  { svcGetInfo := fun id =>
      match id with
      | .InfoType_HeapRegionAddress => (0, 0x40000000)
      | .InfoType_HeapRegionSize => (0, 0x20000000)
      | _ => (0xF001, 0),
    svcQueryMemory := emptyMap,
    svcUnmapMemory := fun _ _ _ => 0xD401 }

/-- The state that `virtmemSetup` reaches from the initial state against
`kernelLegacy`. -/
def stateLegacy : VirtmemState :=
  { VirtmemState.initial with
    g_AddressSpace := ⟨0x200000, 0x100000000⟩,
    g_Region := [⟨0x200000, 0x40000000⟩, ⟨0x40000000, 0x60000000⟩, ⟨0, 0⟩] }

/-- A kernel without the ASLR region query whose unmap probe answers
`0xDC01` (the extended 36-bit layout); heap region
`[0x100000000, 0x280000000)`, no alias region, nothing mapped. -/
def kernelExtended : Kernel :=
  { svcGetInfo := fun id =>
      match id with
      | .InfoType_HeapRegionAddress => (0, 0x100000000)
      | .InfoType_HeapRegionSize => (0, 0x180000000)
      | _ => (0xF001, 0),
    svcQueryMemory := emptyMap,
    svcUnmapMemory := fun _ _ _ => 0xDC01 }

/-- The state that `virtmemSetup` reaches from the initial state against
`kernelExtended`. -/
def stateExtended : VirtmemState :=
  { VirtmemState.initial with
    g_AddressSpace := ⟨0x8000000, 0x1000000000⟩,
    g_Region := [⟨0x8000000, 0x80000000⟩, ⟨0x100000000, 0x280000000⟩, ⟨0, 0⟩] }

/-- The `n` low bytes of `v` in little-endian order. -/
def leBytes (v : Nat) : Nat → List Nat
  | 0 => []
  | n + 1 => v % 256 :: leBytes (v / 256) n

/-- The bytes of a string and its NUL. -/
def cstr (s : String) : List Nat := s.toList.map Char.toNat ++ [0]

/-- The bytes of an `Elf64_Dyn`. -/
def dynBytes (d : Elf64_Dyn) : List Nat := leBytes d.d_tag 8 ++ leBytes d.d_un 8

/-- The bytes of an `Elf64_Sym`. -/
def symBytes (y : Elf64_Sym) : List Nat :=
  leBytes y.st_name 4 ++ leBytes y.st_info 1 ++ leBytes y.st_other 1 ++ leBytes y.st_shndx 2 ++
    leBytes y.st_value 8 ++ leBytes y.st_size 8

/-- The bytes of an `Elf64_Rela`. -/
def relaBytes (e : Elf64_Rela) : List Nat :=
  leBytes e.r_offset 8 ++ leBytes e.r_info 8 ++ leBytes e.r_addend 8

/-- The memory that holds the given byte sequences at the given addresses
(the first sequence that covers an address gives its byte) and `0` elsewhere. -/
def memOf (segs : List (Nat × List Nat)) : Memory :=
  { byte := fun a =>
      match segs.find? (fun g => decide (g.1 ≤ a) && decide (a < g.1 + g.2.length)) with
      | some g => g.2.getD (a - g.1) 0
      | none => 0 }

/-- The bytes of the image at `0x200000`: it defines `foo` (index 1, value
`0x900`) and has no relocation array. -/
def segsBuiltinImage : List (Nat × List Nat) :=
  [(0x200004, leBytes 0x100 4), (0x200104, leBytes 0x20 4),
   (0x200120, dynBytes ⟨DT_SYMTAB, 0x1000⟩ ++ dynBytes ⟨DT_STRTAB, 0x1030⟩ ++
      dynBytes ⟨DT_NULL, 0⟩),
   (0x201000, symBytes ⟨0, 0, 0, 0, 0, 0⟩ ++ symBytes ⟨1, 0x12, 0, 1, 0x900, 0⟩),
   (0x201030, [0] ++ cstr "foo")]

/-- The headers, the dynamic section, the symbols and the strings of the
image at `0x100000`: the symbols `foo` (index 1, undefined) and `bar`
(index 2, defined, value `0x500`), a relocation array of three entries at
`0x102000`. -/
def segsImageTables : List (Nat × List Nat) :=
  [(0x100004, leBytes 0x100 4), (0x100104, leBytes 0x20 4),
   (0x100120, dynBytes ⟨DT_SYMTAB, 0x1000⟩ ++ dynBytes ⟨DT_STRTAB, 0x1048⟩ ++
      dynBytes ⟨DT_RELA, 0x2000⟩ ++ dynBytes ⟨DT_RELASZ, 72⟩ ++ dynBytes ⟨DT_NULL, 0⟩),
   (0x101000, symBytes ⟨0, 0, 0, 0, 0, 0⟩ ++ symBytes ⟨1, 0x12, 0, 0, 0, 0⟩ ++
      symBytes ⟨5, 0x12, 0, 1, 0x500, 0⟩),
   (0x101048, [0] ++ cstr "foo" ++ cstr "bar")]

/-- A memory with two images. The image at `0x100000` has the symbols
`foo` (index 1, undefined) and `bar` (index 2, defined, value `0x500`) and
three relocation entries: a `JUMP_SLOT` for `foo` (slot offset `0x3000`,
addend `0x10`), an `ABS64` for `bar` (slot offset `0x3008`, addend `4`) and
a load-bias entry (slot offset `0x3010`). The image at `0x200000` defines
`foo` with value `0x900` and has no relocation array. -/
def memTwoImages : Memory :=
  memOf (segsImageTables ++ segsBuiltinImage ++
    [(0x102000, relaBytes ⟨0x3000, 0x100000402, 0x10⟩ ++ relaBytes ⟨0x3008, 0x200000101, 4⟩ ++
      relaBytes ⟨0x3010, 0x403, 0x77⟩)])

/-- The image at `0x200000` is registered as a builtin image. -/
def linkerBuiltin : LinkerState :=
  { mem := memTwoImages, elfs := [], builtin_elfs := [0x200000], replaced_symbols := [],
    relr_available := false }

/-- The image at `0x200000` is registered as a foreign image. -/
def linkerForeign : LinkerState :=
  { mem := memTwoImages, elfs := [0x200000], builtin_elfs := [], replaced_symbols := [],
    relr_available := false }

/-- A memory map with two mapped pages, `[0x8003000, 0x8004000)` and
`[0x80003000, 0x80004000)`, of type `3`; the rest of the address space
below `0x1000000000` is unmapped. -/
def mapWithBlock (q : Nat) : Nat × MemoryInfo :=
  if q < 0x8003000 then (0, ⟨0, 0x8003000, 0⟩)
  else if q < 0x8004000 then (0, ⟨0x8003000, 0x1000, 3⟩)
  else if q < 0x80003000 then (0, ⟨0x8004000, 0x77FFF000, 0⟩)
  else if q < 0x80004000 then (0, ⟨0x80003000, 0x1000, 3⟩)
  else if q < 0x1000000000 then (0, ⟨0x80004000, 0xF7FFFC000, 0⟩)
  else (0, ⟨0x1000000000, 0xFFFFFFF000000000, 0x10⟩)

/-- The kernel `kernelExtended` with the memory map `mapWithBlock`. -/
def kernelBlock : Kernel :=
  { kernelExtended with svcQueryMemory := mapWithBlock }

/-- The kernel `kernelPrimary` with an ASLR region that starts at
`0x8000800`, not a multiple of the page size. -/
def kernelUnaligned : Kernel :=
  { kernelPrimary with
    svcGetInfo := fun id =>
      match id with
      | .InfoType_AslrRegionAddress => (0, 0x8000800)
      | other => kernelPrimary.svcGetInfo other }

/-- The image at `0x200000` and the image at `0x100000` are registered as
builtin images, in this order. -/
def linkerBothBuiltin : LinkerState :=
  { mem := memTwoImages, elfs := [], builtin_elfs := [0x200000, 0x100000],
    replaced_symbols := [], relr_available := false }

/-- The memory `memTwoImages` with two changes in the image at `0x100000`:
symbol 2 has `st_name = 0xFC8`, so that its name starts at `0x102010`, and
the first relocation entry has the addend `0x6F6F66`, whose bytes at
`0x102010` are the string `foo` and its NUL. Both the first entry (symbol 1)
and the second entry (symbol 2) name `foo`. -/
def memNameInAddend : Memory :=
  memOf ([(0x101030, symBytes ⟨0xFC8, 0x12, 0, 1, 0x500, 0⟩),
    (0x102000, relaBytes ⟨0x3000, 0x100000402, 0x6F6F66⟩ ++
      relaBytes ⟨0x3008, 0x200000101, 4⟩ ++ relaBytes ⟨0x3010, 0x403, 0x77⟩)] ++
    segsImageTables ++ segsBuiltinImage)

/-- The memory `memNameInAddend`, the image at `0x200000` registered as a
builtin image. -/
def linkerNameInAddend : LinkerState :=
  { mem := memNameInAddend, elfs := [], builtin_elfs := [0x200000], replaced_symbols := [],
    relr_available := false }

/-- The memory `memTwoImages` with other relocation entries in the image at
`0x100000`: two `ABS64` entries for `bar` with addend `4`, at the slot
offsets `0x3000` and `0x3004`, and a load-bias entry. The two slots share
the four bytes from `0x103004`. -/
def memOverlapSlots : Memory :=
  memOf ([(0x102000, relaBytes ⟨0x3000, 0x200000101, 4⟩ ++
      relaBytes ⟨0x3004, 0x200000101, 4⟩ ++ relaBytes ⟨0x3010, 0x403, 0x77⟩)] ++
    segsImageTables ++ segsBuiltinImage)

/-- The memory `memOverlapSlots`, the image at `0x200000` registered as a
foreign image. -/
def linkerOverlapSlots : LinkerState :=
  { mem := memOverlapSlots, elfs := [0x200000], builtin_elfs := [], replaced_symbols := [],
    relr_available := false }

/-- The memory `memTwoImages` with another first relocation entry in the
image at `0x100000`: the `JUMP_SLOT` entry for `foo` has the slot offset
`0x2020`, so that its slot `0x102020` is the `r_info` field of the second
entry. -/
def memSlotInArray : Memory :=
  memOf ([(0x102000, relaBytes ⟨0x2020, 0x100000402, 0x10⟩ ++
      relaBytes ⟨0x3008, 0x200000101, 4⟩ ++ relaBytes ⟨0x3010, 0x403, 0x77⟩)] ++
    segsImageTables ++ segsBuiltinImage)

/-- The memory `memSlotInArray`, the image at `0x200000` registered as a
builtin image. -/
def linkerSlotInArray : LinkerState :=
  { mem := memSlotInArray, elfs := [], builtin_elfs := [0x200000], replaced_symbols := [],
    relr_available := false }

/-- The memory `memTwoImages` with another first relocation entry in the
image at `0x100000`: the `JUMP_SLOT` entry for `foo` has the slot offset
`0x2028`, so that its slot `0x102028` is the `r_addend` field of the second
entry, the `ABS64` entry for `bar`. -/
def memSlotInAddend : Memory :=
  memOf ([(0x102000, relaBytes ⟨0x2028, 0x100000402, 0x10⟩ ++
      relaBytes ⟨0x3008, 0x200000101, 4⟩ ++ relaBytes ⟨0x3010, 0x403, 0x77⟩)] ++
    segsImageTables ++ segsBuiltinImage)

/-- The memory `memSlotInAddend`, the image at `0x200000` registered as a
foreign image. -/
def linkerSlotInAddend : LinkerState :=
  { mem := memSlotInAddend, elfs := [0x200000], builtin_elfs := [], replaced_symbols := [],
    relr_available := false }

/-! ## Machine-word lemmas -/

theorem wrap_lt (x : Nat) : wrap x < 2 ^ 64 := by
  unfold wrap; omega

theorem wrap_of_lt {x : Nat} (h : x < 2 ^ 64) : wrap x = x := by
  unfold wrap; omega

theorem wrap_le (x : Nat) : wrap x ≤ x := by
  unfold wrap; omega

theorem wrap_add_left (a b : Nat) : wrap (wrap a + b) = wrap (a + b) := by
  unfold wrap; omega

theorem wsub_lt (a b : Nat) : wsub a b < 2 ^ 64 := by
  unfold wsub; omega

theorem wsub_of_le {a b : Nat} (ha : a < 2 ^ 64) (h : b ≤ a) : wsub a b = a - b := by
  unfold wsub; omega

/-- Clearing the low twelve bits of a 64-bit word. -/
theorem land_page_mask (x : Nat) (h : x < 2 ^ 64) : x &&& PAGE_MASK = x / 4096 * 4096 := by
  apply Nat.eq_of_testBit_eq
  intro i
  have hM : PAGE_MASK = 2 ^ 12 * (2 ^ 52 - 1) := by norm_num [PAGE_MASK]
  have h2 : x / 4096 * 4096 = 2 ^ 12 * (x >>> 12) := by
    rw [Nat.shiftRight_eq_div_pow]; norm_num [Nat.mul_comm]
  rw [Nat.testBit_and, hM, h2, Nat.testBit_mul_pow_two, Nat.testBit_mul_pow_two,
    Nat.testBit_two_pow_sub_one, Nat.testBit_shiftRight]
  have e : 12 ≤ i → 12 + (i - 12) = i := by omega
  by_cases h12 : 12 ≤ i
  · by_cases h64 : i < 64
    · have : i - 12 < 52 := by omega
      simp [h12, this, e h12]
    · have hx : x.testBit i = false := by
        apply Nat.testBit_lt_two_pow
        calc x < 2 ^ 64 := h
          _ ≤ 2 ^ i := Nat.pow_le_pow_right (by norm_num) (by omega)
      simp [hx, e h12]
  · simp [h12]

theorem pageAlign_eq (size : Nat) : pageAlign size = wrap (size + 0xFFF) / 4096 * 4096 := by
  unfold pageAlign
  exact land_page_mask _ (wrap_lt _)

theorem pageAlign_lt (size : Nat) : pageAlign size < 2 ^ 64 := by
  rw [pageAlign_eq]
  have := wrap_lt (size + 0xFFF)
  omega

theorem pageAlign_ge {size : Nat} (h : size + 0xFFF < 2 ^ 64) : size ≤ pageAlign size := by
  rw [pageAlign_eq, wrap_of_lt h]
  omega

/-! ## The random search -/

/-- A candidate that leaves the inner loop overlaps neither region record,
is a machine word, and cost at least one draw. -/
theorem pickCandidate_returned (st : VirtmemState) (rng : Nat → Nat) (r : MemRegion)
    (size amax : Nat) :
    ∀ (fuel draws a d : Nat), pickCandidate st rng r size amax fuel draws = .returned a d →
      _memregionOverlaps st.g_AliasRegion a (wrap (a + size)) = false ∧
      _memregionOverlaps st.g_HeapRegion a (wrap (a + size)) = false ∧
      a < 2 ^ 64 ∧ draws < d := by
  intro fuel
  induction fuel with
  | zero => intro draws a d h; simp [pickCandidate] at h
  | succ n ih =>
    intro draws a d h
    simp only [pickCandidate] at h
    split at h
    · obtain ⟨h1, h2, h3, h4⟩ := ih _ _ _ h
      exact ⟨h1, h2, h3, by omega⟩
    · split at h
      · obtain ⟨h1, h2, h3, h4⟩ := ih _ _ _ h
        exact ⟨h1, h2, h3, by omega⟩
      · rename_i h1 h2
        injection h with ha hd
        subst ha
        refine ⟨by simpa using h1, by simpa using h2, wrap_lt _, by omega⟩

/-- A non-null address returned by the main loop passed every test of the loop. -/
theorem findRandomLoop_returned (k : Kernel) (st : VirtmemState) (rng : Nat → Nat)
    (r : MemRegion) (size guard amax fuel : Nat) :
    ∀ (attempts draws a d : Nat),
      findRandomLoop k st rng r size guard amax fuel attempts draws = .returned a d → a ≠ 0 →
      _memregionOverlaps st.g_AliasRegion a (wrap (a + size)) = false ∧
      _memregionOverlaps st.g_HeapRegion a (wrap (a + size)) = false ∧
      _memregionIsMapped k a (wrap (a + size)) guard = false ∧
      _memregionIsReserved st a (wrap (a + size)) guard = false ∧
      a < 2 ^ 64 := by
  intro attempts
  induction attempts with
  | zero =>
    intro draws a d h ha
    simp only [findRandomLoop] at h
    injection h with h1 _
    exact absurd h1.symm ha
  | succ n ih =>
    intro draws a d h ha
    simp only [findRandomLoop] at h
    split at h
    · exact absurd h (by simp)
    · rename_i cur d1 hp
      have hc := pickCandidate_returned st rng r size amax fuel draws cur d1 hp
      split at h
      · exact ih _ _ _ h ha
      · split at h
        · exact ih _ _ _ h ha
        · rename_i hm hr
          injection h with h1 h2
          subst h1
          exact ⟨hc.1, hc.2.1, by simpa using hm, by simpa using hr, hc.2.2.1⟩

/-- What `_memregionFindRandom` has checked about a non-null address it returns. -/
theorem findRandom_returned (k : Kernel) (st : VirtmemState) (rng : Nat → Nat) (fuel : Nat)
    (r : MemRegion) (size guard_size a d : Nat)
    (h : _memregionFindRandom k st rng fuel r size guard_size = .returned a d) (ha : a ≠ 0) :
    _memregionOverlaps st.g_AliasRegion a (wrap (a + pageAlign size)) = false ∧
    _memregionOverlaps st.g_HeapRegion a (wrap (a + pageAlign size)) = false ∧
    _memregionIsMapped k a (wrap (a + pageAlign size)) (pageAlign guard_size) = false ∧
    _memregionIsReserved st a (wrap (a + pageAlign size)) (pageAlign guard_size) = false ∧
    a < 2 ^ 64 := by
  unfold _memregionFindRandom at h
  simp only at h
  split at h
  · injection h with h1 _
    exact absurd h1.symm ha
  · exact findRandomLoop_returned k st rng r _ _ _ fuel _ _ a d h ha

/-- The inner loop is left at the first draw when no candidate is rejected. -/
theorem pickCandidate_free (st : VirtmemState) (rng : Nat → Nat) (r : MemRegion)
    (size amax fuel draws : Nat)
    (hfree : ∀ a, _memregionOverlaps st.g_AliasRegion a (wrap (a + size)) = false ∧
      _memregionOverlaps st.g_HeapRegion a (wrap (a + size)) = false) :
    ∃ a, pickCandidate st rng r size amax (fuel + 1) draws = .returned a (draws + 1) := by
  simp [pickCandidate, (hfree _).1, (hfree _).2]

/-- The main loop returns within its attempts when no candidate is rejected
by the region records. -/
theorem findRandomLoop_free (k : Kernel) (st : VirtmemState) (rng : Nat → Nat) (r : MemRegion)
    (size guard amax fuel : Nat)
    (hfree : ∀ a, _memregionOverlaps st.g_AliasRegion a (wrap (a + size)) = false ∧
      _memregionOverlaps st.g_HeapRegion a (wrap (a + size)) = false) :
    ∀ (attempts draws : Nat), ∃ a d,
      findRandomLoop k st rng r size guard amax (fuel + 1) attempts draws = .returned a d ∧
      d ≤ draws + attempts := by
  intro attempts
  induction attempts with
  | zero => intro draws; exact ⟨0, draws, by simp [findRandomLoop], by omega⟩
  | succ n ih =>
    intro draws
    obtain ⟨c, hc⟩ := pickCandidate_free st rng r size amax fuel draws hfree
    obtain ⟨a, d, h1, h2⟩ := ih (draws + 1)
    simp only [findRandomLoop, hc]
    split
    · exact ⟨a, d, h1, by omega⟩
    · split
      · exact ⟨a, d, h1, by omega⟩
      · exact ⟨c, draws + 1, rfl, by omega⟩

/-- The inner loop never ends when the heap record rejects every candidate drawn. -/
theorem pickCandidate_running (st : VirtmemState) (rng : Nat → Nat) (r : MemRegion)
    (size amax : Nat)
    (hrej : ∀ n, _memregionOverlaps st.g_HeapRegion
      (wrap (r.start + wrap ((wrap (rng n) % wrap (amax + 1)) <<< 12)))
      (wrap (wrap (r.start + wrap ((wrap (rng n) % wrap (amax + 1)) <<< 12)) + size)) = true) :
    ∀ (fuel draws : Nat), pickCandidate st rng r size amax fuel draws = .running (draws + fuel) := by
  intro fuel
  induction fuel with
  | zero => intro draws; simp [pickCandidate]
  | succ n ih =>
    intro draws
    simp only [pickCandidate, hrej draws, ih (draws + 1)]
    simp
    omega

/-! ### C1 -/

/-- C1, counterexample. (1) After `virtmemSetup` against `kernelPrimary` the
heap region is `[0x10000000, 0x20000000)`, yet `virtmemFindAslr` returns
`0x10000000`, the first address of that region: the search tests the
record `g_HeapRegion`, which `virtmemSetup` never writes. (2) With the heap
record set to that region, the search returns `0xFFFF000` for size `0x1000`
and guard `0x1000`: the padded range `[0xFFFE000, 0x10001000)` contains
the heap address `0x10000000`, because the region test is made on the
range without its guards. -/
theorem findRandom_meets_heap_region :
    (virtmemSetup kernelPrimary VirtmemState.initial = .ok statePrimary ∧
      (virtmemFindAslr kernelPrimary { statePrimary with lockedByCurrentThread := true }
        (fun _ => 0x8000) 1 0x1000 0).1 = .returned 0x10000000 1 ∧
      _InRegion (statePrimary.region REGION_HEAP) 0x10000000 = true) ∧
    (_memregionFindRandom kernelPrimary stateHeapRecord (fun _ => 0x7FFF) 1 regionAslr
        0x1000 0x1000 = .returned 0xFFFF000 1 ∧
      0xFFFF000 - pageAlign 0x1000 ≤ 0x10000000 ∧
      0x10000000 < 0xFFFF000 + pageAlign 0x1000 + pageAlign 0x1000 ∧
      stateHeapRecord.g_HeapRegion.start ≤ 0x10000000 ∧
      0x10000000 < stateHeapRecord.g_HeapRegion.end_) := by
  refine ⟨⟨rfl, by decide, by decide⟩, by decide, by decide, by decide, by decide, by decide⟩

/-- C1, amended. When the random search returns a non-null address `A`, the
range `[A, A + size')` without its guards (`size'` the page-rounded size)
overlaps neither of the two region records that the search tests,
`g_AliasRegion` and `g_HeapRegion`: the overlap test of the source fails
for both, and when `A + size'` does not exceed the 64-bit range no address
of `[A, A + size')` lies in either record. -/
theorem findRandom_clear_of_region_records (k : Kernel) (st : VirtmemState) (rng : Nat → Nat)
    (fuel : Nat) (r : MemRegion) (size guard_size A draws : Nat)
    (h : _memregionFindRandom k st rng fuel r size guard_size = .returned A draws)
    (hA : A ≠ 0) :
    _memregionOverlaps st.g_AliasRegion A (wrap (A + pageAlign size)) = false ∧
    _memregionOverlaps st.g_HeapRegion A (wrap (A + pageAlign size)) = false ∧
    (A + pageAlign size < 2 ^ 64 → ∀ x, A ≤ x → x < A + pageAlign size →
      ¬ (st.g_AliasRegion.start ≤ x ∧ x < st.g_AliasRegion.end_) ∧
      ¬ (st.g_HeapRegion.start ≤ x ∧ x < st.g_HeapRegion.end_)) := by
  obtain ⟨h1, h2, _, _, _⟩ := findRandom_returned k st rng fuel r size guard_size A draws h hA
  refine ⟨h1, h2, ?_⟩
  intro hlt x hx1 hx2
  rw [wrap_of_lt hlt] at h1 h2
  simp only [_memregionOverlaps, Bool.and_eq_false_imp, decide_eq_true_eq, decide_eq_false_iff_not] at h1 h2
  constructor
  · rintro ⟨ha, hb⟩
    exact h1 (by omega) (by omega)
  · rintro ⟨ha, hb⟩
    exact h2 (by omega) (by omega)

/-- C1, witness: the heap record rejects the first candidate `0x10000000`,
the second candidate `0x8000000` is returned. -/
theorem findRandom_clear_of_region_records_witness :
    _memregionFindRandom kernelPrimary stateHeapRecord rngHeapFirst 2 regionAslr 0x1000 0x1000
      = .returned 0x8000000 2 ∧
    _memregionOverlaps stateHeapRecord.g_AliasRegion 0x8000000
      (wrap (0x8000000 + pageAlign 0x1000)) = false ∧
    _memregionOverlaps stateHeapRecord.g_HeapRegion 0x8000000
      (wrap (0x8000000 + pageAlign 0x1000)) = false ∧
    (0x8000000 + pageAlign 0x1000 < 2 ^ 64 → ∀ x, 0x8000000 ≤ x → x < 0x8000000 + pageAlign 0x1000 →
      ¬ (stateHeapRecord.g_AliasRegion.start ≤ x ∧ x < stateHeapRecord.g_AliasRegion.end_) ∧
      ¬ (stateHeapRecord.g_HeapRegion.start ≤ x ∧ x < stateHeapRecord.g_HeapRegion.end_)) :=
  ⟨by decide,
    findRandom_clear_of_region_records kernelPrimary stateHeapRecord rngHeapFirst 2 regionAslr
      0x1000 0x1000 0x8000000 2 (by decide) (by decide)⟩

/-! ### C2 -/

/-- C2, counterexample. (1) Against `kernelQueryFails` the memory query at
`A - guard' = 0x7FFF000` fails, `_memregionIsMapped` answers "not mapped",
and the search returns `A = 0x8000000` although the memory map reports `A`
itself as mapped. (2) With guard `0x2000` larger than the candidate
`A = 0x1000`, `A - guard'` wraps around to `2 ^ 64 - 0x1000`, the overlap
test against the reservation `[0x1000, 0x2000)` fails, and the search
returns `0x1000`, the start of that reservation, with nothing mapped. -/
theorem findRandom_padded_range_taken :
    (_memregionFindRandom kernelQueryFails VirtmemState.initial (fun _ => 0) 1 regionAslr
        0x1000 0x1000 = .returned 0x8000000 1 ∧
      kernelQueryFails.mappedAt 0x8000000) ∧
    (_memregionFindRandom kernelNothingMapped stateReserved (fun _ => 1) 1 ⟨0, 0x10000⟩
        0x1000 0x2000 = .returned 0x1000 1 ∧
      (⟨0x1000, 0x2000⟩ : MemRegion) ∈ stateReserved.g_Reservations ∧
      ¬ kernelNothingMapped.mappedAt (wsub 0x1000 (pageAlign 0x2000))) := by
  refine ⟨⟨by decide, by decide⟩, by decide, by decide, by decide⟩

/-- C2, amended. When the random search returns a non-null address `A`, the
padded range `[A - guard', A + size' + guard')` does not wrap around the
64-bit address space (`guard' ≤ A` and `A + size' + guard' < 2 ^ 64`), the
memory query at `A - guard'` succeeds and the memory map is coherent, then
the padded range overlaps no reservation of the ledger and contains no
address that the memory map reports as mapped. -/
theorem findRandom_padded_range_free (k : Kernel) (st : VirtmemState) (rng : Nat → Nat)
    (fuel : Nat) (r : MemRegion) (size guard_size A draws : Nat)
    (h : _memregionFindRandom k st rng fuel r size guard_size = .returned A draws)
    (hA : A ≠ 0)
    (hlo : pageAlign guard_size ≤ A)
    (hhi : A + pageAlign size + pageAlign guard_size < 2 ^ 64)
    (hq : (k.svcQueryMemory (A - pageAlign guard_size)).1 = 0)
    (hk : MemoryMapCoherent k) :
    (∀ rv ∈ st.g_Reservations, ∀ x, A - pageAlign guard_size ≤ x →
      x < A + pageAlign size + pageAlign guard_size → ¬ (rv.start ≤ x ∧ x < rv.end_)) ∧
    (∀ x, A - pageAlign guard_size ≤ x →
      x < A + pageAlign size + pageAlign guard_size → ¬ k.mappedAt x) := by
  obtain ⟨_, _, hm, hr, hlt⟩ := findRandom_returned k st rng fuel r size guard_size A draws h hA
  have e1 : wsub A (pageAlign guard_size) = A - pageAlign guard_size := wsub_of_le hlt hlo
  have e2 : wrap (wrap (A + pageAlign size) + pageAlign guard_size)
      = A + pageAlign size + pageAlign guard_size := by
    rw [wrap_of_lt (show A + pageAlign size < 2 ^ 64 by omega), wrap_of_lt hhi]
  constructor
  · intro rv hrv x hx1 hx2 hin
    simp only [_memregionIsReserved, e1, e2, List.any_eq_false] at hr
    have := hr rv hrv
    simp only [_memregionOverlaps, Bool.and_eq_true, decide_eq_true_eq, not_and] at this
    exact this (by omega) (by omega)
  · intro x hx1 hx2 hmap
    simp only [_memregionIsMapped, e1, e2, hq] at hm
    simp only [ne_eq, not_true_eq_false, if_false] at hm
    split at hm
    · exact absurd hm (by simp)
    · rename_i hc
      obtain ⟨c1, c2, _, c3⟩ := hk _ (by omega) hq
      have hw := wrap_le ((k.svcQueryMemory (A - pageAlign guard_size)).2.addr +
        (k.svcQueryMemory (A - pageAlign guard_size)).2.size)
      have hx := c3 x (by omega) (by omega)
      unfold Kernel.mappedAt at hmap
      rw [hx] at hmap
      exact hc (Or.inl hmap.2)

/-- The memory map `emptyMap` is coherent. -/
theorem emptyMap_coherent (k : Kernel) (hk : k.svcQueryMemory = emptyMap) :
    MemoryMapCoherent k := by
  intro q hq64 _
  rw [hk]
  by_cases hq : q < 0x1000000000
  · have e : emptyMap q = (0, ⟨0, 0x1000000000, 0⟩) := by
      simp [emptyMap, hq]
    rw [e]
    refine ⟨by simp, by simpa using hq, by simp, ?_⟩
    intro x _ hx
    have : x < 0x1000000000 := by simpa using hx
    simp [emptyMap, this]
  · have e : emptyMap q = (0, ⟨0x1000000000, 0xFFFFFFF000000000, 0x10⟩) := by
      simp [emptyMap, hq]
    rw [e]
    refine ⟨by simpa using hq, by simpa using hq64, by simp, ?_⟩
    intro x hx _
    have : ¬ x < 0x1000000000 := by simpa using hx
    simp [emptyMap, this]

/-- C2, witness: a search against `kernelPrimary` with the reservation
`[0x1000, 0x2000)` in the ledger returns `0x8000000`. -/
theorem findRandom_padded_range_free_witness :
    _memregionFindRandom kernelPrimary stateReserved (fun _ => 0) 1 regionAslr 0x1000 0x1000
      = .returned 0x8000000 1 ∧
    (∀ rv ∈ stateReserved.g_Reservations, ∀ x, 0x8000000 - pageAlign 0x1000 ≤ x →
      x < 0x8000000 + pageAlign 0x1000 + pageAlign 0x1000 → ¬ (rv.start ≤ x ∧ x < rv.end_)) ∧
    (∀ x, 0x8000000 - pageAlign 0x1000 ≤ x →
      x < 0x8000000 + pageAlign 0x1000 + pageAlign 0x1000 → ¬ kernelPrimary.mappedAt x) :=
  ⟨by decide,
    findRandom_padded_range_free kernelPrimary stateReserved (fun _ => 0) 1 regionAslr
      0x1000 0x1000 0x8000000 1 (by decide) (by decide) (by decide) (by decide) (by decide)
      (emptyMap_coherent _ rfl)⟩

/-! ### C9 -/

/-- C9, counterexample. The size `2 ^ 64 - 1` is larger than the span
`0x2000` of the region `[0x1000, 0x3000)`, but its page rounding wraps
around to `0`: the search goes on, draws from the random source and
returns the address `0x1000`. -/
theorem findRandom_oversize_accepted :
    wsub 0x3000 0x1000 < 2 ^ 64 - 1 ∧
    _memregionFindRandom kernelPrimary VirtmemState.initial (fun _ => 0) 1 ⟨0x1000, 0x3000⟩
      (2 ^ 64 - 1) 0 = .returned 0x1000 1 := by
  refine ⟨by decide, by decide⟩

/-- C9, amended. For every region `r`, every guard size and every size whose
page rounding does not wrap around (`size + 0xFFF < 2 ^ 64`): if the size is
larger than the span `r.end - r.start`, the random search returns `NULL`
and calls the random source zero times; so does `virtmemFindAslr` with the
lock held, `r` being the ASLR region as it queries it. -/
theorem findRandom_oversize (k : Kernel) (st : VirtmemState) (rng : Nat → Nat) (fuel : Nat)
    (r : MemRegion) (size guard_size : Nat)
    (hsz : size + 0xFFF < 2 ^ 64) (h : wsub r.end_ r.start < size) :
    _memregionFindRandom k st rng fuel r size guard_size = .returned 0 0 ∧
    (st.lockedByCurrentThread = true →
      r = (_memregionInitWithInfo k st.g_AslrRegion
        .InfoType_AslrRegionAddress .InfoType_AslrRegionSize).2 →
      (virtmemFindAslr k st rng fuel size guard_size).1 = .returned 0 0) := by
  have hge := pageAlign_ge hsz
  have key : ∀ st', _memregionFindRandom k st' rng fuel r size guard_size = .returned 0 0 := by
    intro st'
    unfold _memregionFindRandom
    simp only
    rw [if_pos (by omega)]
  refine ⟨key st, ?_⟩
  intro hl hr
  unfold virtmemFindAslr
  simp only [hl, Bool.not_true, Bool.false_eq_true, if_false, ← hr]
  exact key _

/-- C9, witness: size `0x3000` in the region `[0x1000, 0x3000)`. -/
theorem findRandom_oversize_witness :
    _memregionFindRandom kernelPrimary VirtmemState.initial (fun _ => 0) 1 ⟨0x1000, 0x3000⟩
      0x3000 0 = .returned 0 0 ∧
    (VirtmemState.initial.lockedByCurrentThread = true →
      (⟨0x1000, 0x3000⟩ : MemRegion) = (_memregionInitWithInfo kernelPrimary
        VirtmemState.initial.g_AslrRegion
        .InfoType_AslrRegionAddress .InfoType_AslrRegionSize).2 →
      (virtmemFindAslr kernelPrimary VirtmemState.initial (fun _ => 0) 1 0x3000 0).1
        = .returned 0 0) :=
  findRandom_oversize kernelPrimary VirtmemState.initial (fun _ => 0) 1 ⟨0x1000, 0x3000⟩
    0x3000 0 (by decide) (by decide)

/-! ### C10 -/

/-- An attempt whose inner loop is still running leaves the search running. -/
theorem findRandomLoop_running (k : Kernel) (st : VirtmemState) (rng : Nat → Nat)
    (r : MemRegion) (size guard amax fuel attempts draws d : Nat)
    (h : pickCandidate st rng r size amax fuel draws = .running d) :
    findRandomLoop k st rng r size guard amax fuel (attempts + 1) draws = .running d := by
  simp only [findRandomLoop, h]

/-- The random search with records that reject no candidate: every attempt
draws once, and the search returns, an address or `NULL`, after at most
`RANDOM_MAX_ATTEMPTS` draws. -/
theorem findRandom_returns_of_clear (k : Kernel) (st : VirtmemState) (rng : Nat → Nat)
    (fuel : Nat) (r : MemRegion) (size guard_size : Nat)
    (hfree : ∀ a, _memregionOverlaps st.g_AliasRegion a (wrap (a + pageAlign size)) = false ∧
      _memregionOverlaps st.g_HeapRegion a (wrap (a + pageAlign size)) = false) :
    ∃ A draws, _memregionFindRandom k st rng (fuel + 1) r size guard_size = .returned A draws ∧
      draws ≤ RANDOM_MAX_ATTEMPTS := by
  unfold _memregionFindRandom
  simp only
  split
  · exact ⟨0, 0, rfl, by simp⟩
  · obtain ⟨a, d, h1, h2⟩ := findRandomLoop_free k st rng r (pageAlign size)
      (pageAlign guard_size) ((wsub r.end_ r.start - pageAlign size) >>> 12) fuel hfree
      RANDOM_MAX_ATTEMPTS 0
    exact ⟨a, d, h1, by omega⟩

/-- A record whose end is zero overlaps no range. -/
theorem overlaps_empty_record (r : MemRegion) (h : r.end_ = 0) (a e : Nat) :
    _memregionOverlaps r a e = false := by
  simp [_memregionOverlaps, h]

/-- The function `virtmemSetup` writes neither `g_AliasRegion` nor `g_HeapRegion`. -/
theorem virtmemSetup_keeps_records (k : Kernel) (st st1 : VirtmemState)
    (h : virtmemSetup k st = .ok st1) :
    st1.g_AliasRegion = st.g_AliasRegion ∧ st1.g_HeapRegion = st.g_HeapRegion := by
  unfold virtmemSetup at h
  cases hs : virtmemSetupStack k st with
  | error e => rw [hs] at h; cases h
  | ok st0 =>
    have h0 : st0.g_AliasRegion = st.g_AliasRegion ∧ st0.g_HeapRegion = st.g_HeapRegion := by
      unfold virtmemSetupStack at hs
      simp only at hs
      split at hs
      · split at hs
        · cases hs; exact ⟨rfl, rfl⟩
        · split at hs
          · cases hs; exact ⟨rfl, rfl⟩
          · cases hs
      · split at hs
        · cases hs
        · cases hs; exact ⟨rfl, rfl⟩
    rw [hs] at h
    simp only at h
    split at h
    · cases h
    · cases h; exact h0

/-- The function `virtmemFindAslr` writes neither `g_AliasRegion` nor `g_HeapRegion`. -/
theorem virtmemFindAslr_keeps_records (k : Kernel) (st : VirtmemState) (rng : Nat → Nat)
    (fuel size guard_size : Nat) :
    (virtmemFindAslr k st rng fuel size guard_size).2.g_AliasRegion = st.g_AliasRegion ∧
    (virtmemFindAslr k st rng fuel size guard_size).2.g_HeapRegion = st.g_HeapRegion := by
  unfold virtmemFindAslr
  split <;> exact ⟨rfl, rfl⟩

/-- The function `virtmemReserve` writes neither `g_AliasRegion` nor `g_HeapRegion`. -/
theorem virtmemReserve_keeps_records (k : Kernel) (st : VirtmemState) (fuel size : Nat) :
    (virtmemReserve k st fuel size).2.g_AliasRegion = st.g_AliasRegion ∧
    (virtmemReserve k st fuel size).2.g_HeapRegion = st.g_HeapRegion := by
  unfold virtmemReserve
  simp only
  split <;> exact ⟨rfl, rfl⟩

/-- The function `virtmemReserveStack` writes neither `g_AliasRegion` nor `g_HeapRegion`. -/
theorem virtmemReserveStack_keeps_records (k : Kernel) (st : VirtmemState) (fuel size : Nat) :
    (virtmemReserveStack k st fuel size).2.g_AliasRegion = st.g_AliasRegion ∧
    (virtmemReserveStack k st fuel size).2.g_HeapRegion = st.g_HeapRegion := by
  unfold virtmemReserveStack
  simp only
  split <;> exact ⟨rfl, rfl⟩

/-- C10. The records `g_AliasRegion` and `g_HeapRegion` are zero-initialised
file-scope variables that no function of `virtmem.c` writes. In every state
in which they hold these initial values, for every kernel (memory map),
random source, region, ledger, size and guard size, the random search
returns, an address or `NULL`, after drawing at most `RANDOM_MAX_ATTEMPTS`
candidates. -/
theorem findRandom_terminates (k : Kernel) (st : VirtmemState) (rng : Nat → Nat) (fuel : Nat)
    (r : MemRegion) (size guard_size : Nat)
    (halias : st.g_AliasRegion = VirtmemState.initial.g_AliasRegion)
    (hheap : st.g_HeapRegion = VirtmemState.initial.g_HeapRegion) :
    ∃ A draws, _memregionFindRandom k st rng (fuel + 1) r size guard_size = .returned A draws ∧
      draws ≤ RANDOM_MAX_ATTEMPTS := by
  apply findRandom_returns_of_clear
  intro a
  rw [halias, hheap]
  exact ⟨overlaps_empty_record _ rfl _ _, overlaps_empty_record _ rfl _ _⟩

/-- C10, witness: the state that `virtmemSetup` reaches from the initial
state against `kernelPrimary`. -/
theorem findRandom_terminates_witness :
    virtmemSetup kernelPrimary VirtmemState.initial = .ok statePrimary ∧
    ∃ A draws, _memregionFindRandom kernelPrimary statePrimary (fun _ => 0) (0 + 1) regionAslr
      0x1000 0x1000 = .returned A draws ∧ draws ≤ RANDOM_MAX_ATTEMPTS :=
  ⟨rfl, findRandom_terminates kernelPrimary statePrimary (fun _ => 0) 0 regionAslr 0x1000 0x1000
    rfl rfl⟩

/-! ## The general bump allocator -/

/-- When the region check stops before the bound, it stops at a region
that contains the first or the last address of the candidate range. -/
theorem regionScanFrom_hit (st : VirtmemState) (addr size : Nat) :
    ∀ (n i : Nat), regionScanFrom st addr size n i ≠ i + n →
      i ≤ regionScanFrom st addr size n i ∧ regionScanFrom st addr size n i < i + n ∧
      (_InRegion (st.region (regionScanFrom st addr size n i)) addr = true ∨
        _InRegion (st.region (regionScanFrom st addr size n i))
          (wsub (wrap (addr + size)) 1) = true) := by
  intro n
  induction n with
  | zero => intro i h; simp [regionScanFrom] at h
  | succ n ih =>
    intro i h
    simp only [regionScanFrom] at h ⊢
    split
    · rename_i hit
      rw [if_pos hit] at h
      refine ⟨le_refl _, by omega, ?_⟩
      simpa [Bool.or_eq_true] using hit
    · rename_i hit
      rw [if_neg hit] at h
      have := ih (i + 1) (by omega)
      refine ⟨by omega, by omega, this.2.2⟩

/-- When the region check of `virtmemReserve` finds a region, that region
contains the first or the last address of the candidate range. -/
theorem regionScan_hit (st : VirtmemState) (addr size : Nat)
    (h : regionScan st addr size ≠ REGION_MAX) :
    regionScan st addr size < REGION_MAX ∧
    (_InRegion (st.region (regionScan st addr size)) addr = true ∨
      _InRegion (st.region (regionScan st addr size)) (wsub (wrap (addr + size)) 1) = true) := by
  unfold regionScan at h ⊢
  have := regionScanFrom_hit st addr size REGION_MAX 0 (by omega)
  exact ⟨by omega, this.2.2⟩

/-- The counter of wraps never decreases. -/
theorem virtmemReserveLoop_wraps_le (k : Kernel) (st : VirtmemState) (size : Nat) :
    ∀ (fuel addr w a w' : Nat),
      virtmemReserveLoop k st size fuel addr w = .returned a w' → w ≤ w' := by
  intro fuel
  induction fuel with
  | zero => intro addr w a w' h; simp [virtmemReserveLoop] at h
  | succ n ih =>
    intro addr w a w' h
    simp only [virtmemReserveLoop] at h
    by_cases hout : _InRegion st.g_AddressSpace (wrap (addr + 0x1000)) = true
    · simp only [hout, Bool.not_true, Bool.false_eq_true, if_false] at h
      split at h
      · exact absurd h (by simp)
      · split at h
        · exact ih _ _ _ _ h
        · split at h
          · exact ih _ _ _ _ h
          · split at h
            · exact ih _ _ _ _ h
            · injection h with _ h2
              omega
    · have hout' : _InRegion st.g_AddressSpace (wrap (addr + 0x1000)) = false := by
        simpa using hout
      simp only [hout', Bool.not_false, if_true] at h
      split at h
      · exact absurd h (by simp)
      · split at h
        · have := ih _ _ _ _ h; omega
        · split at h
          · have := ih _ _ _ _ h; omega
          · split at h
            · have := ih _ _ _ _ h; omega
            · injection h with _ h2
              omega

/-- A run of the loop that never sends the cursor back to the start of the
address space returns an address at least one page above the cursor it
started from, inside the address space. -/
theorem virtmemReserveLoop_forward (k : Kernel) (st : VirtmemState) (size : Nat)
    (hk : MemoryMapCoherent k)
    (hstart : 0x1000 < st.g_AddressSpace.start)
    (hend : st.g_AddressSpace.end_ + size ≤ 2 ^ 64)
    (hreg : ∀ i, i < REGION_MAX → (st.region i).end_ < 2 ^ 64) :
    ∀ (fuel addr w a : Nat), addr < 2 ^ 64 →
      virtmemReserveLoop k st size fuel addr w = .returned a w →
      addr + 0x1000 ≤ a ∧ a < st.g_AddressSpace.end_ := by
  intro fuel
  induction fuel with
  | zero => intro addr w a _ h; simp [virtmemReserveLoop] at h
  | succ n ih =>
    intro addr w a haddr h
    have hmono := virtmemReserveLoop_wraps_le k st size
    simp only [virtmemReserveLoop] at h
    by_cases hout : _InRegion st.g_AddressSpace (wrap (addr + 0x1000)) = true
    · simp only [hout, Bool.not_true, Bool.false_eq_true, if_false] at h
      have hin := hout
      simp only [_InRegion, Bool.and_eq_true, decide_eq_true_eq, ge_iff_le] at hin
      have hw : wrap (addr + 0x1000) = addr + 0x1000 := by
        unfold wrap at hin ⊢; omega
      rw [hw] at h hin
      split at h
      · exact absurd h (by simp)
      · rename_i hrc
        have hrc0 : (k.svcQueryMemory (addr + 0x1000)).1 = 0 := by simpa using hrc
        obtain ⟨c1, c2, c3, _⟩ := hk (addr + 0x1000) (by omega) hrc0
        have hjump : ∀ t, t = wrap ((k.svcQueryMemory (addr + 0x1000)).2.addr +
            (k.svcQueryMemory (addr + 0x1000)).2.size) →
            virtmemReserveLoop k st size n t w = .returned a w →
            addr + 0x1000 ≤ a ∧ a < st.g_AddressSpace.end_ := by
          intro t ht hl
          have ht64 : t < 2 ^ 64 := by rw [ht]; exact wrap_lt _
          have := ih t w a ht64 hl
          by_cases hz : (k.svcQueryMemory (addr + 0x1000)).2.addr +
              (k.svcQueryMemory (addr + 0x1000)).2.size < 2 ^ 64
          · rw [wrap_of_lt hz] at ht
            omega
          · have ht0 : t = 0 := by
              rw [ht]; unfold wrap; omega
            -- the next candidate `0x1000` lies outside the address space
            exfalso
            subst ht0
            cases n with
            | zero => simp [virtmemReserveLoop] at hl
            | succ m =>
              simp only [virtmemReserveLoop] at hl
              have hnot : _InRegion st.g_AddressSpace (wrap (0 + 0x1000)) = false := by
                simp only [_InRegion, wrap]
                simp only [Bool.and_eq_false_imp, decide_eq_true_eq, decide_eq_false_iff_not]
                intro hge
                omega
              simp only [hnot, Bool.not_false, if_true] at hl
              split at hl
              · exact absurd hl (by simp)
              · split at hl
                · have := hmono _ _ _ _ _ hl; omega
                · split at hl
                  · have := hmono _ _ _ _ _ hl; omega
                  · split at hl
                    · have := hmono _ _ _ _ _ hl; omega
                    · injection hl with _ h2
                      omega
        split at h
        · exact hjump _ rfl h
        · split at h
          · exact hjump _ rfl h
          · split at h
            · rename_i hi
              have hs := regionScan_hit st (addr + 0x1000) size hi
              have ht64 := hreg _ hs.1
              have := ih _ w a ht64 h
              have hge : addr + 0x1000 ≤ (st.region (regionScan st (addr + 0x1000) size)).end_ := by
                rcases hs.2 with h1 | h1
                · simp only [_InRegion, Bool.and_eq_true, decide_eq_true_eq] at h1
                  omega
                · simp only [_InRegion, Bool.and_eq_true, decide_eq_true_eq] at h1
                  have e1 : wrap (addr + 0x1000 + size) = addr + 0x1000 + size :=
                    wrap_of_lt (by omega)
                  rw [e1, wsub_of_le (by omega) (by omega)] at h1
                  omega
              omega
            · injection h with h1 _
              omega
    · have hout' : _InRegion st.g_AddressSpace (wrap (addr + 0x1000)) = false := by
        simpa using hout
      simp only [hout', Bool.not_false, if_true] at h
      exfalso
      split at h
      · exact absurd h (by simp)
      · split at h
        · have := hmono _ _ _ _ _ h; omega
        · split at h
          · have := hmono _ _ _ _ _ h; omega
          · split at h
            · have := hmono _ _ _ _ _ h; omega
            · injection h with _ h2
              omega

/-- The three outcomes of `virtmemReserve`, from the outcome of its loop. -/
theorem virtmemReserve_cases (k : Kernel) (st : VirtmemState) (fuel size : Nat) :
    (∃ a w, virtmemReserveLoop k st (pageAlign size) fuel st.g_CurrentAddr 0 = .returned a w ∧
      virtmemReserve k st fuel size =
        (.returned a w, { st with g_CurrentAddr := wrap (a + pageAlign size) })) ∨
    (∃ e, virtmemReserve k st fuel size = (.fatal e, st)) ∨
    virtmemReserve k st fuel size = (.running, st) := by
  cases h : virtmemReserveLoop k st (pageAlign size) fuel st.g_CurrentAddr 0 with
  | returned a w => exact Or.inl ⟨a, w, rfl, by simp only [virtmemReserve, h]⟩
  | fatal e => exact Or.inr (Or.inl ⟨e, by simp only [virtmemReserve, h]⟩)
  | running => exact Or.inr (Or.inr (by simp only [virtmemReserve, h]))

/-- In a sequence of calls that all return without sending the cursor back
to the start of the address space, every address lies at least one page
above the cursor the sequence started from, and every allocation ends at
least one page below each later address. -/
theorem reserveCalls_forward :
    ∀ (calls : List (Kernel × Nat × Nat)) (st : VirtmemState) (addrs : List Nat),
      0x1000 < st.g_AddressSpace.start →
      (∀ i, i < REGION_MAX → (st.region i).end_ < 2 ^ 64) →
      st.g_CurrentAddr < 2 ^ 64 →
      (∀ c ∈ calls, MemoryMapCoherent c.1 ∧
        st.g_AddressSpace.end_ + pageAlign c.2.2 ≤ 2 ^ 64) →
      (reserveCalls st calls).1 = addrs.map (fun a => Bump.returned a 0) →
      (∀ p ∈ addrs.zip (calls.map fun c => c.2.2), st.g_CurrentAddr + 0x1000 ≤ p.1) ∧
      List.Pairwise (fun p q => p.1 + pageAlign p.2 + 0x1000 ≤ q.1)
        (addrs.zip (calls.map fun c => c.2.2)) := by
  intro calls
  induction calls with
  | nil => intro st addrs _ _ _ _ _; simp
  | cons c cs ih =>
    intro st addrs hstart hreg hcur hcalls hret
    obtain ⟨k, fuel, size⟩ := c
    have hc : MemoryMapCoherent k ∧ st.g_AddressSpace.end_ + pageAlign size ≤ 2 ^ 64 :=
      hcalls (k, fuel, size) (List.mem_cons_self _ _)
    rcases virtmemReserve_cases k st fuel size with ⟨a, w, hl, hv⟩ | ⟨e, hv⟩ | hv
    · simp only [reserveCalls, hv] at hret
      cases addrs with
      | nil => simp at hret
      | cons a' as =>
        simp only [List.map_cons, List.cons.injEq, Bump.returned.injEq] at hret
        obtain ⟨⟨ha, hw⟩, hrest⟩ := hret
        subst ha; subst hw
        have hf := virtmemReserveLoop_forward k st (pageAlign size) hc.1 hstart hc.2 hreg
          fuel st.g_CurrentAddr 0 a hcur hl
        have hwrap : wrap (a + pageAlign size) = a + pageAlign size :=
          wrap_of_lt (by have := hc.2; omega)
        have := ih { st with g_CurrentAddr := wrap (a + pageAlign size) } as hstart hreg
          (wrap_lt _) (fun c hcm => hcalls c (List.mem_cons_of_mem _ hcm)) hrest
        simp only [hwrap] at this
        obtain ⟨hlow, hpw⟩ := this
        simp only [List.map_cons, List.zip_cons_cons, List.mem_cons, List.pairwise_cons]
        refine ⟨?_, ?_, hpw⟩
        · rintro p (hp | hp)
          · subst hp; exact hf.1
          · have := hlow p hp; omega
        · intro q hq
          have := hlow q hq
          omega
    · simp only [reserveCalls, hv] at hret
      cases addrs with
      | nil => simp at hret
      | cons a' as => simp at hret
    · simp only [reserveCalls, hv] at hret
      cases addrs with
      | nil => simp at hret
      | cons a' as => simp at hret

/-- A sequence of calls has at most one outcome for each call. -/
theorem reserveCalls_length_le :
    ∀ (calls : List (Kernel × Nat × Nat)) (st : VirtmemState),
      (reserveCalls st calls).1.length ≤ calls.length := by
  intro calls
  induction calls with
  | nil => intro st; simp [reserveCalls]
  | cons c cs ih =>
    intro st
    obtain ⟨k, fuel, size⟩ := c
    rcases virtmemReserve_cases k st fuel size with ⟨a, w, _, hv⟩ | ⟨e, hv⟩ | hv
    · simp only [reserveCalls, hv, List.length_cons]
      have := ih { st with g_CurrentAddr := wrap (a + pageAlign size) }
      omega
    · simp [reserveCalls, hv]
    · simp [reserveCalls, hv]

/-! ### C3 -/

/-- C3, counterexample. In the state that `virtmemSetup` reaches against
`kernelLegacy` (address space `[0x200000, 0x100000000)`), a first call of
size `0x9FFFF000` returns `0x60001000` and leaves the cursor at the end of
the address space; the second call, of size `0x1000`, sends the cursor back
to the start and returns `0x60001000` again. -/
theorem reserve_returns_same_address_twice :
    virtmemSetup kernelLegacy VirtmemState.initial = .ok stateLegacy ∧
    (reserveCalls stateLegacy [(kernelLegacy, 10, 0x9FFFF000), (kernelLegacy, 10, 0x1000)]).1
      = [.returned 0x60001000 1, .returned 0x60001000 1] := by
  refine ⟨rfl, by decide⟩

/-- An address that the loop of `virtmemReserve` returns lies in a
non-empty address space. -/
theorem virtmemReserveLoop_in_space (k : Kernel) (st : VirtmemState) (size : Nat)
    (hne : st.g_AddressSpace.start < st.g_AddressSpace.end_) :
    ∀ (fuel addr w a w' : Nat),
      virtmemReserveLoop k st size fuel addr w = .returned a w' →
      st.g_AddressSpace.start ≤ a ∧ a < st.g_AddressSpace.end_ := by
  intro fuel
  induction fuel with
  | zero => intro addr w a w' h; simp [virtmemReserveLoop] at h
  | succ n ih =>
    intro addr w a w' h
    simp only [virtmemReserveLoop] at h
    by_cases hout : _InRegion st.g_AddressSpace (wrap (addr + 0x1000)) = true
    · simp only [hout, Bool.not_true, Bool.false_eq_true, if_false] at h
      simp only [_InRegion, Bool.and_eq_true, decide_eq_true_eq, ge_iff_le] at hout
      split at h
      · exact absurd h (by simp)
      · split at h
        · exact ih _ _ _ _ h
        · split at h
          · exact ih _ _ _ _ h
          · split at h
            · exact ih _ _ _ _ h
            · simp only [Bump.returned.injEq] at h
              obtain ⟨h1, _⟩ := h
              subst h1
              exact hout
    · have hout' : _InRegion st.g_AddressSpace (wrap (addr + 0x1000)) = false := by
        simpa using hout
      simp only [hout', Bool.not_false, if_true] at h
      split at h
      · exact absurd h (by simp)
      · split at h
        · exact ih _ _ _ _ h
        · split at h
          · exact ih _ _ _ _ h
          · split at h
            · exact ih _ _ _ _ h
            · simp only [Bump.returned.injEq] at h
              obtain ⟨h1, _⟩ := h
              subst h1
              exact ⟨le_refl _, hne⟩

/-- C3, amended. For every initial allocator state (of 64-bit words, with a
non-empty address space that starts above `0x1000`) and every sequence of
`virtmemReserve` calls with sizes `s0, s1..sn`, each against a coherent
memory map and with the end of the address space plus the rounded size
within the 64-bit range: if the calls return addresses `a0, a1..an` and no
call after the first sends the cursor back to the start of the address
space, then the addresses are strictly increasing and the ranges
`[ai - 0x1000, ai + round_up(si, 4096))` are pairwise non-overlapping
(every range ends at or before the guard page of each later one). -/
theorem reserveCalls_increasing (st : VirtmemState) (calls : List (Kernel × Nat × Nat))
    (a0 w0 : Nat) (addrs : List Nat)
    (hstart : 0x1000 < st.g_AddressSpace.start)
    (hne : st.g_AddressSpace.start < st.g_AddressSpace.end_)
    (hreg : ∀ i, i < REGION_MAX → (st.region i).end_ < 2 ^ 64)
    (hcalls : ∀ c ∈ calls, MemoryMapCoherent c.1 ∧
      st.g_AddressSpace.end_ + pageAlign c.2.2 ≤ 2 ^ 64)
    (hret : (reserveCalls st calls).1 =
      Bump.returned a0 w0 :: addrs.map (fun a => Bump.returned a 0)) :
    List.Pairwise (· < ·) (a0 :: addrs) ∧
    List.Pairwise (fun p q => 0x1000 ≤ q.1 ∧ p.1 + pageAlign p.2 ≤ q.1 - 0x1000)
      ((a0 :: addrs).zip (calls.map fun c => c.2.2)) := by
  cases calls with
  | nil => simp [reserveCalls] at hret
  | cons c cs =>
    obtain ⟨k, fuel, size⟩ := c
    have hc : MemoryMapCoherent k ∧ st.g_AddressSpace.end_ + pageAlign size ≤ 2 ^ 64 :=
      hcalls (k, fuel, size) (List.mem_cons_self _ _)
    rcases virtmemReserve_cases k st fuel size with ⟨a, w, hl, hv⟩ | ⟨e, hv⟩ | hv
    · simp only [reserveCalls, hv, List.cons.injEq, Bump.returned.injEq] at hret
      obtain ⟨⟨ha, _⟩, hrest⟩ := hret
      subst ha
      have hin := virtmemReserveLoop_in_space k st (pageAlign size) hne _ _ _ _ _ hl
      have hwrap : wrap (a + pageAlign size) = a + pageAlign size :=
        wrap_of_lt (by have := hc.2; omega)
      have h := reserveCalls_forward cs { st with g_CurrentAddr := wrap (a + pageAlign size) }
        addrs hstart hreg (wrap_lt _) (fun c hcm => hcalls c (List.mem_cons_of_mem _ hcm)) hrest
      simp only [hwrap] at h
      obtain ⟨hlow, hpw⟩ := h
      have hlen : addrs.length ≤ (cs.map fun c => c.2.2).length := by
        have h1 := reserveCalls_length_le cs
          { st with g_CurrentAddr := wrap (a + pageAlign size) }
        rw [hrest] at h1
        simpa using h1
      have hall : List.Pairwise (fun p q : Nat × Nat => p.1 + pageAlign p.2 + 0x1000 ≤ q.1)
          ((a :: addrs).zip ((k, fuel, size) :: cs |>.map fun c => c.2.2)) := by
        simp only [List.map_cons, List.zip_cons_cons, List.pairwise_cons]
        refine ⟨?_, hpw⟩
        intro q hq
        have := hlow q hq
        omega
      have hlen' : (a :: addrs).length ≤ ((k, fuel, size) :: cs |>.map fun c => c.2.2).length := by
        simp only [List.length_cons, List.map_cons]
        omega
      constructor
      · have h2 : List.Pairwise (fun p q : Nat × Nat => p.1 < q.1)
            ((a :: addrs).zip ((k, fuel, size) :: cs |>.map fun c => c.2.2)) :=
          hall.imp (fun {p q} hpq => by omega)
        have h3 := (List.pairwise_map (f := Prod.fst) (R := (· < ·))).mpr h2
        rwa [List.map_fst_zip _ _ hlen'] at h3
      · exact hall.imp (fun {p q} hpq => ⟨by omega, by omega⟩)
    · simp [reserveCalls, hv] at hret
    · simp [reserveCalls, hv] at hret

/-- C3, witness: from the state that `virtmemSetup` reaches against
`kernelLegacy`, two calls of sizes `0x2000` and `0x1000` return `0x60001000`
and `0x60004000`. -/
theorem reserveCalls_increasing_witness :
    (reserveCalls stateLegacy [(kernelLegacy, 10, 0x2000), (kernelLegacy, 10, 0x1000)]).1 =
      [.returned 0x60001000 1, .returned 0x60004000 0] ∧
    List.Pairwise (· < ·) [0x60001000, 0x60004000] ∧
    List.Pairwise (fun p q => 0x1000 ≤ q.1 ∧ p.1 + pageAlign p.2 ≤ q.1 - 0x1000)
      ([0x60001000, 0x60004000].zip
        ([(kernelLegacy, 10, 0x2000), (kernelLegacy, 10, 0x1000)].map fun c => c.2.2)) :=
  ⟨by decide,
    reserveCalls_increasing stateLegacy
      [(kernelLegacy, 10, 0x2000), (kernelLegacy, 10, 0x1000)] 0x60001000 1 [0x60004000]
      (by decide) (by decide) (by decide)
      (by
        intro c hc
        simp only [List.mem_cons, List.mem_singleton, List.not_mem_nil, or_false] at hc
        rcases hc with rfl | rfl
        · exact ⟨(emptyMap_coherent _ rfl), by decide⟩
        · exact ⟨(emptyMap_coherent _ rfl), by decide⟩)
      (by decide)⟩

/-! ### C4 -/

/-- C4, the code at a failing input. In the state that `virtmemSetup`
reaches against `kernelExtended` (address space `[0x8000000, 0x1000000000)`,
heap region `[0x100000000, 0x280000000)`), `virtmemReserve` of size
`0x200000000` returns `0x80001000`: neither the first address, `0x80001000`,
nor the last, `0x280000fff`, of the range lies in the heap region, but the
heap region lies wholly inside the range. -/
theorem reserve_range_contains_heap_region :
    virtmemSetup kernelExtended VirtmemState.initial = .ok stateExtended ∧
    (virtmemReserve kernelExtended stateExtended 10 0x200000000).1 = .returned 0x80001000 1 ∧
    _InRegion (stateExtended.region REGION_HEAP) 0x80001000 = false ∧
    _InRegion (stateExtended.region REGION_HEAP) (0x80001000 + pageAlign 0x200000000 - 1) = false ∧
    0x80001000 ≤ 0x100000000 ∧ 0x100000000 < 0x80001000 + pageAlign 0x200000000 ∧
    _InRegion (stateExtended.region REGION_HEAP) 0x100000000 = true := by
  refine ⟨rfl, by decide, by decide, by decide, by decide, by decide, by decide⟩

/-! ## Region bootstrap, lock and symbol lookup -/

/-! ### C18 -/

/-- C18. For every size and guard size, if the virtual memory manager mutex
is not held by the calling thread, `virtmemFindAslr` returns `NULL` without
a call of the random source and leaves every variable of the allocator as
it is. -/
theorem findAslr_without_lock (k : Kernel) (st : VirtmemState) (rng : Nat → Nat)
    (fuel size guard_size : Nat) (h : st.lockedByCurrentThread = false) :
    virtmemFindAslr k st rng fuel size guard_size = (.returned 0 0, st) := by
  simp [virtmemFindAslr, h]

/-- C18, witness: the state that `virtmemSetup` reaches against
`kernelPrimary`, the lock not held. -/
theorem findAslr_without_lock_witness :
    statePrimary.lockedByCurrentThread = false ∧
    virtmemFindAslr kernelPrimary statePrimary (fun _ => 7) 1 0x1000 0x1000
      = (.returned 0 0, statePrimary) :=
  ⟨rfl, findAslr_without_lock kernelPrimary statePrimary (fun _ => 7) 1 0x1000 0x1000 rfl⟩

/-! ### C14 -/

theorem setRegion_addressSpace (st : VirtmemState) (i : Nat) (r : VirtualRegion) :
    (st.setRegion i r).g_AddressSpace = st.g_AddressSpace := rfl

theorem setRegion_length (st : VirtmemState) (i : Nat) (r : VirtualRegion) :
    (st.setRegion i r).g_Region.length = st.g_Region.length := by
  simp [VirtmemState.setRegion]

theorem setRegion_region_self (st : VirtmemState) (i : Nat) (r : VirtualRegion)
    (h : i < st.g_Region.length) : (st.setRegion i r).region i = r := by
  simp [VirtmemState.setRegion, VirtmemState.region, List.getElem?_set, h]

theorem setRegion_region_ne (st : VirtmemState) (i j : Nat) (r : VirtualRegion) (h : i ≠ j) :
    (st.setRegion i r).region j = st.region j := by
  simp [VirtmemState.setRegion, VirtmemState.region, List.getElem?_set, h]

/-- The part of `virtmemSetup` after its first branch keeps the address
space and the stack region, and returns when the heap region query succeeds. -/
theorem virtmemSetup_after_stack (k : Kernel) (st st1 : VirtmemState)
    (h : virtmemSetupStack k st = .ok st1) :
    (∀ st2, virtmemSetup k st = .ok st2 →
      st2.g_AddressSpace = st1.g_AddressSpace ∧
      st2.region REGION_STACK = st1.region REGION_STACK) ∧
    ((_GetRegionFromInfo k (st1.region REGION_HEAP)
        .InfoType_HeapRegionAddress .InfoType_HeapRegionSize).1 = 0 →
      ∃ st2, virtmemSetup k st = .ok st2) := by
  unfold virtmemSetup
  rw [h]
  simp only
  constructor
  · intro st2 h2
    split at h2
    · exact absurd h2 (by simp)
    · simp only [Except.ok.injEq] at h2
      subst h2
      refine ⟨rfl, ?_⟩
      rw [setRegion_region_ne _ _ _ _ (by decide), setRegion_region_ne _ _ _ _ (by decide)]
  · intro hh
    rw [if_neg (by simpa using hh)]
    exact ⟨_, rfl⟩

/-- C14. When the primary ASLR-region query fails, `virtmemSetup` classifies
the result of the unmap probe. For `0xDC01` the first branch sets the
address space to `[0x8000000, 0x1000000000)` and the stack region to
`[0x8000000, 0x80000000)`; for `0xD401` it sets the address space to
`[0x200000, 0x100000000)` and the stack region to `[0x200000, 0x40000000)`;
in both cases `virtmemSetup` returns with these values when the heap region
query succeeds, and whenever it returns. For every other code
`virtmemSetup` ends in the fatal halt `LibnxError_WeirdKernel`. -/
theorem virtmemSetup_fallback (k : Kernel) (st : VirtmemState)
    (hlen : st.g_Region.length = REGION_MAX)
    (hfail : (_memregionInitWithInfo k st.g_AslrRegion
      .InfoType_AslrRegionAddress .InfoType_AslrRegionSize).1 ≠ 0) :
    (k.svcUnmapMemory 0xFFFFFFFFFFFFE000 0xFFFFFE000 0x1000 = 0xDC01 →
      (∃ st1, virtmemSetupStack k st = .ok st1 ∧
        st1.g_AddressSpace = ⟨0x8000000, 0x1000000000⟩ ∧
        st1.region REGION_STACK = ⟨0x8000000, 0x80000000⟩) ∧
      (∀ st2, virtmemSetup k st = .ok st2 →
        st2.g_AddressSpace = ⟨0x8000000, 0x1000000000⟩ ∧
        st2.region REGION_STACK = ⟨0x8000000, 0x80000000⟩) ∧
      ((k.svcGetInfo .InfoType_HeapRegionAddress).1 = 0 →
        (k.svcGetInfo .InfoType_HeapRegionSize).1 = 0 →
        ∃ st2, virtmemSetup k st = .ok st2)) ∧
    (k.svcUnmapMemory 0xFFFFFFFFFFFFE000 0xFFFFFE000 0x1000 = 0xD401 →
      (∃ st1, virtmemSetupStack k st = .ok st1 ∧
        st1.g_AddressSpace = ⟨0x200000, 0x100000000⟩ ∧
        st1.region REGION_STACK = ⟨0x200000, 0x40000000⟩) ∧
      (∀ st2, virtmemSetup k st = .ok st2 →
        st2.g_AddressSpace = ⟨0x200000, 0x100000000⟩ ∧
        st2.region REGION_STACK = ⟨0x200000, 0x40000000⟩) ∧
      ((k.svcGetInfo .InfoType_HeapRegionAddress).1 = 0 →
        (k.svcGetInfo .InfoType_HeapRegionSize).1 = 0 →
        ∃ st2, virtmemSetup k st = .ok st2)) ∧
    (k.svcUnmapMemory 0xFFFFFFFFFFFFE000 0xFFFFFE000 0x1000 ≠ 0xDC01 →
      k.svcUnmapMemory 0xFFFFFFFFFFFFE000 0xFFFFFE000 0x1000 ≠ 0xD401 →
      virtmemSetup k st = .error .LibnxError_WeirdKernel) := by
  have hheap : ∀ (r : VirtualRegion), (k.svcGetInfo .InfoType_HeapRegionAddress).1 = 0 →
      (k.svcGetInfo .InfoType_HeapRegionSize).1 = 0 →
      (_GetRegionFromInfo k r .InfoType_HeapRegionAddress .InfoType_HeapRegionSize).1 = 0 := by
    intro r h1 h2
    simp [_GetRegionFromInfo, h1, h2]
  have h0 : REGION_STACK < st.g_Region.length := by rw [hlen]; decide
  refine ⟨?_, ?_, ?_⟩
  · intro hrc
    have hs : virtmemSetupStack k st = .ok
        ({ { st with g_AslrRegion := (_memregionInitWithInfo k st.g_AslrRegion
            .InfoType_AslrRegionAddress .InfoType_AslrRegionSize).2 } with
          g_AddressSpace := ⟨0x8000000, 0x1000000000⟩ }.setRegion REGION_STACK
          ⟨0x8000000, 0x80000000⟩) := by
      unfold virtmemSetupStack
      simp only [hfail, ne_eq, not_false_eq_true, if_true, hrc]
      simp
    have hreg := setRegion_region_self
      { { st with g_AslrRegion := (_memregionInitWithInfo k st.g_AslrRegion
          .InfoType_AslrRegionAddress .InfoType_AslrRegionSize).2 } with
        g_AddressSpace := ⟨0x8000000, 0x1000000000⟩ } REGION_STACK ⟨0x8000000, 0x80000000⟩ h0
    obtain ⟨a1, a2⟩ := virtmemSetup_after_stack k st _ hs
    refine ⟨⟨_, hs, rfl, hreg⟩, ?_, fun h1 h2 => a2 (hheap _ h1 h2)⟩
    intro st2 h2
    obtain ⟨b1, b2⟩ := a1 st2 h2
    exact ⟨b1, b2.trans hreg⟩
  · intro hrc
    have hs : virtmemSetupStack k st = .ok
        ({ { st with g_AslrRegion := (_memregionInitWithInfo k st.g_AslrRegion
            .InfoType_AslrRegionAddress .InfoType_AslrRegionSize).2 } with
          g_AddressSpace := ⟨0x200000, 0x100000000⟩ }.setRegion REGION_STACK
          ⟨0x200000, 0x40000000⟩) := by
      unfold virtmemSetupStack
      simp only [hfail, ne_eq, not_false_eq_true, if_true, hrc]
    have hreg := setRegion_region_self
      { { st with g_AslrRegion := (_memregionInitWithInfo k st.g_AslrRegion
          .InfoType_AslrRegionAddress .InfoType_AslrRegionSize).2 } with
        g_AddressSpace := ⟨0x200000, 0x100000000⟩ } REGION_STACK ⟨0x200000, 0x40000000⟩ h0
    obtain ⟨a1, a2⟩ := virtmemSetup_after_stack k st _ hs
    refine ⟨⟨_, hs, rfl, hreg⟩, ?_, fun h1 h2 => a2 (hheap _ h1 h2)⟩
    intro st2 h2
    obtain ⟨b1, b2⟩ := a1 st2 h2
    exact ⟨b1, b2.trans hreg⟩
  · intro h1 h2
    unfold virtmemSetup virtmemSetupStack
    simp only [hfail, ne_eq, not_false_eq_true, if_true, h1, h2, if_false]

/-- C14, witness: `kernelExtended` answers the probe with `0xDC01`. -/
theorem virtmemSetup_fallback_witness :
    virtmemSetup kernelExtended VirtmemState.initial = .ok stateExtended ∧
    stateExtended.g_AddressSpace = ⟨0x8000000, 0x1000000000⟩ ∧
    stateExtended.region REGION_STACK = ⟨0x8000000, 0x80000000⟩ ∧
    (∀ st2, virtmemSetup kernelExtended VirtmemState.initial = .ok st2 →
      st2.g_AddressSpace = ⟨0x8000000, 0x1000000000⟩ ∧
      st2.region REGION_STACK = ⟨0x8000000, 0x80000000⟩) :=
  ⟨rfl, rfl, rfl,
    ((virtmemSetup_fallback kernelExtended VirtmemState.initial (by decide) (by decide)).1
      (by decide)).2.1⟩

/-! ## The bump allocators and the memory map -/

/-- The memory map `mapWithBlock` is coherent. -/
theorem mapWithBlock_coherent (k : Kernel) (hk : k.svcQueryMemory = mapWithBlock) :
    MemoryMapCoherent k := by
  intro q hq64 _
  rw [hk]
  by_cases h1 : q < 0x8003000
  · have e : mapWithBlock q = (0, ⟨0, 0x8003000, 0⟩) := by simp [mapWithBlock, h1]
    rw [e]
    refine ⟨Nat.zero_le _, by simpa using h1, by simp, ?_⟩
    intro x _ hx
    have a : x < 0x8003000 := by simpa using hx
    simp [mapWithBlock, a]
  · by_cases h2 : q < 0x8004000
    · have e : mapWithBlock q = (0, ⟨0x8003000, 0x1000, 3⟩) := by simp [mapWithBlock, h1, h2]
      rw [e]
      refine ⟨by simpa using h1, by simpa using h2, by simp, ?_⟩
      intro x hx1 hx2
      have a : ¬ x < 0x8003000 := by simpa using hx1
      have b : x < 0x8004000 := by simpa using hx2
      simp [mapWithBlock, a, b]
    · by_cases h3 : q < 0x80003000
      · have e : mapWithBlock q = (0, ⟨0x8004000, 0x77FFF000, 0⟩) := by
          simp [mapWithBlock, h1, h2, h3]
        rw [e]
        refine ⟨by simpa using h2, by simpa using h3, by simp, ?_⟩
        intro x hx1 hx2
        have a : ¬ x < 0x8004000 := by simpa using hx1
        have a' : ¬ x < 0x8003000 := by omega
        have b : x < 0x80003000 := by simpa using hx2
        simp [mapWithBlock, a, a', b]
      · by_cases h4 : q < 0x80004000
        · have e : mapWithBlock q = (0, ⟨0x80003000, 0x1000, 3⟩) := by
            simp [mapWithBlock, h1, h2, h3, h4]
          rw [e]
          refine ⟨by simpa using h3, by simpa using h4, by simp, ?_⟩
          intro x hx1 hx2
          have a : ¬ x < 0x80003000 := by simpa using hx1
          have a' : ¬ x < 0x8004000 := by omega
          have a'' : ¬ x < 0x8003000 := by omega
          have b : x < 0x80004000 := by simpa using hx2
          simp [mapWithBlock, a, a', a'', b]
        · by_cases h5 : q < 0x1000000000
          · have e : mapWithBlock q = (0, ⟨0x80004000, 0xF7FFFC000, 0⟩) := by
              simp [mapWithBlock, h1, h2, h3, h4, h5]
            rw [e]
            refine ⟨by simpa using h4, by simpa using h5, by simp, ?_⟩
            intro x hx1 hx2
            have a : ¬ x < 0x80004000 := by simpa using hx1
            have a1 : ¬ x < 0x80003000 := by omega
            have a2 : ¬ x < 0x8004000 := by omega
            have a3 : ¬ x < 0x8003000 := by omega
            have b : x < 0x1000000000 := by simpa using hx2
            simp [mapWithBlock, a, a1, a2, a3, b]
          · have e : mapWithBlock q = (0, ⟨0x1000000000, 0xFFFFFFF000000000, 0x10⟩) := by
              simp [mapWithBlock, h1, h2, h3, h4, h5]
            rw [e]
            refine ⟨by simpa using h5, by simpa using hq64, by simp, ?_⟩
            intro x hx1 _
            have a : ¬ x < 0x1000000000 := by simpa using hx1
            have a1 : ¬ x < 0x80004000 := by omega
            have a2 : ¬ x < 0x80003000 := by omega
            have a3 : ¬ x < 0x8004000 := by omega
            have a4 : ¬ x < 0x8003000 := by omega
            simp [mapWithBlock, a, a1, a2, a3, a4]

/-! ### C13 -/

/-- C13, failing input. In the state that `virtmemSetup` reaches against
`kernelExtended` the stack region is `[0x8000000, 0x80000000)`. A first
`virtmemReserveStack(0x77FFD000)` returns `0x8000000` and leaves the cursor
at `0x7FFFD000`; the next `virtmemReserveStack(0x3000)` returns
`0x7FFFE000`, an address of the stack region, and the slice
`[0x7FFFE000, 0x80001000)` ends beyond the end of the region. -/
theorem reserveStack_slice_leaves_stack_region :
    virtmemSetup kernelExtended VirtmemState.initial = .ok stateExtended ∧
    stateExtended.region REGION_STACK = ⟨0x8000000, 0x80000000⟩ ∧
    virtmemReserveStack kernelExtended stateExtended 10 0x77FFD000
      = (.returned 0x8000000 1, { stateExtended with g_CurrentMapAddr := 0x7FFFD000 }) ∧
    (virtmemReserveStack kernelExtended { stateExtended with g_CurrentMapAddr := 0x7FFFD000 }
      10 0x3000).1 = .returned 0x7FFFE000 0 ∧
    _InRegion (stateExtended.region REGION_STACK) 0x7FFFE000 = true ∧
    0x7FFFE000 + pageAlign 0x3000 = 0x80001000 ∧
    (stateExtended.region REGION_STACK).end_ < 0x7FFFE000 + pageAlign 0x3000 := by
  refine ⟨rfl, by decide, by decide, by decide, by decide, by decide, by decide⟩

/-! ### C19 -/

/-- C19, failing input. Against the coherent memory map of `kernelBlock`,
in the state that `virtmemSetup` reaches, `virtmemReserve(0x4000)` returns
`0x80001000`: the query there reports the unmapped span
`[0x8004000, 0x80003000)`, whose size `0x77FFF000` is at least `0x4000`
though only `0x2000` bytes remain from the candidate to its end, and the
returned range `[0x80001000, 0x80005000)` contains the mapped address
`0x80003000`. In the same way `virtmemReserveStack(0x4000)` returns
`0x8000000`, and the range `[0x8000000, 0x8004000)` contains the mapped
address `0x8003000`. -/
theorem reserve_range_contains_mapped_page :
    MemoryMapCoherent kernelBlock ∧
    virtmemSetup kernelBlock VirtmemState.initial = .ok stateExtended ∧
    (virtmemReserve kernelBlock stateExtended 10 0x4000).1 = .returned 0x80001000 1 ∧
    kernelBlock.svcQueryMemory 0x80001000 = (0, ⟨0x8004000, 0x77FFF000, 0⟩) ∧
    0x8004000 + 0x77FFF000 - 0x80001000 < pageAlign 0x4000 ∧
    (0x80001000 ≤ 0x80003000 ∧ 0x80003000 < 0x80001000 + pageAlign 0x4000 ∧
      kernelBlock.mappedAt 0x80003000) ∧
    (virtmemReserveStack kernelBlock stateExtended 10 0x4000).1 = .returned 0x8000000 1 ∧
    kernelBlock.svcQueryMemory 0x8000000 = (0, ⟨0, 0x8003000, 0⟩) ∧
    0 + 0x8003000 - 0x8000000 < pageAlign 0x4000 ∧
    (0x8000000 ≤ 0x8003000 ∧ 0x8003000 < 0x8000000 + pageAlign 0x4000 ∧
      kernelBlock.mappedAt 0x8003000) := by
  refine ⟨mapWithBlock_coherent kernelBlock rfl, rfl, by decide, by decide, by decide,
    ⟨by decide, by decide, by decide⟩, by decide, by decide, by decide,
    ⟨by decide, by decide, by decide⟩⟩

/-! ### C15 -/

/-- Reduction to 64 bits keeps the offset in the page. -/
theorem wrap_mod_page (x : Nat) : wrap x % 4096 = x % 4096 := by
  unfold wrap
  exact Nat.mod_mod_of_dvd x (by decide)

/-- The rounded size is a multiple of the page size. -/
theorem pageAlign_mod (size : Nat) : pageAlign size % 4096 = 0 := by
  rw [pageAlign_eq]
  exact Nat.mul_mod_left _ _

/-- The rounded size is less than a page above the size. -/
theorem pageAlign_lt_add {size : Nat} (h : size + 0xFFF < 2 ^ 64) :
    pageAlign size < size + 4096 := by
  rw [pageAlign_eq, wrap_of_lt h]
  omega

/-- A candidate of the random search is page-aligned when the region starts
at a page boundary. -/
theorem pickCandidate_aligned (st : VirtmemState) (rng : Nat → Nat) (r : MemRegion)
    (size amax : Nat) (hr : r.start % 4096 = 0) :
    ∀ (fuel draws a d : Nat), pickCandidate st rng r size amax fuel draws = .returned a d →
      a % 4096 = 0 := by
  intro fuel
  induction fuel with
  | zero => intro draws a d h; simp [pickCandidate] at h
  | succ n ih =>
    intro draws a d h
    simp only [pickCandidate] at h
    split at h
    · exact ih _ _ _ h
    · split at h
      · exact ih _ _ _ h
      · simp only [Search.returned.injEq] at h
        obtain ⟨h1, _⟩ := h
        rw [← h1, wrap_mod_page, Nat.add_mod, wrap_mod_page, Nat.shiftLeft_eq, hr]
        simp

/-- A value that the main loop of the random search returns is page-aligned
when the region starts at a page boundary. -/
theorem findRandomLoop_aligned (k : Kernel) (st : VirtmemState) (rng : Nat → Nat)
    (r : MemRegion) (size guard amax fuel : Nat) (hr : r.start % 4096 = 0) :
    ∀ (attempts draws a d : Nat),
      findRandomLoop k st rng r size guard amax fuel attempts draws = .returned a d →
      a % 4096 = 0 := by
  intro attempts
  induction attempts with
  | zero =>
    intro draws a d h
    simp only [findRandomLoop, Search.returned.injEq] at h
    rw [← h.1]
  | succ n ih =>
    intro draws a d h
    simp only [findRandomLoop] at h
    split at h
    · exact absurd h (by simp)
    · rename_i c d' hc
      split at h
      · exact ih _ _ _ h
      · split at h
        · exact ih _ _ _ h
        · simp only [Search.returned.injEq] at h
          rw [← h.1]
          exact pickCandidate_aligned st rng r size amax hr _ _ _ _ hc

/-- A value that `_memregionFindRandom` returns is page-aligned when the
region starts at a page boundary. -/
theorem findRandom_aligned (k : Kernel) (st : VirtmemState) (rng : Nat → Nat) (fuel : Nat)
    (r : MemRegion) (size guard_size a d : Nat) (hr : r.start % 4096 = 0)
    (h : _memregionFindRandom k st rng fuel r size guard_size = .returned a d) :
    a % 4096 = 0 := by
  unfold _memregionFindRandom at h
  simp only at h
  split at h
  · simp only [Search.returned.injEq] at h
    rw [← h.1]
  · exact findRandomLoop_aligned k st rng r _ _ _ fuel hr _ _ _ _ h

/-- An address that the loop of `virtmemReserve` returns is page-aligned
when the cursor, the start of the address space, the ends of the regions
and the ends of the blocks of the memory map are. -/
theorem virtmemReserveLoop_aligned (k : Kernel) (st : VirtmemState) (size : Nat)
    (hk : ∀ q, (k.svcQueryMemory q).1 = 0 →
      ((k.svcQueryMemory q).2.addr + (k.svcQueryMemory q).2.size) % 4096 = 0)
    (hspace : st.g_AddressSpace.start % 4096 = 0)
    (hreg : ∀ i, i < REGION_MAX → (st.region i).end_ % 4096 = 0) :
    ∀ (fuel addr w a w' : Nat), addr % 4096 = 0 →
      virtmemReserveLoop k st size fuel addr w = .returned a w' → a % 4096 = 0 := by
  intro fuel
  induction fuel with
  | zero => intro addr w a w' _ h; simp [virtmemReserveLoop] at h
  | succ n ih =>
    intro addr w a w' ha h
    have hnext : wrap (addr + 0x1000) % 4096 = 0 := by
      rw [wrap_mod_page]; omega
    simp only [virtmemReserveLoop] at h
    by_cases hout : _InRegion st.g_AddressSpace (wrap (addr + 0x1000)) = true
    · simp only [hout, Bool.not_true, Bool.false_eq_true, if_false] at h
      split at h
      · exact absurd h (by simp)
      · rename_i hrc
        have hblock := hk _ (by simpa using hrc)
        split at h
        · exact ih _ _ _ _ (by rw [wrap_mod_page]; exact hblock) h
        · split at h
          · exact ih _ _ _ _ (by rw [wrap_mod_page]; exact hblock) h
          · split at h
            · rename_i hi
              exact ih _ _ _ _ (hreg _ (regionScan_hit st _ _ hi).1) h
            · simp only [Bump.returned.injEq] at h
              rw [← h.1]
              exact hnext
    · have hout' : _InRegion st.g_AddressSpace (wrap (addr + 0x1000)) = false := by
        simpa using hout
      simp only [hout', Bool.not_false, if_true] at h
      split at h
      · exact absurd h (by simp)
      · rename_i hrc
        have hblock := hk _ (by simpa using hrc)
        split at h
        · exact ih _ _ _ _ (by rw [wrap_mod_page]; exact hblock) h
        · split at h
          · exact ih _ _ _ _ (by rw [wrap_mod_page]; exact hblock) h
          · split at h
            · rename_i hi
              exact ih _ _ _ _ (hreg _ (regionScan_hit st _ _ hi).1) h
            · simp only [Bump.returned.injEq] at h
              rw [← h.1]
              exact hspace

/-- An address that the loop of `virtmemReserveStack` returns is
page-aligned when the cursor, the start of the stack region and the ends of
the blocks of the memory map are. -/
theorem virtmemReserveStackLoop_aligned (k : Kernel) (st : VirtmemState) (size : Nat)
    (hk : ∀ q, (k.svcQueryMemory q).1 = 0 →
      ((k.svcQueryMemory q).2.addr + (k.svcQueryMemory q).2.size) % 4096 = 0)
    (hstack : (st.region REGION_STACK).start % 4096 = 0) :
    ∀ (fuel addr w a w' : Nat), addr % 4096 = 0 →
      virtmemReserveStackLoop k st size fuel addr w = .returned a w' → a % 4096 = 0 := by
  intro fuel
  induction fuel with
  | zero => intro addr w a w' _ h; simp [virtmemReserveStackLoop] at h
  | succ n ih =>
    intro addr w a w' ha h
    have hnext : wrap (addr + 0x1000) % 4096 = 0 := by
      rw [wrap_mod_page]; omega
    simp only [virtmemReserveStackLoop] at h
    by_cases hout : _InRegion (st.region REGION_STACK) (wrap (addr + 0x1000)) = true
    · simp only [hout, Bool.not_true, Bool.false_eq_true, if_false] at h
      split at h
      · exact absurd h (by simp)
      · rename_i hrc
        have hblock := hk _ (by simpa using hrc)
        split at h
        · exact ih _ _ _ _ (by rw [wrap_mod_page]; exact hblock) h
        · split at h
          · exact ih _ _ _ _ (by rw [wrap_mod_page]; exact hblock) h
          · simp only [Bump.returned.injEq] at h
            rw [← h.1]
            exact hnext
    · have hout' : _InRegion (st.region REGION_STACK) (wrap (addr + 0x1000)) = false := by
        simpa using hout
      simp only [hout', Bool.not_false, if_true] at h
      split at h
      · exact absurd h (by simp)
      · rename_i hrc
        have hblock := hk _ (by simpa using hrc)
        split at h
        · exact ih _ _ _ _ (by rw [wrap_mod_page]; exact hblock) h
        · split at h
          · exact ih _ _ _ _ (by rw [wrap_mod_page]; exact hblock) h
          · simp only [Bump.returned.injEq] at h
            rw [← h.1]
            exact hstack

/-- The blocks of `emptyMap` end at page boundaries. -/
theorem emptyMap_block_ends (q : Nat) :
    ((emptyMap q).2.addr + (emptyMap q).2.size) % 4096 = 0 := by
  unfold emptyMap
  split <;> rfl

/-- C15, counterexample. Against `kernelUnaligned`, whose ASLR region
starts at `0x8000800`, `virtmemFindAslr` returns `0x8000800`, which is not a
multiple of 4096; and for the size `0xFFFFFFFFFFFFF001` the size that the
allocators use is `0`, the 64-bit sum `size + 0xFFF` having wrapped. -/
theorem findAslr_returns_unaligned_address :
    (virtmemFindAslr kernelUnaligned { statePrimary with lockedByCurrentThread := true }
      (fun _ => 0) 1 0x1000 0).1 = .returned 0x8000800 1 ∧
    0x8000800 % 4096 ≠ 0 ∧
    pageAlign 0xFFFFFFFFFFFFF001 = 0 := by
  refine ⟨by decide, by decide, by decide⟩

/-- C15, amended. The size that the allocators use is a multiple of 4096,
and it is the requested size rounded up to the next multiple of 4096 when
`size + 0xFFF` is within the 64-bit range. When the kernel reports blocks
that end at page boundaries and an ASLR region that starts at one, and the
start of the address space, the start of the stack region, the ends of the
regions and the two cursors are multiples of 4096, every address that
`virtmemFindAslr`, `virtmemReserve` or `virtmemReserveStack` returns is a
multiple of 4096, and the bump allocators leave their cursor at the
returned address plus the rounded size, again a multiple of 4096. -/
theorem allocators_page_aligned (k : Kernel) (st : VirtmemState)
    (hk : ∀ q, (k.svcQueryMemory q).1 = 0 →
      ((k.svcQueryMemory q).2.addr + (k.svcQueryMemory q).2.size) % 4096 = 0)
    (haslr : (_memregionInitWithInfo k st.g_AslrRegion
      .InfoType_AslrRegionAddress .InfoType_AslrRegionSize).2.start % 4096 = 0)
    (hspace : st.g_AddressSpace.start % 4096 = 0)
    (hstack : (st.region REGION_STACK).start % 4096 = 0)
    (hreg : ∀ i, i < REGION_MAX → (st.region i).end_ % 4096 = 0)
    (hcur : st.g_CurrentAddr % 4096 = 0)
    (hmap : st.g_CurrentMapAddr % 4096 = 0) :
    (∀ size, pageAlign size % 4096 = 0 ∧
      (size + 0xFFF < 2 ^ 64 → size ≤ pageAlign size ∧ pageAlign size < size + 4096)) ∧
    (∀ rng fuel size guard_size a d,
      (virtmemFindAslr k st rng fuel size guard_size).1 = .returned a d → a % 4096 = 0) ∧
    (∀ fuel size a w, (virtmemReserve k st fuel size).1 = .returned a w →
      a % 4096 = 0 ∧
      (virtmemReserve k st fuel size).2.g_CurrentAddr = wrap (a + pageAlign size) ∧
      (virtmemReserve k st fuel size).2.g_CurrentAddr % 4096 = 0) ∧
    (∀ fuel size a w, (virtmemReserveStack k st fuel size).1 = .returned a w →
      a % 4096 = 0 ∧
      (virtmemReserveStack k st fuel size).2.g_CurrentMapAddr = wrap (a + pageAlign size) ∧
      (virtmemReserveStack k st fuel size).2.g_CurrentMapAddr % 4096 = 0) := by
  refine ⟨?_, ?_, ?_, ?_⟩
  · intro size
    exact ⟨pageAlign_mod size, fun h => ⟨pageAlign_ge h, pageAlign_lt_add h⟩⟩
  · intro rng fuel size guard_size a d h
    unfold virtmemFindAslr at h
    split at h
    · simp only [Search.returned.injEq] at h
      rw [← h.1]
    · exact findRandom_aligned k _ rng fuel _ size guard_size a d haslr h
  · intro fuel size a w h
    cases hl : virtmemReserveLoop k st (pageAlign size) fuel st.g_CurrentAddr 0 with
    | returned a' w' =>
      simp only [virtmemReserve, hl, Bump.returned.injEq] at h ⊢
      have ha := virtmemReserveLoop_aligned k st (pageAlign size) hk hspace hreg _ _ _ _ _ hcur hl
      rw [← h.1]
      refine ⟨ha, rfl, ?_⟩
      rw [wrap_mod_page, Nat.add_mod, ha, pageAlign_mod]
    | fatal e => simp [virtmemReserve, hl] at h
    | running => simp [virtmemReserve, hl] at h
  · intro fuel size a w h
    cases hl : virtmemReserveStackLoop k st (pageAlign size) fuel st.g_CurrentMapAddr 0 with
    | returned a' w' =>
      simp only [virtmemReserveStack, hl, Bump.returned.injEq] at h ⊢
      have ha := virtmemReserveStackLoop_aligned k st (pageAlign size) hk hstack _ _ _ _ _ hmap hl
      rw [← h.1]
      refine ⟨ha, rfl, ?_⟩
      rw [wrap_mod_page, Nat.add_mod, ha, pageAlign_mod]
    | fatal e => simp [virtmemReserveStack, hl] at h
    | running => simp [virtmemReserveStack, hl] at h

/-- C15, amended, witness: `kernelPrimary` reports page-aligned blocks and
regions; with the lock held the random search returns `0x8000000`, and
`virtmemReserveStack(0x2001)` returns `0x30000000` and leaves the cursor at
`0x30003000`. -/
theorem allocators_page_aligned_witness :
    (virtmemFindAslr kernelPrimary { statePrimary with lockedByCurrentThread := true }
      (fun _ => 0) 1 0x1000 0).1 = .returned 0x8000000 1 ∧
    (virtmemReserveStack kernelPrimary { statePrimary with lockedByCurrentThread := true }
      10 0x2001).1 = .returned 0x30000000 1 ∧
    0x30000000 % 4096 = 0 ∧
    (virtmemReserveStack kernelPrimary { statePrimary with lockedByCurrentThread := true }
      10 0x2001).2.g_CurrentMapAddr = wrap (0x30000000 + pageAlign 0x2001) ∧
    (virtmemReserveStack kernelPrimary { statePrimary with lockedByCurrentThread := true }
      10 0x2001).2.g_CurrentMapAddr % 4096 = 0 :=
  ⟨by decide, by decide,
    (allocators_page_aligned kernelPrimary { statePrimary with lockedByCurrentThread := true }
      (fun q _ => emptyMap_block_ends q) (by decide) (by decide) (by decide) (by decide)
      (by decide) (by decide)).2.2.2 10 0x2001 0x30000000 1 (by decide)⟩

/-! ## Candidates of the random search and the address space -/

/-! ### C21 -/

/-- With a region of 64-bit words that holds the size, the bound
`aslr_max_page_offset + 1` and the shift `page_offset << 12` stay within 64
bits, and the candidate together with the size lies in the region. -/
theorem candidateAddr_in_region (r : MemRegion) (size v : Nat)
    (hr : r.start ≤ r.end_) (hend : r.end_ < 2 ^ 64) (hfit : size ≤ r.end_ - r.start) :
    aslrMaxPageOffset r size + 1 < 2 ^ 64 ∧
    (wrap v % (aslrMaxPageOffset r size + 1)) <<< 12 < 2 ^ 64 ∧
    candidateAddr r size v
      = r.start + (wrap v % (aslrMaxPageOffset r size + 1)) * 4096 ∧
    r.start ≤ candidateAddr r size v ∧
    candidateAddr r size v + size ≤ r.end_ := by
  have hw : wsub r.end_ r.start = r.end_ - r.start := wsub_of_le hend hr
  have hamax : aslrMaxPageOffset r size = (r.end_ - r.start - size) / 4096 := by
    simp only [aslrMaxPageOffset, hw, Nat.shiftRight_eq_div_pow]
  have h1 : aslrMaxPageOffset r size + 1 < 2 ^ 64 := by rw [hamax]; omega
  have hpo : wrap v % (aslrMaxPageOffset r size + 1) ≤ aslrMaxPageOffset r size :=
    Nat.lt_succ_iff.mp (Nat.mod_lt _ (Nat.succ_pos _))
  have hshift : (wrap v % (aslrMaxPageOffset r size + 1)) <<< 12
      = (wrap v % (aslrMaxPageOffset r size + 1)) * 4096 := by
    rw [Nat.shiftLeft_eq]
  have hmul : (wrap v % (aslrMaxPageOffset r size + 1)) * 4096 ≤ r.end_ - r.start - size := by
    have := Nat.mul_le_mul_right 4096 hpo
    rw [hamax] at this ⊢
    have hdiv := Nat.div_mul_le_self (r.end_ - r.start - size) 4096
    omega
  have hcand : candidateAddr r size v
      = r.start + (wrap v % (aslrMaxPageOffset r size + 1)) * 4096 := by
    have hs1 : (wrap v % (aslrMaxPageOffset r size + 1)) * 4096 < 2 ^ 64 := by omega
    have hs2 : r.start + (wrap v % (aslrMaxPageOffset r size + 1)) * 4096 < 2 ^ 64 := by omega
    unfold candidateAddr
    rw [wrap_of_lt h1, hshift, wrap_of_lt hs1, wrap_of_lt hs2]
  refine ⟨h1, by rw [hshift]; omega, hcand, by rw [hcand]; omega, by rw [hcand]; omega⟩

/-- The address that the inner loop of the random search returns is the
candidate of one of the values that it drew. -/
theorem pickCandidate_is_candidate (st : VirtmemState) (rng : Nat → Nat) (r : MemRegion)
    (size : Nat) :
    ∀ (fuel draws a d : Nat),
      pickCandidate st rng r size (aslrMaxPageOffset r size) fuel draws = .returned a d →
      ∃ i, draws ≤ i ∧ i < d ∧ a = candidateAddr r size (rng i) := by
  intro fuel
  induction fuel with
  | zero => intro draws a d h; simp [pickCandidate] at h
  | succ n ih =>
    intro draws a d h
    simp only [pickCandidate] at h
    split at h
    · obtain ⟨i, h1, h2, h3⟩ := ih _ _ _ h
      exact ⟨i, by omega, h2, h3⟩
    · split at h
      · obtain ⟨i, h1, h2, h3⟩ := ih _ _ _ h
        exact ⟨i, by omega, h2, h3⟩
      · simp only [Search.returned.injEq] at h
        exact ⟨draws, le_refl _, by omega, h.1.symm⟩

/-- A non-null address that the main loop of the random search returns is
the candidate of one of the values drawn. -/
theorem findRandomLoop_is_candidate (k : Kernel) (st : VirtmemState) (rng : Nat → Nat)
    (r : MemRegion) (size guard fuel : Nat) :
    ∀ (attempts draws a d : Nat),
      findRandomLoop k st rng r size guard (aslrMaxPageOffset r size) fuel attempts draws
        = .returned a d → a ≠ 0 →
      ∃ i, i < d ∧ a = candidateAddr r size (rng i) := by
  intro attempts
  induction attempts with
  | zero =>
    intro draws a d h ha
    simp only [findRandomLoop, Search.returned.injEq] at h
    exact absurd h.1.symm ha
  | succ n ih =>
    intro draws a d h ha
    simp only [findRandomLoop] at h
    split at h
    · exact absurd h (by simp)
    · rename_i cur d1 hp
      split at h
      · exact ih _ _ _ h ha
      · split at h
        · exact ih _ _ _ h ha
        · simp only [Search.returned.injEq] at h
          obtain ⟨i, _, h2, h3⟩ := pickCandidate_is_candidate st rng r size fuel draws cur d1 hp
          exact ⟨i, by omega, by rw [← h.1]; exact h3⟩

/-- C21. For a region `r` of 64-bit words with `r.start <= r.end` and a
size whose page-rounded value `size'` is at most `r.end - r.start`: the sum
`aslr_max_page_offset + 1` stays within 64 bits; for every value `v` of the
random source the shift `page_offset << 12` stays within 64 bits and the
candidate `cur_addr` satisfies `r.start <= cur_addr` and
`cur_addr + size' <= r.end`; the address that the inner loop settles on is
the candidate of a value it drew and lies in the region with its size; and
every non-null address `A` that `_memregionFindRandom` returns satisfies
`r.start <= A` and `A + size' <= r.end`. -/
theorem findRandom_candidates_in_region (r : MemRegion) (size : Nat)
    (hr : r.start ≤ r.end_) (hend : r.end_ < 2 ^ 64)
    (hfit : pageAlign size ≤ r.end_ - r.start) :
    aslrMaxPageOffset r (pageAlign size) + 1 < 2 ^ 64 ∧
    (∀ v, (wrap v % (aslrMaxPageOffset r (pageAlign size) + 1)) <<< 12 < 2 ^ 64 ∧
      r.start ≤ candidateAddr r (pageAlign size) v ∧
      candidateAddr r (pageAlign size) v + pageAlign size ≤ r.end_) ∧
    (∀ st rng fuel draws a d,
      pickCandidate st rng r (pageAlign size) (aslrMaxPageOffset r (pageAlign size)) fuel draws
        = .returned a d →
      (∃ i, draws ≤ i ∧ i < d ∧ a = candidateAddr r (pageAlign size) (rng i)) ∧
      r.start ≤ a ∧ a + pageAlign size ≤ r.end_) ∧
    (∀ k st rng fuel guard_size a d,
      _memregionFindRandom k st rng fuel r size guard_size = .returned a d → a ≠ 0 →
      r.start ≤ a ∧ a + pageAlign size ≤ r.end_) := by
  refine ⟨(candidateAddr_in_region r (pageAlign size) 0 hr hend hfit).1, ?_, ?_, ?_⟩
  · intro v
    obtain ⟨_, h2, _, h4, h5⟩ := candidateAddr_in_region r (pageAlign size) v hr hend hfit
    exact ⟨h2, h4, h5⟩
  · intro st rng fuel draws a d h
    obtain ⟨i, h1, h2, h3⟩ := pickCandidate_is_candidate st rng r (pageAlign size) fuel draws a d h
    obtain ⟨_, _, _, h4, h5⟩ := candidateAddr_in_region r (pageAlign size) (rng i) hr hend hfit
    rw [← h3] at h4 h5
    exact ⟨⟨i, h1, h2, h3⟩, h4, h5⟩
  · intro k st rng fuel guard_size a d h ha
    unfold _memregionFindRandom at h
    simp only at h
    split at h
    · simp only [Search.returned.injEq] at h
      exact absurd h.1.symm ha
    · obtain ⟨i, _, h3⟩ := findRandomLoop_is_candidate k st rng r (pageAlign size)
        (pageAlign guard_size) fuel RANDOM_MAX_ATTEMPTS 0 a d h ha
      obtain ⟨_, _, _, h4, h5⟩ := candidateAddr_in_region r (pageAlign size) (rng i) hr hend hfit
      rw [← h3] at h4 h5
      exact ⟨h4, h5⟩

/-- C21, witness: the region `[0x8000000, 0x48000000)`, the size `0x2001`
(rounded to `0x3000`) and a random source that returns `7`: the search
returns `0x8007000`. -/
theorem findRandom_candidates_in_region_witness :
    regionAslr.start ≤ regionAslr.end_ ∧
    pageAlign 0x2001 ≤ regionAslr.end_ - regionAslr.start ∧
    candidateAddr regionAslr (pageAlign 0x2001) 7 = 0x8007000 ∧
    _memregionFindRandom kernelPrimary statePrimary (fun _ => 7) 1 regionAslr 0x2001 0
      = .returned 0x8007000 1 ∧
    regionAslr.start ≤ 0x8007000 ∧ 0x8007000 + pageAlign 0x2001 ≤ regionAslr.end_ :=
  ⟨by decide, by decide, by decide, by decide,
    (findRandom_candidates_in_region regionAslr 0x2001 (by decide) (by decide)
      (by decide)).2.2.2 kernelPrimary statePrimary (fun _ => 7) 1 0 0x8007000 1
      (by decide) (by decide)⟩

/-! ### C22 -/

/-- C22, failing input. When the ASLR-region query succeeds, `virtmemSetup`
never assigns `g_AddressSpace`: every state it returns holds the bounds it
started with. Against `kernelPrimary`, which answers every region query,
`virtmemSetup` returns from the zero-initialised state with
`g_AddressSpace = [0, 0)`, so `start < end` does not hold; every candidate
of `virtmemReserve` is then outside the address space and is sent back to
`g_AddressSpace.start = 0`, and two calls in a row return the address `0`. -/
theorem virtmemSetup_primary_leaves_address_space_empty :
    (∀ k st st2,
      (_memregionInitWithInfo k st.g_AslrRegion
        .InfoType_AslrRegionAddress .InfoType_AslrRegionSize).1 = 0 →
      virtmemSetup k st = .ok st2 → st2.g_AddressSpace = st.g_AddressSpace) ∧
    virtmemSetup kernelPrimary VirtmemState.initial = .ok statePrimary ∧
    statePrimary.g_AddressSpace = ⟨0, 0⟩ ∧
    ¬ (statePrimary.g_AddressSpace.start < statePrimary.g_AddressSpace.end_) ∧
    (∀ addr, _InRegion statePrimary.g_AddressSpace addr = false) ∧
    (reserveCalls statePrimary [(kernelPrimary, 10, 0x1000), (kernelPrimary, 10, 0x1000)]).1
      = [.returned 0 1, .returned 0 1] := by
  refine ⟨?_, rfl, by decide, by decide, ?_, by decide⟩
  · intro k st st2 hok h
    cases hs : virtmemSetupStack k st with
    | error e => simp [virtmemSetup, hs] at h
    | ok st1 =>
      have h1 := ((virtmemSetup_after_stack k st st1 hs).1 st2 h).1
      rw [h1]
      unfold virtmemSetupStack at hs
      simp only [hok, ne_eq, not_true_eq_false, if_false] at hs
      split at hs
      · exact absurd hs (by simp)
      · simp only [Except.ok.injEq] at hs
        rw [← hs]
        rfl
  · intro addr
    simp [_InRegion, statePrimary, VirtmemState.initial]
/-! ## The relocation engine -/

/-! ### Bytes, reads and stores -/

theorem wsub_wrap_left (a p : Nat) : wsub (wrap a) p = wsub a p := by
  simp only [wsub, wrap, Nat.mod_mod]

/-- The bytes of a range that is apart from `[p, p + n)` lie outside it. -/
theorem apart_shift {a k p n : Nat} (h : apart a k p n = true) {i : Nat} (hi : i < k) :
    n ≤ wsub (a + i) p := by
  simp only [apart, wsub, Bool.and_eq_true, decide_eq_true_eq] at h
  simp only [wsub]
  omega

/-- The bytes of a range that is apart from the ranges `ws` lie outside them. -/
theorem apartAll_shift {a k : Nat} {ws : List (Nat × Nat)} (h : apartAll a k ws = true)
    {i : Nat} (hi : i < k) : ∀ w ∈ ws, w.2 ≤ wsub (wrap (a + i)) w.1 := by
  intro w hw
  rw [wsub_wrap_left]
  simp only [apartAll, List.all_eq_true] at h
  exact apart_shift (h w hw) hi

/-- A sub-range of a range that is apart from the ranges `ws` is apart from them. -/
theorem apartAll_sub {a k : Nat} {ws : List (Nat × Nat)} (h : apartAll a k ws = true)
    (off n : Nat) (hn : off + n ≤ k) {i : Nat} (hi : i < n) :
    ∀ w ∈ ws, w.2 ≤ wsub (wrap (a + off + i)) w.1 := by
  have := apartAll_shift h (i := off + i) (by omega)
  rwa [← Nat.add_assoc] at this

theorem sameOutside_refl (m : Memory) (ws : List (Nat × Nat)) : m.sameOutside m ws :=
  fun _ _ _ => rfl

/-- Two memories that hold the same `n` bytes from `a` hold the same integer there. -/
theorem readLE_congr (m m' : Memory) :
    ∀ (n a : Nat), (∀ i, i < n → m'.byte (wrap (a + i)) = m.byte (wrap (a + i))) →
      m'.readLE a n = m.readLE a n := by
  intro n
  induction n with
  | zero => intro a _; rfl
  | succ n ih =>
    intro a h
    simp only [Memory.readLE, Memory.u8]
    have h0 := h 0 (by omega)
    rw [Nat.add_zero] at h0
    rw [h0, ih (a + 1) (fun i hi => by
      have := h (i + 1) (by omega)
      rwa [show a + (i + 1) = a + 1 + i by omega] at this)]

/-- A read inside a range that is apart from the ranges `ws` gives the same
integer in two memories that differ only in `ws`. -/
theorem sameOutside_readLE {m m' : Memory} {ws : List (Nat × Nat)} (hs : m.sameOutside m' ws)
    {a k : Nat} (h : apartAll a k ws = true) (off n : Nat) (hn : off + n ≤ k) :
    m'.readLE (a + off) n = m.readLE (a + off) n := by
  apply readLE_congr
  intro i hi
  exact hs _ (wrap_lt _) (apartAll_sub h off n hn hi)

theorem sameOutside_u8 {m m' : Memory} {ws : List (Nat × Nat)} (hs : m.sameOutside m' ws)
    {a k : Nat} (h : apartAll a k ws = true) (off : Nat) (hn : off < k) :
    m'.u8 (a + off) = m.u8 (a + off) := by
  simp only [Memory.u8]
  rw [hs _ (wrap_lt _) (apartAll_shift h hn)]

/-- The symbol stored in a range that is apart from the ranges `ws`. -/
theorem sameOutside_sym {m m' : Memory} {ws : List (Nat × Nat)} (hs : m.sameOutside m' ws)
    {a : Nat} (h : apartAll a 24 ws = true) : m'.sym a = m.sym a := by
  have e0 := sameOutside_readLE hs h 0 4 (by omega)
  have e1 := sameOutside_u8 hs h 4 (by omega)
  have e2 := sameOutside_u8 hs h 5 (by omega)
  have e3 := sameOutside_readLE hs h 6 2 (by omega)
  have e4 := sameOutside_readLE hs h 8 8 (by omega)
  have e5 := sameOutside_readLE hs h 16 8 (by omega)
  rw [Nat.add_zero] at e0
  simp only [Memory.sym, Memory.u32, Memory.u16, Memory.u64, e0, e1, e2, e3, e4, e5]

/-- The relocation entry stored in a range that is apart from the ranges `ws`. -/
theorem sameOutside_rela {m m' : Memory} {ws : List (Nat × Nat)} (hs : m.sameOutside m' ws)
    {a : Nat} (h : apartAll a 24 ws = true) : m'.rela a = m.rela a := by
  have e0 := sameOutside_readLE hs h 0 8 (by omega)
  have e1 := sameOutside_readLE hs h 8 8 (by omega)
  have e2 := sameOutside_readLE hs h 16 8 (by omega)
  rw [Nat.add_zero] at e0
  simp only [Memory.rela, Memory.u64, e0, e1, e2]

/-- The 8-byte word stored in a range that is apart from the ranges `ws`. -/
theorem sameOutside_slot {m m' : Memory} {ws : List (Nat × Nat)} (hs : m.sameOutside m' ws)
    {a : Nat} (h : apartAll a 8 ws = true) : m'.slot a = m.slot a := by
  have e0 := sameOutside_readLE hs h 0 8 (by omega)
  rw [Nat.add_zero] at e0
  simp only [Memory.slot, Memory.u64, e0]

/-- The walk of a dynamic section that is apart from the ranges `ws`. -/
theorem sameOutside_dynScan {m m' : Memory} {ws : List (Nat × Nat)}
    (hs : m.sameOutside m' ws) :
    ∀ (fuel a : Nat), m.dynClear ws fuel a = true → m'.dynScan fuel a = m.dynScan fuel a := by
  intro fuel
  induction fuel with
  | zero => intro a _; rfl
  | succ n ih =>
    intro a h
    simp only [Memory.dynClear, Bool.and_eq_true] at h
    obtain ⟨h1, h2⟩ := h
    have e0 := sameOutside_readLE hs h1 0 8 (by omega)
    have e1 := sameOutside_readLE hs h1 8 8 (by omega)
    rw [Nat.add_zero] at e0
    simp only [Memory.dynScan, Memory.u64, e0, e1]
    simp only [Memory.u64] at h2
    split
    · rfl
    · rename_i hne
      rw [if_neg hne] at h2
      rw [ih _ h2]

/-- The string stored in bytes that are apart from the ranges `ws`. -/
theorem sameOutside_strScan {m m' : Memory} {ws : List (Nat × Nat)}
    (hs : m.sameOutside m' ws) :
    ∀ (fuel a : Nat), m.strClear ws fuel a = true → m'.strScan fuel a = m.strScan fuel a := by
  intro fuel
  induction fuel with
  | zero => intro a _; rfl
  | succ n ih =>
    intro a h
    simp only [Memory.strClear, Bool.and_eq_true] at h
    obtain ⟨h1, h2⟩ := h
    have e0 := sameOutside_u8 hs h1 0 (by omega)
    rw [Nat.add_zero] at e0
    simp only [Memory.strScan, e0]
    split
    · rfl
    · rename_i hne
      rw [if_neg hne] at h2
      rw [ih _ h2]

theorem storeLE_byte_outside (m : Memory) (p v n a : Nat) (h : n ≤ wsub a p) :
    (m.storeLE p v n).byte a = m.byte a := by
  simp only [Memory.storeLE]
  rw [if_neg (by omega)]

theorem storeLE_byte_inside (m : Memory) (p v n a : Nat) (h : wsub a p < n) :
    (m.storeLE p v n).byte a = v / 256 ^ wsub a p % 256 := by
  simp only [Memory.storeLE]
  rw [if_pos h]

/-- A store inside the ranges `ws` keeps a memory equal to `m0` outside them. -/
theorem sameOutside_storeLE {m0 m : Memory} {ws : List (Nat × Nat)}
    (hs : m0.sameOutside m ws) (p v n : Nat)
    (hin : ∀ a, a < 2 ^ 64 → wsub a p < n → ∃ w ∈ ws, wsub a w.1 < w.2) :
    m0.sameOutside (m.storeLE p v n) ws := by
  intro a ha hout
  by_cases h : wsub a p < n
  · obtain ⟨w, hw, hlt⟩ := hin a ha h
    have := hout w hw
    omega
  · rw [storeLE_byte_outside m p v n a (by omega)]
    exact hs a ha hout

/-- A read in a range apart from the stored bytes is not changed by the store. -/
theorem readLE_storeLE_apart (m : Memory) (p v n a k : Nat) (h : apart a k p n = true) :
    (m.storeLE p v n).readLE a k = m.readLE a k := by
  apply readLE_congr
  intro i hi
  apply storeLE_byte_outside
  rw [wsub_wrap_left]
  exact apart_shift h hi

theorem wsub_add_self (p j : Nat) (hj : j < 2 ^ 64) : wsub (p + j) p = j := by
  simp only [wsub]
  omega

/-- The bytes that a store wrote, read back from the offset `j`. -/
theorem readLE_storeLE_inside (m : Memory) (p v n : Nat) (hn : n ≤ 2 ^ 64) :
    ∀ (k j : Nat), j + k ≤ n →
      (m.storeLE p v n).readLE (p + j) k = v / 256 ^ j % 256 ^ k := by
  intro k
  induction k with
  | zero => intro j _; simp [Memory.readLE, Nat.mod_one]
  | succ k ih =>
    intro j hj
    have hw : wsub (wrap (p + j)) p = j := by
      rw [wsub_wrap_left, wsub_add_self p j (by omega)]
    simp only [Memory.readLE, Memory.u8]
    rw [storeLE_byte_inside m p v n _ (by rw [hw]; omega), hw,
      show p + j + 1 = p + (j + 1) by omega, ih (j + 1) (by omega),
      Nat.mod_mod, pow_succ 256 k, Nat.mul_comm (256 ^ k) 256, Nat.mod_mul,
      pow_succ 256 j, ← Nat.div_div_eq_div_mul]

/-- The 8-byte word read back from the address of an 8-byte store. -/
theorem slot_writeSlot_same (m : Memory) (p v : Nat) :
    (m.writeSlot p v).slot p = wrap v := by
  have := readLE_storeLE_inside m p v 8 (by omega) 8 0 (by omega)
  simp only [Nat.add_zero, pow_zero, Nat.div_one] at this
  simp only [Memory.writeSlot, Memory.slot, Memory.u64, this, wrap]
  rfl

theorem wsub_translate (p a b : Nat) : wsub (p + a) (p + b) = wsub a b := by
  simp only [wsub]
  omega

theorem wsub_small (a b : Nat) (ha : a < 2 ^ 64) (hb : b < 2 ^ 64) :
    wsub a b = if b ≤ a then a - b else 2 ^ 64 + a - b := by
  simp only [wsub]
  split <;> omega

theorem apart_fields (p a k off : Nat) (ha : a + k ≤ off ∨ off + 8 ≤ a) (hk : a + k ≤ 24)
    (ho : off + 8 ≤ 24) (hpos : 0 < k) : apart (p + a) k (p + off) 8 = true := by
  simp only [apart, wsub_translate, Bool.and_eq_true, decide_eq_true_eq]
  rw [wsub_small a off (by omega) (by omega), wsub_small off a (by omega) (by omega)]
  constructor <;> split <;> omega

/-- The relocation entry read back from the address of a 24-byte copy. -/
theorem rela_writeRela_same (m : Memory) (p : Nat) (v : Elf64_Rela) :
    (m.writeRela p v).rela p = ⟨wrap v.r_offset, wrap v.r_info, wrap v.r_addend⟩ := by
  have h0 := readLE_storeLE_inside m p v.r_offset 8 (by omega) 8 0 (by omega)
  have h1 := readLE_storeLE_inside (m.storeLE p v.r_offset 8) (p + 8) v.r_info 8 (by omega)
    8 0 (by omega)
  have h2 := readLE_storeLE_inside ((m.storeLE p v.r_offset 8).storeLE (p + 8) v.r_info 8)
    (p + 16) v.r_addend 8 (by omega) 8 0 (by omega)
  simp only [Nat.add_zero, pow_zero, Nat.div_one] at h0 h1 h2
  have a1 := apart_fields p 0 8 8 (by omega) (by omega) (by omega) (by omega)
  have a2 := apart_fields p 0 8 16 (by omega) (by omega) (by omega) (by omega)
  have a3 := apart_fields p 8 8 16 (by omega) (by omega) (by omega) (by omega)
  simp only [Nat.add_zero] at a1 a2
  simp only [Memory.writeRela, Memory.rela, Memory.u64]
  rw [readLE_storeLE_apart _ _ _ _ _ _ a2, readLE_storeLE_apart _ _ _ _ _ _ a1, h0,
    readLE_storeLE_apart _ _ _ _ _ _ a3, h1, h2]
  rfl

/-- A copy of a relocation entry changes no byte outside its 24 bytes. -/
theorem writeRela_byte_outside (m : Memory) (p : Nat) (v : Elf64_Rela) (a : Nat)
    (h : 24 ≤ wsub a p) : (m.writeRela p v).byte a = m.byte a := by
  have h1 : 8 ≤ wsub a p := by omega
  have h2 : 8 ≤ wsub a (p + 8) := by simp only [wsub] at h ⊢; omega
  have h3 : 8 ≤ wsub a (p + 16) := by simp only [wsub] at h ⊢; omega
  simp only [Memory.writeRela]
  rw [storeLE_byte_outside _ _ _ _ _ h3, storeLE_byte_outside _ _ _ _ _ h2,
    storeLE_byte_outside _ _ _ _ _ h1]

/-- A copy of a relocation entry inside the ranges `ws` keeps a memory equal
to `m0` outside them. -/
theorem sameOutside_writeRela {m0 m : Memory} {ws : List (Nat × Nat)}
    (hs : m0.sameOutside m ws) (p : Nat) (v : Elf64_Rela)
    (hin : ∀ a, a < 2 ^ 64 → wsub a p < 24 → ∃ w ∈ ws, wsub a w.1 < w.2) :
    m0.sameOutside (m.writeRela p v) ws := by
  intro a ha hout
  by_cases h : wsub a p < 24
  · obtain ⟨w, hw, hlt⟩ := hin a ha h
    have := hout w hw
    omega
  · rw [writeRela_byte_outside m p v a (by omega)]
    exact hs a ha hout

/-! ### Tables of an image that lie apart from the written bytes -/

theorem find_congr_on {α : Type} (p q : α → Bool) :
    ∀ (l : List α), (∀ x ∈ l, p x = q x) → l.find? p = l.find? q := by
  intro l
  induction l with
  | nil => intro _; rfl
  | cons x xs ih =>
    intro h
    simp only [List.find?_cons, h x (List.mem_cons_self _ _)]
    rw [ih (fun y hy => h y (List.mem_cons_of_mem _ hy))]

/-- The table pointers of the two walks of the dynamic section agree. -/
theorem relocTables_symbolTables (m : Memory) (base : Nat) (r : Bool) :
    (relocTables m base r).symtab = (symbolTables m base).symtab ∧
    (relocTables m base r).strtab = (symbolTables m base).strtab := by
  unfold relocTables symbolTables
  have key : ∀ (l : List Elf64_Dyn) (t t' : DynTables),
      t.symtab = t'.symtab → t.strtab = t'.strtab →
      (l.foldl (relocDynStep base) t).symtab = (l.foldl (symbolDynStep base) t').symtab ∧
      (l.foldl (relocDynStep base) t).strtab = (l.foldl (symbolDynStep base) t').strtab := by
    intro l
    induction l with
    | nil => intro t t' h1 h2; exact ⟨h1, h2⟩
    | cons d ds ih =>
      intro t t' h1 h2
      simp only [List.foldl_cons]
      apply ih <;>
        (unfold relocDynStep symbolDynStep; split_ifs <;> first | rfl | assumption)
  exact key _ _ _ rfl rfl

/-- The symbol `symtab[i]` and its name, when they are apart from the ranges `ws`. -/
theorem sameOutside_symbol {m m' : Memory} {ws : List (Nat × Nat)} (hs : m.sameOutside m' ws)
    {symtab strtab i : Nat} (hc : m.symClear symtab strtab i ws = true) :
    m'.symAt symtab i = m.symAt symtab i ∧
    m'.symName symtab strtab i = m.symName symtab strtab i := by
  simp only [Memory.symClear, Bool.and_eq_true] at hc
  have h1 : m'.symAt symtab i = m.symAt symtab i := by
    simp only [Memory.symAt]
    exact sameOutside_sym hs hc.1
  refine ⟨h1, ?_⟩
  simp only [Memory.symName, Memory.str, h1]
  rw [sameOutside_strScan hs _ _ hc.2]

/-- The dynamic section that is apart from the ranges `ws`. -/
theorem sameOutside_dyn {m m' : Memory} {ws : List (Nat × Nat)} (hs : m.sameOutside m' ws)
    (a : Nat) (h : m.dynClear ws (2 ^ 60) a = true) : m'.dyn a = m.dyn a :=
  sameOutside_dynScan hs (2 ^ 60) a h

/-- The parts of the test `imageClear`. -/
theorem imageClear_parts {m : Memory} {base : Nat} {ws : List (Nat × Nat)}
    (hc : m.imageClear base ws = true) :
    apartAll (wrap (base + 4)) 4 ws = true ∧
    apartAll (wrap (wrap (base + m.u32 (wrap (base + 4))) + 4)) 4 ws = true ∧
    m.dynClear ws (2 ^ 60)
      (wrap (wrap (base + m.u32 (wrap (base + 4))) +
        m.u32 (wrap (wrap (base + m.u32 (wrap (base + 4))) + 4)))) = true ∧
    ∀ i, i < numsymsOf (symbolTables m base) →
      m.symClear (symbolTables m base).symtab (symbolTables m base).strtab i ws = true := by
  unfold Memory.imageClear at hc
  rw [Bool.and_eq_true, Bool.and_eq_true, Bool.and_eq_true, List.all_eq_true] at hc
  obtain ⟨⟨⟨c1, c2⟩, c3⟩, c4⟩ := hc
  exact ⟨c1, c2, c3, fun i hi => c4 i (List.mem_range.mpr hi)⟩

theorem sameOutside_u32 {m m' : Memory} {ws : List (Nat × Nat)} (hs : m.sameOutside m' ws)
    {a : Nat} (h : apartAll a 4 ws = true) : m'.u32 a = m.u32 a := by
  have e := sameOutside_readLE hs h 0 4 (by omega)
  rw [Nat.add_zero] at e
  exact e

/-- The dynamic section and the symbols of an image that is apart from the ranges `ws`. -/
theorem sameOutside_image {m m' : Memory} {ws : List (Nat × Nat)} (hs : m.sameOutside m' ws)
    {base : Nat} (hc : m.imageClear base ws = true) :
    m'.dynamicOf base = m.dynamicOf base ∧
    ∀ i, i < numsymsOf (symbolTables m base) →
      m'.symAt (symbolTables m base).symtab i = m.symAt (symbolTables m base).symtab i ∧
      m'.symName (symbolTables m base).symtab (symbolTables m base).strtab i
        = m.symName (symbolTables m base).symtab (symbolTables m base).strtab i := by
  obtain ⟨c1, c2, c3, c4⟩ := imageClear_parts hc
  constructor
  · unfold Memory.dynamicOf
    simp only
    rw [sameOutside_u32 hs c1, sameOutside_u32 hs c2]
    exact sameOutside_dyn hs _ c3
  · intro i hi
    exact sameOutside_symbol hs (c4 i hi)

/-- The lookup in an image that is apart from the ranges `ws`. -/
theorem getSymbolAddr_stable {m m' : Memory} {ws : List (Nat × Nat)} (hs : m.sameOutside m' ws)
    {base : Nat} (hc : m.imageClear base ws = true) (name : String) :
    SaltySDCore_GetSymbolAddr m' base name = SaltySDCore_GetSymbolAddr m base name := by
  obtain ⟨hd, hy⟩ := sameOutside_image hs hc
  have ht : symbolTables m' base = symbolTables m base := by
    simp only [symbolTables, hd]
  simp only [SaltySDCore_GetSymbolAddr, ht]
  rw [find_congr_on _
    (fun i => decide (m.symName (symbolTables m base).symtab (symbolTables m base).strtab i
        = name) && decide ((m.symAt (symbolTables m base).symtab i).st_value ≠ 0))
    _ (fun i hi => by
      obtain ⟨a, b⟩ := hy i (List.mem_range.mp hi)
      simp only [a, b])]
  split
  · rename_i i hi
    have hlt : i < numsymsOf (symbolTables m base) := by
      have := List.mem_of_find?_eq_some hi
      exact List.mem_range.mp this
    rw [(hy i hlt).1]
  · rfl

/-- The lookup over images that are apart from the ranges `ws`. -/
theorem findSymbolIn_stable {m m' : Memory} {ws : List (Nat × Nat)} (hs : m.sameOutside m' ws)
    (name : String) :
    ∀ (l : List Nat), (∀ b ∈ l, m.imageClear b ws = true) →
      findSymbolIn m' name l = findSymbolIn m name l := by
  intro l
  induction l with
  | nil => intro _; rfl
  | cons b bs ih =>
    intro h
    simp only [findSymbolIn, getSymbolAddr_stable hs (h b (List.mem_cons_self _ _)),
      ih (fun x hx => h x (List.mem_cons_of_mem _ hx))]

/-! ### What the loops keep of the linker state -/

section Loops

attribute [local irreducible] Memory.u8 Memory.readLE Memory.dynScan Memory.strScan
  Memory.storeLE

/-- The relocation loop of `SaltySDCore_ReplaceModuleImport` changes the
memory only: the image lists, the registry and `relr_available` are kept. -/
theorem replaceLoop_frame (base : Nat) (name : String) (newfunc : Nat) (update : Bool)
    (t : DynTables) :
    ∀ (n p : Nat) (s : LinkerState),
      (replaceLoop base name newfunc update t n p s).elfs = s.elfs ∧
      (replaceLoop base name newfunc update t n p s).builtin_elfs = s.builtin_elfs ∧
      (replaceLoop base name newfunc update t n p s).replaced_symbols = s.replaced_symbols ∧
      (replaceLoop base name newfunc update t n p s).relr_available = s.relr_available := by
  intro n
  induction n with
  | zero => intro p s; exact ⟨rfl, rfl, rfl, rfl⟩
  | succ n ih =>
    intro p s
    simp only [replaceLoop]
    split
    · exact ih _ _
    · split
      · exact ih _ _
      · split
        · exact ih _ _
        · split
          · exact ih (wrap (p + SIZEOF_RELA)) (s.withMem (s.mem.writeRela p
              (rewriteAddend (s.mem.rela p) newfunc (SaltySDCore_FindSymbolBuiltin s
                (s.mem.symName t.symtab t.strtab (ELF64_R_SYM (s.mem.rela p).r_info))))))
          · exact ih (wrap (p + SIZEOF_RELA))
              (s.withMem (s.mem.writeSlot (wrap (base + (s.mem.rela p).r_offset)) newfunc))

/-- The relocation loop of `SaltySDCore_DynamicLinkModule` changes the
memory only. -/
theorem linkLoop_frame (base : Nat) (t : DynTables) :
    ∀ (n p : Nat) (s : LinkerState),
      (linkLoop base t n p s).elfs = s.elfs ∧
      (linkLoop base t n p s).builtin_elfs = s.builtin_elfs ∧
      (linkLoop base t n p s).replaced_symbols = s.replaced_symbols ∧
      (linkLoop base t n p s).relr_available = s.relr_available := by
  intro n
  induction n with
  | zero => intro p s; exact ⟨rfl, rfl, rfl, rfl⟩
  | succ n ih =>
    intro p s
    simp only [linkLoop]
    split
    · exact ih _ _
    · split
      · exact ih (wrap (p + SIZEOF_RELA)) (s.withMem (s.mem.writeSlot
          (wrap (base + (s.mem.rela p).r_offset))
          (wrap (linkSymVal s base t (ELF64_R_SYM (s.mem.rela p).r_info) +
            (s.mem.rela p).r_addend))))
      · exact ih _ _

/-! ### The hook registry -/

/-- Detection over a registry extended by one entry. -/
theorem detectFrom_append (name : String) (y : ReplacedSymbol) :
    ∀ (rs : List ReplacedSymbol) (i : Nat) (acc : Bool × Nat),
      detectFrom name (rs ++ [y]) i acc =
        if name = y.name then (true, i + rs.length) else detectFrom name rs i acc := by
  intro rs
  induction rs with
  | nil =>
    intro i acc
    simp only [List.nil_append, detectFrom, List.length_nil, Nat.add_zero]
  | cons r rs ih =>
    intro i acc
    have e : r :: rs ++ [y] = r :: (rs ++ [y]) := rfl
    rw [e]
    simp only [detectFrom, List.length_cons]
    split
    · rw [ih]; split
      · congr 1; omega
      · rfl
    · rw [ih]; split
      · congr 1; omega
      · rfl

/-- The detection loop returns its initial value or an index of the registry. -/
theorem detectFrom_bound (name : String) :
    ∀ (rs : List ReplacedSymbol) (i : Nat) (acc : Bool × Nat),
      detectFrom name rs i acc = acc ∨
      ((detectFrom name rs i acc).1 = true ∧ i ≤ (detectFrom name rs i acc).2 ∧
        (detectFrom name rs i acc).2 < i + rs.length) := by
  intro rs
  induction rs with
  | nil => intro i acc; exact Or.inl rfl
  | cons r rs ih =>
    intro i acc
    simp only [detectFrom, List.length_cons]
    split
    · rcases ih (i + 1) (true, i) with h | h
      · right; rw [h]; exact ⟨rfl, le_refl _, by omega⟩
      · right; exact ⟨h.1, by omega, by omega⟩
    · rcases ih (i + 1) acc with h | h
      · left; exact h
      · right; exact ⟨h.1, by omega, by omega⟩

/-- The registry holds the address of an entry appended under `name`. -/
theorem hookOf_append_same (rs : List ReplacedSymbol) (name : String) (X : Nat) :
    hookOf (rs ++ [⟨X, name⟩]) name = some X := by
  simp [hookOf, detectFrom_append]

/-- An entry appended under another name leaves the address held for `name`. -/
theorem hookOf_append_other (rs : List ReplacedSymbol) (name name' : String) (Z : Nat)
    (h : name' ≠ name) : hookOf (rs ++ [⟨Z, name'⟩]) name = hookOf rs name := by
  have hne : ¬ name = name' := fun e => h e.symm
  simp only [hookOf, detectFrom_append, hne, if_false]
  split
  · rename_i hd
    rcases detectFrom_bound name rs 0 (false, 0) with h0 | h0
    · rw [h0] at hd; exact absurd hd (by simp)
    · have hlt : (detectFrom name rs 0 (false, 0)).2 < rs.length := by omega
      simp [List.getD_eq_getElem?_getD, List.getElem?_append_left hlt]
  · rfl

/-- The block `if (!update)` in terms of the address held for `name`. -/
theorem registerReplacement_eq (rs : List ReplacedSymbol) (name : String) (Z : Nat) :
    registerReplacement rs name Z =
      match hookOf rs name with
      | some X => (rs, X)
      | none => (rs ++ [⟨Z, name⟩], Z) := by
  unfold registerReplacement hookOf
  cases h : (detectFrom name rs 0 (false, 0)).1 <;> simp [h]

/-- What `SaltySDCore_ReplaceModuleImport` does to the registry: nothing,
or it appends the entry `(newfunc, name)` for a name it held no address for. -/
theorem replaceModuleImport_registry (s : LinkerState) (base : Nat) (name : String)
    (newfunc : Nat) (update : Bool) :
    (SaltySDCore_ReplaceModuleImport s base name newfunc update).replaced_symbols
        = s.replaced_symbols ∨
    (hookOf s.replaced_symbols name = none ∧
      (SaltySDCore_ReplaceModuleImport s base name newfunc update).replaced_symbols
        = s.replaced_symbols ++ [⟨newfunc, name⟩]) := by
  unfold SaltySDCore_ReplaceModuleImport
  simp only
  split
  · exact Or.inl rfl
  · rw [(replaceLoop_frame _ _ _ _ _ _ _ _).2.2.1]
    cases update with
    | true => exact Or.inl rfl
    | false =>
      simp only [Bool.not_false, if_true, registerReplacement_eq]
      cases h : hookOf s.replaced_symbols name with
      | some X => exact Or.inl rfl
      | none => exact Or.inr ⟨rfl, rfl⟩

/-- A call of `SaltySDCore_ReplaceModuleImport` keeps the address that the
registry holds for a name. -/
theorem replaceModuleImport_keeps_hook (s : LinkerState) (base : Nat) (name' : String)
    (newfunc : Nat) (update : Bool) (name : String) (X : Nat)
    (h : hookOf s.replaced_symbols name = some X) :
    hookOf (SaltySDCore_ReplaceModuleImport s base name' newfunc update).replaced_symbols name
      = some X := by
  rcases replaceModuleImport_registry s base name' newfunc update with h1 | ⟨h1, h2⟩
  · rw [h1]; exact h
  · rw [h2, hookOf_append_other _ _ _ _ (by rintro rfl; rw [h] at h1; exact absurd h1 (by simp))]
    exact h

/-- The loop of `SaltySDCore_ReplaceImport` keeps the address that the
registry holds for a name. -/
theorem replaceImportLoop_keeps_hook (name' : String) (newfunc : Nat) (name : String)
    (X : Nat) :
    ∀ (l : List Nat) (s : LinkerState), hookOf s.replaced_symbols name = some X →
      hookOf (replaceImportLoop name' newfunc l s).replaced_symbols name = some X := by
  intro l
  induction l with
  | nil => intro s h; exact h
  | cons b bs ih =>
    intro s h
    simp only [replaceImportLoop]
    exact ih _ (replaceModuleImport_keeps_hook s b name' newfunc false name X h)

/-- A call of `SaltySDCore_ReplaceModuleImport` in the in-place mode leaves
the registry as it is. -/
theorem replaceModuleImport_update_registry (s : LinkerState) (base : Nat) (name : String)
    (newfunc : Nat) :
    (SaltySDCore_ReplaceModuleImport s base name newfunc true).replaced_symbols
      = s.replaced_symbols := by
  unfold SaltySDCore_ReplaceModuleImport
  simp only
  split
  · rfl
  · rw [(replaceLoop_frame _ _ _ _ _ _ _ _).2.2.1]
    rfl

/-- The loop of `LoadModule` leaves the registry as it is. -/
theorem loadModuleLoop_registry (base : Nat) :
    ∀ (n x : Nat) (s : LinkerState),
      (loadModuleLoop base n x s).replaced_symbols = s.replaced_symbols := by
  intro n
  induction n with
  | zero => intro x s; rfl
  | succ n ih =>
    intro x s
    simp only [loadModuleLoop]
    split
    · rw [ih, replaceModuleImport_update_registry]
    · rfl

/-- The function `LoadModule` leaves the registry as it is. -/
theorem loadModule_registry (s : LinkerState) (ro : RoLoad) :
    (LoadModule s ro).2.replaced_symbols = s.replaced_symbols := by
  unfold LoadModule
  split
  · simp only [loadModuleLoop_registry]
    rfl
  · rfl

/-- Every call of the linker's interface keeps the address that the
registry holds for a name. -/
theorem run_keeps_hook (name : String) (X : Nat) (c : LinkerCall) (s : LinkerState)
    (h : hookOf s.replaced_symbols name = some X) :
    hookOf (c.run s).replaced_symbols name = some X := by
  cases c with
  | registerModule base => exact h
  | registerBuiltinModule base => exact h
  | replaceModuleImport base name' newfunc update =>
    exact replaceModuleImport_keeps_hook s base name' newfunc update name X h
  | replaceImport name' newfunc =>
    exact replaceImportLoop_keeps_hook name' newfunc name X _ s h
  | dynamicLinkModule base =>
    simp only [LinkerCall.run, SaltySDCore_DynamicLinkModule]
    split
    · exact h
    · rw [(linkLoop_frame _ _ _ _ _).2.2.1]; exact h
  | loadModule ro =>
    simp only [LinkerCall.run, loadModule_registry]
    exact h

/-- Every sequence of calls keeps the address that the registry holds for a name. -/
theorem runCalls_keeps_hook (name : String) (X : Nat) :
    ∀ (calls : List LinkerCall) (s : LinkerState), hookOf s.replaced_symbols name = some X →
      hookOf (runCalls s calls).replaced_symbols name = some X := by
  intro calls
  induction calls with
  | nil => intro s h; exact h
  | cons c cs ih =>
    intro s h
    simp only [runCalls, List.foldl_cons]
    exact ih _ (run_keeps_hook name X c s h)

/-- With an address held for `name`, the install ignores the address supplied. -/
theorem replaceModuleImport_ignores_newfunc (s : LinkerState) (base : Nat) (name : String)
    (X Y : Nat) (h : hookOf s.replaced_symbols name = some X) :
    SaltySDCore_ReplaceModuleImport s base name Y false =
      SaltySDCore_ReplaceModuleImport s base name X false := by
  unfold SaltySDCore_ReplaceModuleImport
  simp only [Bool.not_false, if_true, registerReplacement_eq, h]

/-- With an address held for `name`, the loop of `SaltySDCore_ReplaceImport`
ignores the address supplied. -/
theorem replaceImportLoop_ignores_newfunc (name : String) (X Y : Nat) :
    ∀ (l : List Nat) (s : LinkerState), hookOf s.replaced_symbols name = some X →
      replaceImportLoop name Y l s = replaceImportLoop name X l s := by
  intro l
  induction l with
  | nil => intro s _; rfl
  | cons b bs ih =>
    intro s h
    simp only [replaceImportLoop]
    rw [replaceModuleImport_ignores_newfunc s b name X Y h]
    exact ih _ (replaceModuleImport_keeps_hook s b name X false name X h)


/-! ### C5 -/

/-- The pointers that the dynamic-section walk sets do not depend on the
flag `relr_available` it starts from. -/
theorem relocTables_pointers (m : Memory) (base : Nat) (r r' : Bool) :
    (relocTables m base r).rela = (relocTables m base r').rela ∧
    (relocTables m base r).symtab = (relocTables m base r').symtab ∧
    (relocTables m base r).strtab = (relocTables m base r').strtab := by
  unfold relocTables
  have key : ∀ (l : List Elf64_Dyn) (t t' : DynTables),
      t.rela = t'.rela → t.symtab = t'.symtab → t.strtab = t'.strtab →
      (l.foldl (relocDynStep base) t).rela = (l.foldl (relocDynStep base) t').rela ∧
      (l.foldl (relocDynStep base) t).symtab = (l.foldl (relocDynStep base) t').symtab ∧
      (l.foldl (relocDynStep base) t).strtab = (l.foldl (relocDynStep base) t').strtab := by
    intro l
    induction l with
    | nil => intro t t' h1 h2 h3; exact ⟨h1, h2, h3⟩
    | cons d ds ih =>
      intro t t' h1 h2 h3
      simp only [List.foldl_cons]
      apply ih <;> (unfold relocDynStep; split_ifs <;> first | rfl | assumption)
  exact key _ _ _ rfl rfl rfl

/-- The test `rela == NULL || symtab == NULL || strtab == NULL` fails on an
image with its three tables. -/
theorem hasTables_test {m : Memory} {base : Nat} (h : hasTables m base) (r : Bool) :
    ¬ ((relocTables m base r).rela = 0 ∨ (relocTables m base r).symtab = 0 ∨
      (relocTables m base r).strtab = 0) := by
  obtain ⟨h1, h2, h3⟩ := relocTables_pointers m base r false
  rw [h1, h2, h3]
  unfold hasTables at h
  tauto

/-- On an image without its three tables `SaltySDCore_ReplaceModuleImport`
leaves the memory and the registry as they are. -/
theorem replaceModuleImport_of_no_tables (s : LinkerState) (base : Nat) (name : String)
    (newfunc : Nat) (update : Bool) (h : ¬ hasTables s.mem base) :
    (SaltySDCore_ReplaceModuleImport s base name newfunc update).mem = s.mem ∧
    (SaltySDCore_ReplaceModuleImport s base name newfunc update).replaced_symbols
      = s.replaced_symbols := by
  have hnull : (relocTables s.mem base s.relr_available).rela = 0 ∨
      (relocTables s.mem base s.relr_available).symtab = 0 ∨
      (relocTables s.mem base s.relr_available).strtab = 0 := by
    obtain ⟨h1, h2, h3⟩ := relocTables_pointers s.mem base s.relr_available false
    rw [h1, h2, h3]
    unfold hasTables at h
    by_contra hc
    exact h ⟨fun e => hc (Or.inl e), fun e => hc (Or.inr (Or.inl e)),
      fun e => hc (Or.inr (Or.inr e))⟩
  unfold SaltySDCore_ReplaceModuleImport
  simp only [hnull, if_true, and_self]

/-- The first install of a name on an image with its three tables records
the replacement. -/
theorem replaceModuleImport_records (s : LinkerState) (base : Nat) (name : String) (X : Nat)
    (hfresh : hookOf s.replaced_symbols name = none) (htab : hasTables s.mem base) :
    hookOf (SaltySDCore_ReplaceModuleImport s base name X false).replaced_symbols name
      = some X := by
  unfold SaltySDCore_ReplaceModuleImport
  simp only
  rw [if_neg (hasTables_test htab _), (replaceLoop_frame _ _ _ _ _ _ _ _).2.2.1]
  simp only [Bool.not_false, if_true, registerReplacement_eq, hfresh]
  exact hookOf_append_same _ _ _

/-- The first install of a name through `SaltySDCore_ReplaceImport` records
the replacement when a builtin image has its three tables. -/
theorem replaceImportLoop_records (name : String) (X : Nat) :
    ∀ (l : List Nat) (s : LinkerState), hookOf s.replaced_symbols name = none →
      (∃ b ∈ l, hasTables s.mem b) →
      hookOf (replaceImportLoop name X l s).replaced_symbols name = some X := by
  intro l
  induction l with
  | nil => intro s _ h; simp at h
  | cons b bs ih =>
    intro s hfresh h
    simp only [replaceImportLoop]
    by_cases hb : hasTables s.mem b
    · exact replaceImportLoop_keeps_hook name X name X bs _
        (replaceModuleImport_records s b name X hfresh hb)
    · obtain ⟨b', hb', ht'⟩ := h
      have hb'' : b' ∈ bs := by
        rcases List.mem_cons.mp hb' with e | e
        · subst e; exact absurd ht' hb
        · exact e
      obtain ⟨hm, hr⟩ := replaceModuleImport_of_no_tables s b name X false hb
      exact ih _ (by rw [hr]; exact hfresh) ⟨b', hb'', by rw [hm]; exact ht'⟩

/-- A table pointer keeps its value over a walk of dynamic entries none of
which carries its tag. -/
theorem relocDyn_fold_keeps (base : Nat) :
    ∀ (l : List Elf64_Dyn) (t : DynTables),
      ((∀ d ∈ l, d.d_tag ≠ DT_SYMTAB) → (l.foldl (relocDynStep base) t).symtab = t.symtab) ∧
      ((∀ d ∈ l, d.d_tag ≠ DT_STRTAB) → (l.foldl (relocDynStep base) t).strtab = t.strtab) ∧
      ((∀ d ∈ l, d.d_tag ≠ DT_RELA) → (l.foldl (relocDynStep base) t).rela = t.rela) := by
  intro l
  induction l with
  | nil => intro t; exact ⟨fun _ => rfl, fun _ => rfl, fun _ => rfl⟩
  | cons d ds ih =>
    intro t
    simp only [List.foldl_cons]
    refine ⟨?_, ?_, ?_⟩
    · intro h
      rw [(ih (relocDynStep base t d)).1 (fun x hx => h x (List.mem_cons_of_mem _ hx))]
      have h0 := h d (List.mem_cons_self _ _)
      unfold relocDynStep
      split_ifs <;> first | rfl | contradiction
    · intro h
      rw [(ih (relocDynStep base t d)).2.1 (fun x hx => h x (List.mem_cons_of_mem _ hx))]
      have h0 := h d (List.mem_cons_self _ _)
      unfold relocDynStep
      split_ifs <;> rfl
    · intro h
      rw [(ih (relocDynStep base t d)).2.2 (fun x hx => h x (List.mem_cons_of_mem _ hx))]
      have h0 := h d (List.mem_cons_self _ _)
      unfold relocDynStep
      split_ifs <;> rfl

/-- C16. If the dynamic section of the image at `base` has no `DT_SYMTAB`
entry, or no `DT_STRTAB` entry, or no `DT_RELA` entry, then
`SaltySDCore_ReplaceModuleImport` writes nothing for both values of
`update`: the memory is the same afterwards, and so are the hook registry
and the two image lists. -/
theorem replaceModuleImport_missing_table (s : LinkerState) (base : Nat) (name : String)
    (newfunc : Nat) (update : Bool)
    (h : (∀ d ∈ s.mem.dynamicOf base, d.d_tag ≠ DT_SYMTAB) ∨
      (∀ d ∈ s.mem.dynamicOf base, d.d_tag ≠ DT_STRTAB) ∨
      (∀ d ∈ s.mem.dynamicOf base, d.d_tag ≠ DT_RELA)) :
    (SaltySDCore_ReplaceModuleImport s base name newfunc update).mem = s.mem ∧
    (SaltySDCore_ReplaceModuleImport s base name newfunc update).replaced_symbols
      = s.replaced_symbols ∧
    (SaltySDCore_ReplaceModuleImport s base name newfunc update).elfs = s.elfs ∧
    (SaltySDCore_ReplaceModuleImport s base name newfunc update).builtin_elfs
      = s.builtin_elfs := by
  have hk := relocDyn_fold_keeps base (s.mem.dynamicOf base) ⟨0, 0, 0, 0, s.relr_available⟩
  have hnull : (relocTables s.mem base s.relr_available).rela = 0 ∨
      (relocTables s.mem base s.relr_available).symtab = 0 ∨
      (relocTables s.mem base s.relr_available).strtab = 0 := by
    unfold relocTables
    rcases h with h | h | h
    · exact Or.inr (Or.inl (hk.1 h))
    · exact Or.inr (Or.inr (hk.2.1 h))
    · exact Or.inl (hk.2.2 h)
  unfold SaltySDCore_ReplaceModuleImport
  simp only [hnull, if_true, and_self]

/-! ### C12 -/

/-- A detection that ends with `detected = false` met no entry under `name`. -/
theorem detectFrom_false (name : String) :
    ∀ (rs : List ReplacedSymbol) (i : Nat) (acc : Bool × Nat),
      (detectFrom name rs i acc).1 = false → ∀ r ∈ rs, name ≠ r.name := by
  intro rs
  induction rs with
  | nil => intro i acc _ r hr; exact absurd hr (List.not_mem_nil r)
  | cons x xs ih =>
    intro i acc h r hr
    simp only [detectFrom] at h
    by_cases e : name = x.name
    · rw [if_pos e] at h
      rcases detectFrom_bound name xs (i + 1) (true, i) with h0 | h0
      · rw [h0] at h; exact absurd h (by simp)
      · rw [h0.1] at h; exact absurd h (by simp)
    · rw [if_neg e] at h
      rcases List.mem_cons.mp hr with hr | hr
      · rw [hr]; exact e
      · exact ih _ _ h r hr

/-- A name for which the registry holds no address is the name of no entry. -/
theorem hookOf_none_fresh (rs : List ReplacedSymbol) (name : String)
    (h : hookOf rs name = none) : name ∉ rs.map ReplacedSymbol.name := by
  unfold hookOf at h
  have hd : (detectFrom name rs 0 (false, 0)).1 = false := by
    cases hb : (detectFrom name rs 0 (false, 0)).1
    · rfl
    · rw [hb] at h; simp at h
  intro hmem
  obtain ⟨r, hr, hn⟩ := List.mem_map.mp hmem
  exact detectFrom_false name rs 0 (false, 0) hd r hr hn.symm

/-- The registry after `SaltySDCore_ReplaceImport` over the images `l`: as
before, or extended by one entry under a name it did not hold. -/
theorem replaceImportLoop_registry (name : String) (newfunc : Nat) :
    ∀ (l : List Nat) (s : LinkerState),
      (replaceImportLoop name newfunc l s).replaced_symbols = s.replaced_symbols ∨
      (hookOf s.replaced_symbols name = none ∧
        (replaceImportLoop name newfunc l s).replaced_symbols
          = s.replaced_symbols ++ [⟨newfunc, name⟩]) := by
  intro l
  induction l with
  | nil => intro s; exact Or.inl rfl
  | cons b bs ih =>
    intro s
    simp only [replaceImportLoop]
    rcases replaceModuleImport_registry s b name newfunc false with h1 | ⟨h0, h1⟩
    · rcases ih (SaltySDCore_ReplaceModuleImport s b name newfunc false) with h2 | ⟨h2, h3⟩
      · exact Or.inl (h2.trans h1)
      · rw [h1] at h2 h3
        exact Or.inr ⟨h2, h3⟩
    · rcases ih (SaltySDCore_ReplaceModuleImport s b name newfunc false) with h2 | ⟨h2, _⟩
      · exact Or.inr ⟨h0, h2.trans h1⟩
      · rw [h1, hookOf_append_same] at h2
        exact absurd h2 (by simp)

/-- The registry after a call of the linker's interface: as before, or
extended by one entry under a name it did not hold. -/
theorem run_registry (c : LinkerCall) (s : LinkerState) :
    (c.run s).replaced_symbols = s.replaced_symbols ∨
    ∃ name newfunc, hookOf s.replaced_symbols name = none ∧
      (c.run s).replaced_symbols = s.replaced_symbols ++ [⟨newfunc, name⟩] := by
  cases c with
  | registerModule base => exact Or.inl rfl
  | registerBuiltinModule base => exact Or.inl rfl
  | replaceModuleImport base name newfunc update =>
    rcases replaceModuleImport_registry s base name newfunc update with h | h
    · exact Or.inl h
    · exact Or.inr ⟨name, newfunc, h⟩
  | replaceImport name newfunc =>
    rcases replaceImportLoop_registry name newfunc s.builtin_elfs s with h | h
    · exact Or.inl h
    · exact Or.inr ⟨name, newfunc, h⟩
  | dynamicLinkModule base =>
    left
    simp only [LinkerCall.run, SaltySDCore_DynamicLinkModule]
    split
    · rfl
    · rw [(linkLoop_frame _ _ _ _ _).2.2.1]
  | loadModule ro =>
    left
    simp only [LinkerCall.run, loadModule_registry]

/-- Every sequence of calls keeps the names of the registry distinct and
keeps the entries that the registry holds, in their order. -/
theorem runCalls_registry :
    ∀ (calls : List LinkerCall) (s : LinkerState),
      (s.replaced_symbols.map ReplacedSymbol.name).Nodup →
      ((runCalls s calls).replaced_symbols.map ReplacedSymbol.name).Nodup ∧
      List.IsPrefix s.replaced_symbols (runCalls s calls).replaced_symbols := by
  intro calls
  induction calls with
  | nil => intro s h; exact ⟨h, List.prefix_refl _⟩
  | cons c cs ih =>
    intro s h
    simp only [runCalls, List.foldl_cons]
    rcases run_registry c s with h1 | ⟨name, newfunc, h0, h1⟩
    · have := ih (c.run s) (by rw [h1]; exact h)
      rw [h1] at this
      exact this
    · have hnd : ((c.run s).replaced_symbols.map ReplacedSymbol.name).Nodup := by
        rw [h1, List.map_append, List.nodup_append]
        refine ⟨h, by simp, ?_⟩
        intro a ha hb
        simp only [List.map_cons, List.map_nil, List.mem_singleton] at hb
        rw [hb] at ha
        exact hookOf_none_fresh _ _ h0 ha
      have := ih (c.run s) hnd
      refine ⟨this.1, List.IsPrefix.trans ?_ this.2⟩
      rw [h1]
      exact List.prefix_append _ _

theorem sameOutside_trans {m1 m2 m3 : Memory} {ws ws' : List (Nat × Nat)}
    (h12 : m1.sameOutside m2 ws) (h23 : m2.sameOutside m3 ws')
    (hsub : ∀ a, a < 2 ^ 64 → (∀ w ∈ ws, w.2 ≤ wsub a w.1) → ∀ w ∈ ws', w.2 ≤ wsub a w.1) :
    m1.sameOutside m3 ws := by
  intro a ha hout
  rw [h23 a ha (hsub a ha hout), h12 a ha hout]

/-- Two memories that hold the same 24 bytes from `a` hold the same relocation entry there. -/
theorem rela_congr_bytes (m m' : Memory) (a : Nat)
    (h : ∀ i, i < 24 → m'.byte (wrap (a + i)) = m.byte (wrap (a + i))) :
    m'.rela a = m.rela a := by
  have e0 := readLE_congr m m' 8 a (fun i hi => h i (by omega))
  have e1 := readLE_congr m m' 8 (a + 8) (fun i hi => by
    have := h (8 + i) (by omega); rwa [← Nat.add_assoc] at this)
  have e2 := readLE_congr m m' 8 (a + 16) (fun i hi => by
    have := h (16 + i) (by omega); rwa [← Nat.add_assoc] at this)
  simp only [Memory.rela, Memory.u64, e0, e1, e2]

/-- A copy of a relocation entry keeps the entries that are apart from it. -/
theorem rela_writeRela_apart (m : Memory) (p : Nat) (v : Elf64_Rela) (a : Nat)
    (h : apart a 24 p 24 = true) : (m.writeRela p v).rela a = m.rela a := by
  apply rela_congr_bytes
  intro i hi
  apply writeRela_byte_outside
  rw [wsub_wrap_left]
  exact apart_shift h hi

theorem relaAt_next (A i : Nat) : wrap (relaAt A i + SIZEOF_RELA) = relaAt A (i + 1) := by
  simp only [relaAt, wrap, SIZEOF_RELA]
  omega

theorem relaAt_eq {A N : Nat} (hfit : A + 24 * N ≤ 2 ^ 64) {i : Nat} (hi : i < N) :
    relaAt A i = A + 24 * i := by
  simp only [relaAt, SIZEOF_RELA]
  exact wrap_of_lt (by omega)

/-- The entries of a relocation array that lies within the address space
are apart from one another. -/
theorem relaAt_apart {A N : Nat} (hfit : A + 24 * N ≤ 2 ^ 64) {i j : Nat} (hi : i < N)
    (hj : j < N) (hij : i ≠ j) : apart (relaAt A j) 24 (relaAt A i) 24 = true := by
  rw [relaAt_eq hfit hi, relaAt_eq hfit hj]
  simp only [apart, Bool.and_eq_true, decide_eq_true_eq]
  rw [wsub_small _ _ (by omega) (by omega), wsub_small _ _ (by omega) (by omega)]
  constructor <;> split <;> omega

/-- The bytes of an entry of the relocation array lie in the array. -/
theorem relaAt_within {A N : Nat} (hfit : A + 24 * N ≤ 2 ^ 64) {i : Nat} (hi : i < N)
    (a : Nat) (ha : a < 2 ^ 64) (h : wsub a (relaAt A i) < 24) :
    wsub a A < 24 * N := by
  rw [relaAt_eq hfit hi] at h
  rw [wsub_small _ _ ha (by omega)] at h
  rw [wsub_small _ _ ha (by omega)]
  split at h <;> split <;> omega

/-- The target test in a memory that differs from `m` only in ranges from
which the symbols of the image are apart. -/
theorem relaTargets_stable {m m' : Memory} {ws : List (Nat × Nat)} (hs : m.sameOutside m' ws)
    {base : Nat} (hc : m.imageClear base ws = true) (t : DynTables)
    (h1 : t.symtab = (symbolTables m base).symtab) (h2 : t.strtab = (symbolTables m base).strtab)
    (name : String) (e : Elf64_Rela) :
    relaTargets m' t name e = relaTargets m t name e := by
  have hn : numsymsOf t = numsymsOf (symbolTables m base) := by
    simp only [numsymsOf, h1, h2]
  simp only [relaTargets]
  by_cases hlt : ELF64_R_SYM e.r_info < numsymsOf t
  · have := ((sameOutside_image hs hc).2 _ (hn ▸ hlt)).2
    rw [h1, h2, this]
  · simp [hlt]

theorem readLE_lt (m : Memory) : ∀ (n a : Nat), m.readLE a n < 256 ^ n := by
  intro n
  induction n with
  | zero => intro a; simp [Memory.readLE]
  | succ n ih =>
    intro a
    have h1 : m.u8 a < 256 := by
      simp only [Memory.u8]
      exact Nat.mod_lt _ (by omega)
    have h2 := ih (a + 1)
    simp only [Memory.readLE, pow_succ]
    omega

theorem u64_lt (m : Memory) (a : Nat) : m.u64 a < 2 ^ 64 := by
  have := readLE_lt m 8 a
  simp only [Memory.u64]
  omega

/-- The entries already visited are kept by the rest of the non-in-place loop. -/
theorem replaceLoop_rela_after (base : Nat) (name : String) (newfunc : Nat) (t : DynTables)
    (hfit : t.rela + 24 * t.relasz ≤ 2 ^ 64) (j : Nat) :
    ∀ (n i0 : Nat) (s : LinkerState), i0 + n = t.relasz → j < i0 →
      (replaceLoop base name newfunc false t n (relaAt t.rela i0) s).mem.rela (relaAt t.rela j)
        = s.mem.rela (relaAt t.rela j) := by
  intro n
  induction n with
  | zero => intro i0 s _ _; rfl
  | succ n ih =>
    intro i0 s hn hj
    simp only [replaceLoop, relaAt_next]
    split
    · exact ih _ _ (by omega) (by omega)
    · split
      · exact ih _ _ (by omega) (by omega)
      · split
        · exact ih _ _ (by omega) (by omega)
        · simp only [Bool.not_false, if_true]
          rw [ih (i0 + 1) (s.withMem _) (by omega) (by omega)]
          exact rela_writeRela_apart _ _ _ _
            (relaAt_apart hfit (by omega) (by omega) (by omega))

/-- The content of an entry of the relocation array after the non-in-place
loop, when the symbols of the image and the tables of the builtin images
are apart from the array. -/
theorem replaceLoop_rela_at (s0 : LinkerState) (base : Nat) (name : String) (newfunc : Nat)
    (t : DynTables) (hfit : t.rela + 24 * t.relasz ≤ 2 ^ 64)
    (h1 : t.symtab = (symbolTables s0.mem base).symtab)
    (h2 : t.strtab = (symbolTables s0.mem base).strtab)
    (hc : s0.mem.imageClear base (relaArray t) = true)
    (hb : ∀ b ∈ s0.builtin_elfs, s0.mem.imageClear b (relaArray t) = true)
    (j : Nat) (hj : j < t.relasz) :
    ∀ (n i0 : Nat) (s : LinkerState), i0 + n = t.relasz → i0 ≤ j →
      s0.mem.sameOutside s.mem (relaArray t) → s.builtin_elfs = s0.builtin_elfs →
      s.mem.rela (relaAt t.rela j) = s0.mem.rela (relaAt t.rela j) →
      (replaceLoop base name newfunc false t n (relaAt t.rela i0) s).mem.rela (relaAt t.rela j)
        = if relaTargets s0.mem t name (s0.mem.rela (relaAt t.rela j)) then
            rewriteAddend (s0.mem.rela (relaAt t.rela j)) newfunc
              (SaltySDCore_FindSymbolBuiltin s0 name)
          else s0.mem.rela (relaAt t.rela j) := by
  intro n
  induction n with
  | zero => intro i0 s hn hi; omega
  | succ n ih =>
    intro i0 s hn hi hs hbe he
    have hwithin : ∀ a, a < 2 ^ 64 → wsub a (relaAt t.rela i0) < 24 →
        ∃ w ∈ relaArray t, wsub a w.1 < w.2 := by
      intro a ha hlt
      refine ⟨(t.rela, SIZEOF_RELA * t.relasz), by simp [relaArray], ?_⟩
      exact relaAt_within hfit (by omega) a ha hlt
    rcases Nat.lt_or_eq_of_le hi with hlt | heq
    · -- an entry before `j`
      have step : ∀ (s' : LinkerState), s0.mem.sameOutside s'.mem (relaArray t) →
          s'.builtin_elfs = s0.builtin_elfs →
          s'.mem.rela (relaAt t.rela j) = s0.mem.rela (relaAt t.rela j) →
          (replaceLoop base name newfunc false t n (relaAt t.rela (i0 + 1)) s').mem.rela
              (relaAt t.rela j)
            = if relaTargets s0.mem t name (s0.mem.rela (relaAt t.rela j)) then
                rewriteAddend (s0.mem.rela (relaAt t.rela j)) newfunc
                  (SaltySDCore_FindSymbolBuiltin s0 name)
              else s0.mem.rela (relaAt t.rela j) :=
        fun s' a b c => ih (i0 + 1) s' (by omega) (by omega) a b c
      simp only [replaceLoop, relaAt_next]
      split
      · exact step s hs hbe he
      · split
        · exact step s hs hbe he
        · split
          · exact step s hs hbe he
          · simp only [Bool.not_false, if_true]
            apply step
            · exact sameOutside_writeRela hs _ _ hwithin
            · exact hbe
            · rw [← he]
              exact rela_writeRela_apart _ _ _ _
                (relaAt_apart hfit (by omega) hj (by omega))
    · -- the entry `j`
      subst heq
      have hrest : ∀ (s' : LinkerState),
          (replaceLoop base name newfunc false t n (relaAt t.rela (i0 + 1)) s').mem.rela
              (relaAt t.rela i0) = s'.mem.rela (relaAt t.rela i0) :=
        fun s' => replaceLoop_rela_after base name newfunc t hfit i0 n (i0 + 1) s'
          (by omega) (by omega)
      have htg : relaTargets s.mem t name (s0.mem.rela (relaAt t.rela i0))
          = relaTargets s0.mem t name (s0.mem.rela (relaAt t.rela i0)) :=
        relaTargets_stable hs hc t h1 h2 name _
      simp only [replaceLoop, relaAt_next, he]
      split
      · rename_i c1
        rw [hrest, he]
        simp [relaTargets, c1]
      · rename_i c1
        split
        · rename_i c2
          rw [hrest, he]
          have : ¬ ELF64_R_SYM (s0.mem.rela (relaAt t.rela i0)).r_info < numsymsOf t := by omega
          simp [relaTargets, this]
        · rename_i c2
          have c2' : ELF64_R_SYM (s0.mem.rela (relaAt t.rela i0)).r_info < numsymsOf t := by
            omega
          split
          · rename_i c3
            rw [hrest, he, ← htg]
            have : ¬ s.mem.symName t.symtab t.strtab
                (ELF64_R_SYM (s0.mem.rela (relaAt t.rela i0)).r_info) = name :=
              fun e => c3 e.symm
            simp [relaTargets, this]
          · rename_i c3
            have c3' : s.mem.symName t.symtab t.strtab
                (ELF64_R_SYM (s0.mem.rela (relaAt t.rela i0)).r_info) = name := by
              by_contra hne; exact c3 (fun e => hne e.symm)
            have hyes : relaTargets s0.mem t name (s0.mem.rela (relaAt t.rela i0)) = true := by
              rw [← htg]
              simp [relaTargets, c1, c2', c3']
            have hfind : SaltySDCore_FindSymbolBuiltin s name
                = SaltySDCore_FindSymbolBuiltin s0 name := by
              simp only [SaltySDCore_FindSymbolBuiltin, hbe]
              exact findSymbolIn_stable hs name _ hb
            simp only [Bool.not_false, if_true]
            rw [hrest, hyes, if_pos rfl, c3', hfind]
            simp only [LinkerState.withMem]
            rw [rela_writeRela_same]
            simp only [rewriteAddend, Memory.rela]
            rw [wrap_of_lt (u64_lt _ _), wrap_of_lt (u64_lt _ _), wrap_of_lt (wsub_lt _ _)]

/-- The pointers that the dynamic-section walk sets are machine words. -/
theorem relocTables_rela_lt (m : Memory) (base : Nat) (relr : Bool) :
    (relocTables m base relr).rela < 2 ^ 64 := by
  unfold relocTables
  have key : ∀ (l : List Elf64_Dyn) (t : DynTables), t.rela < 2 ^ 64 →
      (l.foldl (relocDynStep base) t).rela < 2 ^ 64 := by
    intro l
    induction l with
    | nil => intro t h; exact h
    | cons d ds ih =>
      intro t h
      simp only [List.foldl_cons]
      apply ih
      unfold relocDynStep
      split_ifs <;> first | exact h | exact wrap_lt _
  exact key _ _ (by norm_num)

theorem relaAt_zero {p : Nat} (h : p < 2 ^ 64) : relaAt p 0 = p := by
  simp [relaAt, wrap_of_lt h]

/-- A load-bias entry is not of a type that the full link writes. -/
theorem linkWrites_relative (e : Elf64_Rela) (h : ELF64_R_TYPE e.r_info = R_AARCH64_RELATIVE) :
    linkWrites e = false := by
  simp [linkWrites, h, R_AARCH64_RELATIVE, R_AARCH64_GLOB_DAT, R_AARCH64_JUMP_SLOT,
    R_AARCH64_ABS64]

/-- An entry of a relocation array that is apart from the ranges `ws`. -/
theorem rela_stable_in_array {m m' : Memory} {ws : List (Nat × Nat)} (hs : m.sameOutside m' ws)
    {A N : Nat} (hfit : A + 24 * N ≤ 2 ^ 64) (harr : apartAll A (24 * N) ws = true)
    {i : Nat} (hi : i < N) : m'.rela (relaAt A i) = m.rela (relaAt A i) := by
  apply rela_congr_bytes
  intro k hk
  apply hs _ (wrap_lt _)
  rw [relaAt_eq hfit hi, show A + 24 * i + k = A + (24 * i + k) by omega]
  exact apartAll_shift harr (by omega)

/-- An 8-byte store keeps the words that are apart from it. -/
theorem slot_writeSlot_apart (m : Memory) (p v q : Nat) (h : apart q 8 p 8 = true) :
    (m.writeSlot p v).slot q = m.slot q := by
  simp only [Memory.writeSlot, Memory.slot, Memory.u64]
  exact readLE_storeLE_apart m p v 8 q 8 h

/-- An 8-byte store at a slot of the ranges `ws` keeps a memory equal to
`m0` outside them. -/
theorem sameOutside_writeSlot {m0 m : Memory} {ws : List (Nat × Nat)}
    (hs : m0.sameOutside m ws) (p v : Nat) (hmem : (p, 8) ∈ ws) :
    m0.sameOutside (m.writeSlot p v) ws := by
  simp only [Memory.writeSlot]
  exact sameOutside_storeLE hs p v 8 (fun a _ h => ⟨(p, 8), hmem, h⟩)

/-- The value `sym_val` in a memory that differs from that of `s0` only in
ranges from which the symbol, its name and the tables of the registered
images are apart. -/
theorem linkSymVal_stable {s0 s : LinkerState} {ws : List (Nat × Nat)}
    (hs : s0.mem.sameOutside s.mem ws) (he : s.elfs = s0.elfs) (base : Nat) (t : DynTables)
    (i : Nat) (hsym : s0.mem.symClear t.symtab t.strtab i ws = true)
    (helfs : ∀ b ∈ s0.elfs, s0.mem.imageClear b ws = true) :
    linkSymVal s base t i = linkSymVal s0 base t i := by
  obtain ⟨h1, h2⟩ := sameOutside_symbol hs hsym
  simp only [linkSymVal, SaltySDCore_FindSymbol, he, h1, h2]
  rw [findSymbolIn_stable hs _ _ helfs]

/-- The full link changes no byte outside the slots of the entries of a
written type, when the relocation array is apart from these slots. -/
theorem linkLoop_sameOutside (s0 : LinkerState) (base : Nat) (t : DynTables)
    (ws : List (Nat × Nat)) (hfit : t.rela + 24 * t.relasz ≤ 2 ^ 64)
    (harr : apartAll t.rela (24 * t.relasz) ws = true)
    (hws : ∀ i, i < t.relasz → linkWrites (s0.mem.rela (relaAt t.rela i)) = true →
      (slotOf base (s0.mem.rela (relaAt t.rela i)), 8) ∈ ws) :
    ∀ (n i0 : Nat) (s : LinkerState), i0 + n = t.relasz → s0.mem.sameOutside s.mem ws →
      s0.mem.sameOutside (linkLoop base t n (relaAt t.rela i0) s).mem ws := by
  intro n
  induction n with
  | zero => intro i0 s _ hs; exact hs
  | succ n ih =>
    intro i0 s hn hs
    have he : s.mem.rela (relaAt t.rela i0) = s0.mem.rela (relaAt t.rela i0) :=
      rela_stable_in_array hs hfit harr (by omega)
    simp only [linkLoop, relaAt_next, he]
    split
    · exact ih _ _ (by omega) hs
    · split
      · rename_i hw
        apply ih _ _ (by omega)
        simp only [LinkerState.withMem]
        exact sameOutside_writeSlot hs _ _ (hws i0 (by omega) hw)
      · exact ih _ _ (by omega) hs

/-- The rest of the full link keeps an 8-byte word that is apart from the
slots it writes. -/
theorem linkLoop_slot_after (s0 : LinkerState) (base : Nat) (t : DynTables)
    (ws : List (Nat × Nat)) (hfit : t.rela + 24 * t.relasz ≤ 2 ^ 64)
    (harr : apartAll t.rela (24 * t.relasz) ws = true)
    (hws : ∀ i, i < t.relasz → linkWrites (s0.mem.rela (relaAt t.rela i)) = true →
      (slotOf base (s0.mem.rela (relaAt t.rela i)), 8) ∈ ws) (q : Nat) :
    ∀ (n i0 : Nat) (s : LinkerState), i0 + n = t.relasz → s0.mem.sameOutside s.mem ws →
      (∀ i, i0 ≤ i → i < t.relasz → linkWrites (s0.mem.rela (relaAt t.rela i)) = true →
        apart q 8 (slotOf base (s0.mem.rela (relaAt t.rela i))) 8 = true) →
      (linkLoop base t n (relaAt t.rela i0) s).mem.slot q = s.mem.slot q := by
  intro n
  induction n with
  | zero => intro i0 s _ _ _; rfl
  | succ n ih =>
    intro i0 s hn hs hq
    have he : s.mem.rela (relaAt t.rela i0) = s0.mem.rela (relaAt t.rela i0) :=
      rela_stable_in_array hs hfit harr (by omega)
    have hq' : ∀ i, i0 + 1 ≤ i → i < t.relasz →
        linkWrites (s0.mem.rela (relaAt t.rela i)) = true →
        apart q 8 (slotOf base (s0.mem.rela (relaAt t.rela i))) 8 = true :=
      fun i h1 h2 h3 => hq i (by omega) h2 h3
    simp only [linkLoop, relaAt_next, he]
    split
    · exact ih _ _ (by omega) hs hq'
    · split
      · rename_i hw
        rw [ih (i0 + 1) (s.withMem _) (by omega)
          (by simp only [LinkerState.withMem]
              exact sameOutside_writeSlot hs _ _ (hws i0 (by omega) hw)) hq']
        simp only [LinkerState.withMem]
        exact slot_writeSlot_apart _ _ _ _ (hq i0 (le_refl _) (by omega) hw)
      · exact ih _ _ (by omega) hs hq'

/-- The content of the slot of an entry of a written type after the full
link, when the relocation array is apart from the written slots, the value of
the symbol does not depend on the bytes of these slots and no later written
slot meets the slot. -/
theorem linkLoop_slot_at (s0 : LinkerState) (base : Nat) (t : DynTables)
    (ws : List (Nat × Nat)) (hfit : t.rela + 24 * t.relasz ≤ 2 ^ 64)
    (harr : apartAll t.rela (24 * t.relasz) ws = true)
    (hws : ∀ i, i < t.relasz → linkWrites (s0.mem.rela (relaAt t.rela i)) = true →
      (slotOf base (s0.mem.rela (relaAt t.rela i)), 8) ∈ ws)
    (j : Nat) (hj : j < t.relasz)
    (hwj : linkWrites (s0.mem.rela (relaAt t.rela j)) = true)
    (hval : ∀ (s : LinkerState), s0.mem.sameOutside s.mem ws → s.elfs = s0.elfs →
      linkSymVal s base t (ELF64_R_SYM (s0.mem.rela (relaAt t.rela j)).r_info)
        = linkSymVal s0 base t (ELF64_R_SYM (s0.mem.rela (relaAt t.rela j)).r_info))
    (hlater : ∀ i, j < i → i < t.relasz →
      linkWrites (s0.mem.rela (relaAt t.rela i)) = true →
      apart (slotOf base (s0.mem.rela (relaAt t.rela j))) 8
        (slotOf base (s0.mem.rela (relaAt t.rela i))) 8 = true) :
    ∀ (n i0 : Nat) (s : LinkerState), i0 + n = t.relasz → i0 ≤ j →
      s0.mem.sameOutside s.mem ws → s.elfs = s0.elfs →
      (linkLoop base t n (relaAt t.rela i0) s).mem.slot
          (slotOf base (s0.mem.rela (relaAt t.rela j)))
        = wrap (linkSymVal s0 base t (ELF64_R_SYM (s0.mem.rela (relaAt t.rela j)).r_info) +
            (s0.mem.rela (relaAt t.rela j)).r_addend) := by
  intro n
  induction n with
  | zero => intro i0 s hn hi; omega
  | succ n ih =>
    intro i0 s hn hi hs hel
    have he : s.mem.rela (relaAt t.rela i0) = s0.mem.rela (relaAt t.rela i0) :=
      rela_stable_in_array hs hfit harr (by omega)
    rcases Nat.lt_or_eq_of_le hi with hlt | heq
    · simp only [linkLoop, relaAt_next, he]
      split
      · exact ih _ _ (by omega) (by omega) hs hel
      · split
        · rename_i hw
          apply ih (i0 + 1) (s.withMem _) (by omega) (by omega)
          · simp only [LinkerState.withMem]
            exact sameOutside_writeSlot hs _ _ (hws i0 (by omega) hw)
          · exact hel
        · exact ih _ _ (by omega) (by omega) hs hel
    · subst heq
      have hty : ¬ ELF64_R_TYPE (s0.mem.rela (relaAt t.rela i0)).r_info = R_AARCH64_RELATIVE := by
        intro h
        rw [linkWrites_relative _ h] at hwj
        exact absurd hwj (by simp)
      simp only [linkLoop, relaAt_next, he]
      rw [if_neg hty, if_pos hwj]
      rw [linkLoop_slot_after s0 base t ws hfit harr hws _ n (i0 + 1) (s.withMem _) (by omega)
        (by simp only [LinkerState.withMem]
            exact sameOutside_writeSlot hs _ _ (hws i0 (by omega) hwj))
        (fun i h1 h2 h3 => hlater i (by omega) h2 h3)]
      simp only [LinkerState.withMem, slotOf]
      rw [slot_writeSlot_same, hval s hs hel]
      simp only [wrap, Nat.mod_mod]

/-- The state after `SaltySDCore_DynamicLinkModule` on an image without a
relocation array. -/
theorem dynamicLink_of_no_rela (s : LinkerState) (base : Nat)
    (h : (imageTables s base).rela = 0) :
    SaltySDCore_DynamicLinkModule s base =
      { s with relr_available := (imageTables s base).relr } := by
  unfold imageTables at h ⊢
  unfold SaltySDCore_DynamicLinkModule
  simp only
  rw [if_pos h]

/-- The state after `SaltySDCore_DynamicLinkModule` on an image with a
relocation array. -/
theorem dynamicLink_eq_loop (s : LinkerState) (base : Nat)
    (h : (imageTables s base).rela ≠ 0) :
    SaltySDCore_DynamicLinkModule s base =
      linkLoop base (imageTables s base) (imageTables s base).relasz (imageTables s base).rela
        { s with relr_available := (imageTables s base).relr } := by
  unfold imageTables at h ⊢
  unfold SaltySDCore_DynamicLinkModule
  simp only
  rw [if_neg h]

/-- The slot of an entry of a written type is one of the slots that the full link writes. -/
theorem mem_linkSlots (s : LinkerState) (base i : Nat) (hi : i < (imageTables s base).relasz)
    (hw : linkWrites (relaEntry s base i) = true) :
    (slotOf base (relaEntry s base i), 8) ∈ linkSlots s base := by
  simp only [linkSlots, List.mem_filterMap, List.mem_range]
  exact ⟨i, hi, by simp [hw]⟩

/-- The content of the slot of a relocation entry of a written type after
the full link of a well separated image. -/
theorem dynamicLink_slot_at (s : LinkerState) (base j : Nat)
    (hrela : (imageTables s base).rela ≠ 0)
    (hfit : (imageTables s base).rela + SIZEOF_RELA * (imageTables s base).relasz ≤ 2 ^ 64)
    (harr : apartAll (imageTables s base).rela (SIZEOF_RELA * (imageTables s base).relasz)
      (linkSlots s base) = true)
    (hj : j < (imageTables s base).relasz)
    (hw : linkWrites (relaEntry s base j) = true)
    (hval : ∀ (s' : LinkerState), s.mem.sameOutside s'.mem (linkSlots s base) →
      s'.elfs = s.elfs →
      linkSymVal s' base (imageTables s base) (ELF64_R_SYM (relaEntry s base j).r_info)
        = linkSymVal s base (imageTables s base) (ELF64_R_SYM (relaEntry s base j).r_info))
    (hlater : ∀ i, j < i → i < (imageTables s base).relasz →
      linkWrites (relaEntry s base i) = true →
      apart (slotOf base (relaEntry s base j)) 8 (slotOf base (relaEntry s base i)) 8 = true) :
    (SaltySDCore_DynamicLinkModule s base).mem.slot (slotOf base (relaEntry s base j)) =
      wrap (linkSymVal s base (imageTables s base) (ELF64_R_SYM (relaEntry s base j).r_info) +
        (relaEntry s base j).r_addend) := by
  rw [dynamicLink_eq_loop s base hrela]
  have hp : (imageTables s base).rela < 2 ^ 64 := relocTables_rela_lt _ _ _
  have h := linkLoop_slot_at
    { s with relr_available := (imageTables s base).relr } base (imageTables s base)
    (linkSlots s base) hfit harr (fun i hi hwi => mem_linkSlots s base i hi hwi) j hj hw
    (fun s' h1 h2 => hval s' h1 h2) hlater (imageTables s base).relasz 0
    { s with relr_available := (imageTables s base).relr } (by omega) (by omega)
    (sameOutside_refl _ _) rfl
  rw [relaAt_zero hp] at h
  exact h

/-- The value `sym_val` of a locally defined symbol whose entry is apart
from the ranges `ws`. -/
theorem linkSymVal_local_stable {s0 s : LinkerState} {ws : List (Nat × Nat)}
    (hs : s0.mem.sameOutside s.mem ws) (base : Nat) (t : DynTables) (i : Nat)
    (hsym : apartAll (wrap (t.symtab + SIZEOF_SYM * i)) 24 ws = true)
    (hloc : (s0.mem.symAt t.symtab i).st_shndx ≠ 0) :
    linkSymVal s base t i = linkSymVal s0 base t i := by
  have h1 : s.mem.symAt t.symtab i = s0.mem.symAt t.symtab i := by
    simp only [Memory.symAt]
    exact sameOutside_sym hs hsym
  simp only [linkSymVal, h1, hloc, false_and, if_false]

/-- The in-place loop changes no byte outside the slots of the matching
entries, when the relocation array and the symbols of the image are apart
from these slots. -/
theorem replaceLoop_update_sameOutside (s0 : LinkerState) (base : Nat) (name : String)
    (newfunc : Nat) (t : DynTables) (ws : List (Nat × Nat))
    (hfit : t.rela + 24 * t.relasz ≤ 2 ^ 64)
    (harr : apartAll t.rela (24 * t.relasz) ws = true)
    (h1 : t.symtab = (symbolTables s0.mem base).symtab)
    (h2 : t.strtab = (symbolTables s0.mem base).strtab)
    (hc : s0.mem.imageClear base ws = true)
    (hws : ∀ i, i < t.relasz →
      relaTargets s0.mem t name (s0.mem.rela (relaAt t.rela i)) = true →
      (slotOf base (s0.mem.rela (relaAt t.rela i)), 8) ∈ ws) :
    ∀ (n i0 : Nat) (s : LinkerState), i0 + n = t.relasz → s0.mem.sameOutside s.mem ws →
      s0.mem.sameOutside (replaceLoop base name newfunc true t n (relaAt t.rela i0) s).mem ws := by
  intro n
  induction n with
  | zero => intro i0 s _ hs; exact hs
  | succ n ih =>
    intro i0 s hn hs
    have he : s.mem.rela (relaAt t.rela i0) = s0.mem.rela (relaAt t.rela i0) :=
      rela_stable_in_array hs hfit harr (by omega)
    have htg : relaTargets s.mem t name (s0.mem.rela (relaAt t.rela i0))
        = relaTargets s0.mem t name (s0.mem.rela (relaAt t.rela i0)) :=
      relaTargets_stable hs hc t h1 h2 name _
    simp only [replaceLoop, relaAt_next, he]
    split
    · exact ih _ _ (by omega) hs
    · rename_i c1
      split
      · exact ih _ _ (by omega) hs
      · rename_i c2
        split
        · exact ih _ _ (by omega) hs
        · rename_i c3
          have c3' : s.mem.symName t.symtab t.strtab
              (ELF64_R_SYM (s0.mem.rela (relaAt t.rela i0)).r_info) = name := by
            by_contra hne; exact c3 (fun e => hne e.symm)
          have hyes : relaTargets s0.mem t name (s0.mem.rela (relaAt t.rela i0)) = true := by
            rw [← htg]
            have : ELF64_R_SYM (s0.mem.rela (relaAt t.rela i0)).r_info < numsymsOf t := by omega
            simp [relaTargets, c1, this, c3']
          simp only [Bool.not_true, Bool.false_eq_true, if_false]
          apply ih _ _ (by omega)
          simp only [LinkerState.withMem]
          exact sameOutside_writeSlot hs _ _ (hws i0 (by omega) hyes)

/-- A slot that holds the replacement holds it after the rest of the
in-place loop, when every later matching slot is the slot itself or apart
from it. -/
theorem replaceLoop_update_slot_kept (s0 : LinkerState) (base : Nat) (name : String)
    (newfunc : Nat) (t : DynTables) (ws : List (Nat × Nat))
    (hfit : t.rela + 24 * t.relasz ≤ 2 ^ 64)
    (harr : apartAll t.rela (24 * t.relasz) ws = true)
    (h1 : t.symtab = (symbolTables s0.mem base).symtab)
    (h2 : t.strtab = (symbolTables s0.mem base).strtab)
    (hc : s0.mem.imageClear base ws = true)
    (hws : ∀ i, i < t.relasz →
      relaTargets s0.mem t name (s0.mem.rela (relaAt t.rela i)) = true →
      (slotOf base (s0.mem.rela (relaAt t.rela i)), 8) ∈ ws) (q : Nat) :
    ∀ (n i0 : Nat) (s : LinkerState), i0 + n = t.relasz → s0.mem.sameOutside s.mem ws →
      s.mem.slot q = wrap newfunc →
      (∀ i, i0 ≤ i → i < t.relasz →
        relaTargets s0.mem t name (s0.mem.rela (relaAt t.rela i)) = true →
        slotOf base (s0.mem.rela (relaAt t.rela i)) = q ∨
        apart q 8 (slotOf base (s0.mem.rela (relaAt t.rela i))) 8 = true) →
      (replaceLoop base name newfunc true t n (relaAt t.rela i0) s).mem.slot q
        = wrap newfunc := by
  intro n
  induction n with
  | zero => intro i0 s _ _ hq _; exact hq
  | succ n ih =>
    intro i0 s hn hs hq hl
    have he : s.mem.rela (relaAt t.rela i0) = s0.mem.rela (relaAt t.rela i0) :=
      rela_stable_in_array hs hfit harr (by omega)
    have htg : relaTargets s.mem t name (s0.mem.rela (relaAt t.rela i0))
        = relaTargets s0.mem t name (s0.mem.rela (relaAt t.rela i0)) :=
      relaTargets_stable hs hc t h1 h2 name _
    have hl' : ∀ i, i0 + 1 ≤ i → i < t.relasz →
        relaTargets s0.mem t name (s0.mem.rela (relaAt t.rela i)) = true →
        slotOf base (s0.mem.rela (relaAt t.rela i)) = q ∨
        apart q 8 (slotOf base (s0.mem.rela (relaAt t.rela i))) 8 = true :=
      fun i a b c => hl i (by omega) b c
    simp only [replaceLoop, relaAt_next, he]
    split
    · exact ih _ _ (by omega) hs hq hl'
    · rename_i c1
      split
      · exact ih _ _ (by omega) hs hq hl'
      · rename_i c2
        split
        · exact ih _ _ (by omega) hs hq hl'
        · rename_i c3
          have c3' : s.mem.symName t.symtab t.strtab
              (ELF64_R_SYM (s0.mem.rela (relaAt t.rela i0)).r_info) = name := by
            by_contra hne; exact c3 (fun e => hne e.symm)
          have hyes : relaTargets s0.mem t name (s0.mem.rela (relaAt t.rela i0)) = true := by
            rw [← htg]
            have : ELF64_R_SYM (s0.mem.rela (relaAt t.rela i0)).r_info < numsymsOf t := by omega
            simp [relaTargets, c1, this, c3']
          simp only [Bool.not_true, Bool.false_eq_true, if_false]
          apply ih (i0 + 1) (s.withMem _) (by omega)
          · simp only [LinkerState.withMem]
            exact sameOutside_writeSlot hs _ _ (hws i0 (by omega) hyes)
          · simp only [LinkerState.withMem]
            rcases hl i0 (le_refl _) (by omega) hyes with heq | hap
            · have : wrap (base + (s0.mem.rela (relaAt t.rela i0)).r_offset) = q := heq
              rw [this, slot_writeSlot_same]
            · have hap' : apart q 8
                  (wrap (base + (s0.mem.rela (relaAt t.rela i0)).r_offset)) 8 = true := hap
              rw [slot_writeSlot_apart _ _ _ _ hap']
              exact hq
          · exact hl'

/-- The slot of a matching entry holds the replacement after the in-place loop. -/
theorem replaceLoop_update_slot_at (s0 : LinkerState) (base : Nat) (name : String)
    (newfunc : Nat) (t : DynTables) (ws : List (Nat × Nat))
    (hfit : t.rela + 24 * t.relasz ≤ 2 ^ 64)
    (harr : apartAll t.rela (24 * t.relasz) ws = true)
    (h1 : t.symtab = (symbolTables s0.mem base).symtab)
    (h2 : t.strtab = (symbolTables s0.mem base).strtab)
    (hc : s0.mem.imageClear base ws = true)
    (hws : ∀ i, i < t.relasz →
      relaTargets s0.mem t name (s0.mem.rela (relaAt t.rela i)) = true →
      (slotOf base (s0.mem.rela (relaAt t.rela i)), 8) ∈ ws)
    (j : Nat) (hj : j < t.relasz)
    (htj : relaTargets s0.mem t name (s0.mem.rela (relaAt t.rela j)) = true)
    (hlater : ∀ i, j < i → i < t.relasz →
      relaTargets s0.mem t name (s0.mem.rela (relaAt t.rela i)) = true →
      slotOf base (s0.mem.rela (relaAt t.rela i)) = slotOf base (s0.mem.rela (relaAt t.rela j)) ∨
      apart (slotOf base (s0.mem.rela (relaAt t.rela j))) 8
        (slotOf base (s0.mem.rela (relaAt t.rela i))) 8 = true) :
    ∀ (n i0 : Nat) (s : LinkerState), i0 + n = t.relasz → i0 ≤ j →
      s0.mem.sameOutside s.mem ws →
      (replaceLoop base name newfunc true t n (relaAt t.rela i0) s).mem.slot
          (slotOf base (s0.mem.rela (relaAt t.rela j))) = wrap newfunc := by
  intro n
  induction n with
  | zero => intro i0 s hn hi; omega
  | succ n ih =>
    intro i0 s hn hi hs
    have he : s.mem.rela (relaAt t.rela i0) = s0.mem.rela (relaAt t.rela i0) :=
      rela_stable_in_array hs hfit harr (by omega)
    have htg : relaTargets s.mem t name (s0.mem.rela (relaAt t.rela i0))
        = relaTargets s0.mem t name (s0.mem.rela (relaAt t.rela i0)) :=
      relaTargets_stable hs hc t h1 h2 name _
    rcases Nat.lt_or_eq_of_le hi with hlt | heq
    · simp only [replaceLoop, relaAt_next, he]
      split
      · exact ih _ _ (by omega) (by omega) hs
      · rename_i c1
        split
        · exact ih _ _ (by omega) (by omega) hs
        · rename_i c2
          split
          · exact ih _ _ (by omega) (by omega) hs
          · rename_i c3
            have c3' : s.mem.symName t.symtab t.strtab
                (ELF64_R_SYM (s0.mem.rela (relaAt t.rela i0)).r_info) = name := by
              by_contra hne; exact c3 (fun e => hne e.symm)
            have hyes : relaTargets s0.mem t name (s0.mem.rela (relaAt t.rela i0)) = true := by
              rw [← htg]
              have : ELF64_R_SYM (s0.mem.rela (relaAt t.rela i0)).r_info < numsymsOf t := by
                omega
              simp [relaTargets, c1, this, c3']
            simp only [Bool.not_true, Bool.false_eq_true, if_false]
            apply ih (i0 + 1) (s.withMem _) (by omega) (by omega)
            simp only [LinkerState.withMem]
            exact sameOutside_writeSlot hs _ _ (hws i0 (by omega) hyes)
    · subst heq
      rw [← htg] at htj
      simp only [relaTargets, Bool.and_eq_true, decide_eq_true_eq] at htj
      obtain ⟨⟨c1, c2⟩, c3⟩ := htj
      have hyes : relaTargets s0.mem t name (s0.mem.rela (relaAt t.rela i0)) = true := by
        rw [← htg]
        simp [relaTargets, c1, c2, c3]
      simp only [replaceLoop, relaAt_next, he]
      rw [if_neg c1, if_neg (by omega), if_neg (by simp [c3])]
      simp only [Bool.not_true, Bool.false_eq_true, if_false]
      apply replaceLoop_update_slot_kept s0 base name newfunc t ws hfit harr h1 h2 hc hws _ n
        (i0 + 1) (s.withMem _) (by omega)
      · simp only [LinkerState.withMem]
        exact sameOutside_writeSlot hs _ _ (hws i0 (by omega) hyes)
      · simp only [LinkerState.withMem, slotOf]
        exact slot_writeSlot_same _ _ _
      · exact fun i a b c => hlater i (by omega) b c

/-- The slot of a matching entry is one of the slots that the in-place rewrite writes. -/
theorem mem_targetSlots (s : LinkerState) (base : Nat) (name : String) (i : Nat)
    (hi : i < (imageTables s base).relasz)
    (hw : relaTargets s.mem (imageTables s base) name (relaEntry s base i) = true) :
    (slotOf base (relaEntry s base i), 8) ∈ targetSlots s base name := by
  simp only [targetSlots, List.mem_filterMap, List.mem_range]
  exact ⟨i, hi, by simp [hw]⟩

/-- Over images none of which has its three tables `SaltySDCore_ReplaceImport`
leaves the registry as it is. -/
theorem replaceImportLoop_of_no_tables (name : String) (newfunc : Nat) :
    ∀ (l : List Nat) (s : LinkerState), (∀ b ∈ l, ¬ hasTables s.mem b) →
      (replaceImportLoop name newfunc l s).replaced_symbols = s.replaced_symbols := by
  intro l
  induction l with
  | nil => intro s _; rfl
  | cons b bs ih =>
    intro s h
    simp only [replaceImportLoop]
    obtain ⟨h1, h2⟩ := replaceModuleImport_of_no_tables s b name newfunc false
      (h b (List.mem_cons_self _ _))
    rw [ih _ (by rw [h1]; exact fun b' hb' => h b' (List.mem_cons_of_mem _ hb')), h2]

/-- The function `SaltySDCore_ReplaceModuleImport` keeps the image lists. -/
theorem replaceModuleImport_lists (s : LinkerState) (base : Nat) (name : String)
    (newfunc : Nat) (update : Bool) :
    (SaltySDCore_ReplaceModuleImport s base name newfunc update).elfs = s.elfs ∧
    (SaltySDCore_ReplaceModuleImport s base name newfunc update).builtin_elfs
      = s.builtin_elfs := by
  unfold SaltySDCore_ReplaceModuleImport
  simp only
  split
  · exact ⟨rfl, rfl⟩
  · rw [(replaceLoop_frame _ _ _ _ _ _ _ _).1, (replaceLoop_frame _ _ _ _ _ _ _ _).2.1]
    exact ⟨rfl, rfl⟩

/-- The function `SaltySDCore_ReplaceImport` keeps the image lists. -/
theorem replaceImportLoop_lists (name : String) (newfunc : Nat) :
    ∀ (l : List Nat) (s : LinkerState),
      (replaceImportLoop name newfunc l s).elfs = s.elfs ∧
      (replaceImportLoop name newfunc l s).builtin_elfs = s.builtin_elfs := by
  intro l
  induction l with
  | nil => intro s; exact ⟨rfl, rfl⟩
  | cons b bs ih =>
    intro s
    simp only [replaceImportLoop]
    obtain ⟨h1, h2⟩ := replaceModuleImport_lists s b name newfunc false
    obtain ⟨g1, g2⟩ := ih (SaltySDCore_ReplaceModuleImport s b name newfunc false)
    exact ⟨g1.trans h1, g2.trans h2⟩

/-- A first install through `SaltySDCore_ReplaceImport` records the name, or
no image of the list has its three tables and the memory and the registry
are as before. -/
theorem replaceImportLoop_fresh_cases (name : String) (newfunc : Nat) :
    ∀ (l : List Nat) (s : LinkerState), hookOf s.replaced_symbols name = none →
      (hookOf (replaceImportLoop name newfunc l s).replaced_symbols name = some newfunc) ∨
      ((replaceImportLoop name newfunc l s).mem = s.mem ∧
        (replaceImportLoop name newfunc l s).replaced_symbols = s.replaced_symbols ∧
        ∀ b ∈ l, ¬ hasTables s.mem b) := by
  intro l
  induction l with
  | nil => intro s _; exact Or.inr ⟨rfl, rfl, fun _ h => absurd h (List.not_mem_nil _)⟩
  | cons b bs ih =>
    intro s hfresh
    simp only [replaceImportLoop]
    by_cases hb : hasTables s.mem b
    · exact Or.inl (replaceImportLoop_keeps_hook name newfunc name newfunc bs _
        (replaceModuleImport_records s b name newfunc hfresh hb))
    · obtain ⟨hm, hr⟩ := replaceModuleImport_of_no_tables s b name newfunc false hb
      rcases ih (SaltySDCore_ReplaceModuleImport s b name newfunc false)
        (by rw [hr]; exact hfresh) with h | ⟨h1, h2, h3⟩
      · exact Or.inl h
      · refine Or.inr ⟨h1.trans hm, h2.trans hr, ?_⟩
        intro b' hb'
        rcases List.mem_cons.mp hb' with e | e
        · rw [e]; exact hb
        · have := h3 b' e
          rwa [hm] at this

/-- A second `SaltySDCore_ReplaceImport` of the same name leaves the registry as it is. -/
theorem replaceImport_twice_registry (s : LinkerState) (name : String) (newfunc : Nat) :
    (SaltySDCore_ReplaceImport (SaltySDCore_ReplaceImport s name newfunc) name
      newfunc).replaced_symbols = (SaltySDCore_ReplaceImport s name newfunc).replaced_symbols := by
  have g2 := (replaceImportLoop_lists name newfunc s.builtin_elfs s).2
  have e2 : SaltySDCore_ReplaceImport (SaltySDCore_ReplaceImport s name newfunc) name newfunc =
      replaceImportLoop name newfunc s.builtin_elfs (SaltySDCore_ReplaceImport s name newfunc) := by
    conv => lhs; unfold SaltySDCore_ReplaceImport
    unfold SaltySDCore_ReplaceImport
    rw [g2]
  rw [e2]
  have hold : ∀ X, hookOf (SaltySDCore_ReplaceImport s name newfunc).replaced_symbols name
      = some X →
      (replaceImportLoop name newfunc s.builtin_elfs
        (SaltySDCore_ReplaceImport s name newfunc)).replaced_symbols
        = (SaltySDCore_ReplaceImport s name newfunc).replaced_symbols := by
    intro X hX
    rcases replaceImportLoop_registry name newfunc s.builtin_elfs
      (SaltySDCore_ReplaceImport s name newfunc) with h | ⟨h0, _⟩
    · exact h
    · rw [hX] at h0; exact absurd h0 (by simp)
  cases hs : hookOf s.replaced_symbols name with
  | some X =>
    exact hold X (replaceImportLoop_keeps_hook name newfunc name X s.builtin_elfs s hs)
  | none =>
    rcases replaceImportLoop_fresh_cases name newfunc s.builtin_elfs s hs with h | ⟨h1, _, h3⟩
    · exact hold newfunc h
    · apply replaceImportLoop_of_no_tables
      intro b hb
      have hm : (SaltySDCore_ReplaceImport s name newfunc).mem = s.mem := h1
      rw [hm]
      exact h3 b hb

end Loops

/-! ## The relocation engine on concrete images -/

/-- C16, witness: the image at `0x200000` of `memTwoImages` has no `DT_RELA` entry. -/
theorem replaceModuleImport_missing_table_witness :
    (∀ d ∈ linkerBuiltin.mem.dynamicOf 0x200000, d.d_tag ≠ DT_RELA) ∧
    (SaltySDCore_ReplaceModuleImport linkerBuiltin 0x200000 "foo" 0x777000 false).mem
      = linkerBuiltin.mem ∧
    (SaltySDCore_ReplaceModuleImport linkerBuiltin 0x200000 "foo" 0x777000 false).replaced_symbols
      = linkerBuiltin.replaced_symbols :=
  ⟨by decide,
    (replaceModuleImport_missing_table linkerBuiltin 0x200000 "foo" 0x777000 false
      (Or.inr (Or.inr (by decide)))).1,
    (replaceModuleImport_missing_table linkerBuiltin 0x200000 "foo" 0x777000 false
      (Or.inr (Or.inr (by decide)))).2.1⟩


end SaltyNX
